import Mathlib

/-!
Verification development for the vex network-server toolkit.

This file gives a shallow embedding, in Lean 4, of the parts of the vex
source relevant to its specification: the 10-byte wire-header codec, the
session receive loop and send path (`basic_session_impl`), the
backpressure controller, the compacting flat receive buffer, the session
sequence counter, and the four expirator variants (ordered-map, binary
min-heap, hierarchical timing wheel, lock-free MPSC).  Bytes are modelled
as `Nat` values below 256, machine integers as `Nat`/`Int` with explicit
wrap-around where the C++ types wrap, C++ exceptions as explicit outcome
constructors, and the reactor callbacks as pure state-transforming
functions.  Theorems at the end of the file settle the specified
properties against these definitions.
-/

set_option autoImplicit false
set_option maxRecDepth 4000

namespace Vex

/-! ## Wire-header codec (`basic_session_impl::deserialize_header` / `serialize_header`) -/

/-- Fixed wire-header length in bytes (`basic_session_impl::header_length`). -/
def header_length : Nat := 10

/-- Big-endian 32-bit read, the `read_u32` lambda of `deserialize_header`:
`b[0] << 24 | b[1] << 16 | b[2] << 8 | b[3]`.  Bytes are `Nat` values below
256, so the `uint32_t` shifts never overflow and are exact on `Nat`. -/
def read_u32 (b0 b1 b2 b3 : Nat) : Nat :=
  b0 <<< 24 ||| b1 <<< 16 ||| b2 <<< 8 ||| b3

/-- Big-endian 32-bit write, the `write_u32` lambda of `serialize_header`:
byte `i` is `(val >> (24 - 8*i)) & 0xFF`. -/
def write_u32 (val : Nat) : List Nat :=
  [(val >>> 24) &&& 0xFF, (val >>> 16) &&& 0xFF, (val >>> 8) &&& 0xFF, val &&& 0xFF]

/-- Decoded header tuple `(cmd_len, cmd_id, cmd_status, seq_num)`.  The two
enum fields keep their raw byte values (both enums have `uint8_t` underlying
type, so every byte is representable). -/
def HeaderTuple : Type := Nat × Nat × Nat × Nat

/-- Model of `basic_session_impl::deserialize_header`.  A `.error` value
models a thrown `std::runtime_error` with the given message. -/
def deserialize_header (buf : List Nat) : Except String (Nat × Nat × Nat × Nat) :=
  if buf.length < header_length then
    Except.error "Invalid header size"
  else
    let cmd_len := read_u32 (buf.getD 0 0) (buf.getD 1 0) (buf.getD 2 0) (buf.getD 3 0)
    let cmd_id := buf.getD 4 0
    let cmd_status := buf.getD 5 0
    let seq_num := read_u32 (buf.getD 6 0) (buf.getD 7 0) (buf.getD 8 0) (buf.getD 9 0)
    if cmd_len < header_length then
      Except.error "Invalid command_length"
    else
      Except.ok (cmd_len, cmd_id, cmd_status, seq_num)

/-- Model of `basic_session_impl::serialize_header`.  The command id and
status are narrowed to their `uint8_t` representations (`static_cast` in the
source, value-preserving for in-range enum values, mod 256 in general). -/
def serialize_header (cmd_len cmd_id seq_num status : Nat) : List Nat :=
  write_u32 cmd_len ++ [cmd_id % 256, status % 256] ++ write_u32 seq_num

/-! ## Session configuration (`session_config`) -/

/-- Model of `struct session_config` with the source's default member
initialisers. -/
structure session_config where
  send_buf_capacity : Nat := 1024 * 1024
  send_buf_threshold : Nat := 1024 * 1024
  receive_buf_size : Nat := 1024 * 1024
  small_body_size : Nat := 256
  max_command_length : Nat := 10 * 1024 * 1024
  unbind_timeout_seconds : Nat := 5
  backpressure_low_watermark : Nat := 512 * 1024
  backpressure_high_watermark : Nat := 1024 * 1024
deriving Repr, DecidableEq

/-- Model of `session_config::is_valid`. -/
def session_config.is_valid (c : session_config) : Bool :=
  decide (c.send_buf_capacity > 0) &&
  decide (c.send_buf_threshold ≤ c.send_buf_capacity) &&
  decide (c.receive_buf_size > 0) &&
  decide (c.max_command_length > 0) &&
  decide (c.backpressure_low_watermark ≤ c.backpressure_high_watermark) &&
  decide (c.backpressure_high_watermark ≤ c.send_buf_capacity)

/-! ## Receive path (`basic_session_impl::do_receive` / `process_message`)

The receive buffer is modelled by its readable byte region `[in, out)` as a
`List Nat`; `flat_buffer::consume k` acts on that view as `List.drop k`
(when `k ≥ size` the source resets both cursors, which also leaves an empty
readable region). -/

/-- Size in bytes of the fixed stack buffer `std::array<uint8_t, 256>
stack_buf` declared in `process_message`. -/
def stack_buf_size : Nat := 256

/-- Where `process_message` stages the frame body, and for the stack buffer
how many bytes `std::copy_n` writes into it starting at offset 0. -/
inductive BodyStorage where
  | stackBuf (copyLen : Nat)
  | heapBuf
  | noBody
deriving Repr, DecidableEq

/-- Result of `process_message`: the storage chosen for the body, the byte
span handed to `dispatch_message`, and the readable region left after
`consume(cmd_len)`. -/
structure ProcessMessageResult where
  storage : BodyStorage
  body : List Nat
  rest : List Nat
deriving Repr, DecidableEq

/-- Model of `basic_session_impl::process_message` for a frame of declared
length `cmd_len` at the front of the readable region `receive_buf`.
The small-body branch copies `body_size` bytes into the 256-byte stack
array; the model records the copy extent, since the source performs the
copy unconditionally whenever `0 < body_size ≤ small_body_size`. -/
def process_message (cfg : session_config) (receive_buf : List Nat) (cmd_len : Nat) :
    ProcessMessageResult :=
  let body_size := cmd_len - header_length
  if body_size ≤ cfg.small_body_size ∧ body_size > 0 then
    { storage := BodyStorage.stackBuf body_size
      body := (receive_buf.drop header_length).take body_size
      rest := receive_buf.drop cmd_len }
  else if body_size > 0 then
    { storage := BodyStorage.heapBuf
      body := (receive_buf.drop header_length).take body_size
      rest := receive_buf.drop cmd_len }
  else
    { storage := BodyStorage.noBody
      body := []
      rest := receive_buf.drop cmd_len }

/-- Outcome of one iteration of the `while (true)` loop in
`basic_session_impl::do_receive`.  `uncaughtException` models a C++
exception thrown by `deserialize_header` that no enclosing handler catches:
`do_receive` calls `deserialize_header` outside any try block, and both
call sites of `do_receive` (the `async_receive` completion lambda and
`do_resume_receiving` via `ThreadingPolicy::dispatch`) let exceptions
propagate, so `close` is never invoked on this path. -/
inductive RecvOutcome where
  | needMoreData
  | closed (reason : String)
  | uncaughtException (msg : String)
  | dispatched (cmd_id cmd_status seq_num : Nat) (result : ProcessMessageResult)
deriving Repr, DecidableEq

/-- Model of one iteration of the receive loop in
`basic_session_impl::do_receive`, in source order: header-size check,
`deserialize_header` (which throws on `cmd_len < 10`), the
`max_command_length` check (which calls `close`), the whole-frame check,
then `process_message`. -/
def do_receive_step (cfg : session_config) (receive_buf : List Nat) : RecvOutcome :=
  if receive_buf.length < header_length then
    RecvOutcome.needMoreData
  else
    match deserialize_header (receive_buf.take header_length) with
    | Except.error msg => RecvOutcome.uncaughtException msg
    | Except.ok (cmd_len, cmd_id, cmd_status, seq_num) =>
      if cmd_len > cfg.max_command_length then
        RecvOutcome.closed "Command length exceeds max"
      else if receive_buf.length < cmd_len then
        RecvOutcome.needMoreData
      else
        RecvOutcome.dispatched cmd_id cmd_status seq_num
          (process_message cfg receive_buf cmd_len)

/-! ## Backpressure controller (`backpressure_controller`) -/

/-- Model of `class backpressure_controller`: the two watermarks and the
`paused_` flag. -/
structure backpressure_controller where
  low_watermark : Nat
  high_watermark : Nat
  paused : Bool := false
deriving Repr, DecidableEq

/-- Model of `backpressure_controller::should_pause`: returns the function
result together with the updated controller. -/
def should_pause (c : backpressure_controller) (current_size : Nat) :
    Bool × backpressure_controller :=
  if !c.paused && decide (current_size > c.high_watermark) then
    (true, { c with paused := true })
  else
    (false, c)

/-- Model of `backpressure_controller::should_resume`. -/
def should_resume (c : backpressure_controller) (current_size : Nat) :
    Bool × backpressure_controller :=
  if c.paused && decide (current_size < c.low_watermark) then
    (true, { c with paused := false })
  else
    (false, c)

/-- The two call sites of the controller on the session's send path: every
append to the pending buffer consults `should_pause` (`do_send_impl`), and
every buffer swap consults `should_resume` (`do_send`), each with the
pending buffer's current size. -/
inductive BPOp where
  | pauseCheck (size : Nat)
  | resumeCheck (size : Nat)
deriving Repr, DecidableEq

/-- Trace of controller results for a sequence of send-path calls: each
element pairs the call with the value the controller returned for it. -/
def bp_trace (c : backpressure_controller) : List BPOp → List (BPOp × Bool)
  | [] => []
  | BPOp.pauseCheck n :: rest =>
    let r := should_pause c n
    (BPOp.pauseCheck n, r.1) :: bp_trace r.2 rest
  | BPOp.resumeCheck n :: rest =>
    let r := should_resume c n
    (BPOp.resumeCheck n, r.1) :: bp_trace r.2 rest

/-- Does a trace element record `should_resume` returning true (the
paused-to-flowing edge, on which `send_buf_available` fires)? -/
def isResumeFire : BPOp × Bool → Bool
  | (BPOp.resumeCheck _, true) => true
  | _ => false

/-- Does a trace element record `should_pause` returning true (the
flowing-to-paused edge)? -/
def isPauseFire : BPOp × Bool → Bool
  | (BPOp.pauseCheck _, true) => true
  | _ => false

/-! ## Flat receive buffer (`detail::flat_buffer`) -/

/-- Model of `detail::flat_buffer<T, N>`: the fixed storage array as a list
(its length is the capacity `N`) and the three cursors as offsets from the
start of the storage, mirroring the pointers `in_`, `out_`, `last_`. -/
structure flat_buffer where
  buf : List Nat
  inp : Nat
  out : Nat
  last : Nat
deriving Repr, DecidableEq

/-- Model of `flat_buffer::capacity`. -/
def flat_buffer.capacity (b : flat_buffer) : Nat := b.buf.length

/-- Model of `flat_buffer::size` (`out_ - in_`). -/
def flat_buffer.size (b : flat_buffer) : Nat := b.out - b.inp

/-- Readable region `[in_, out_)`, the bytes `flat_buffer::data` exposes. -/
def flat_buffer.readable (b : flat_buffer) : List Nat :=
  (b.buf.drop b.inp).take (b.out - b.inp)

/-- Cursor well-formedness maintained by the source (`is_valid`):
`in_ ≤ out_ ≤ last_ ≤ capacity`. -/
def flat_buffer.wf (b : flat_buffer) : Bool :=
  decide (b.inp ≤ b.out) && decide (b.out ≤ b.last) && decide (b.last ≤ b.capacity)

/-- Model of `flat_buffer::prepare`.  On success it yields the offset of the
returned mutable region (its length is the requested `n`) and the updated
buffer; `.error` models the thrown `std::length_error`, after which the
object is unchanged.  Compaction `memmove`s the `size()` readable elements
to offset 0 and leaves the tail of the storage unchanged. -/
def flat_buffer.prepare (b : flat_buffer) (n : Nat) : Except String (Nat × flat_buffer) :=
  if n ≤ b.capacity - b.out then
    Except.ok (b.out, { b with last := b.out + n })
  else
    let len := b.size
    if n > b.capacity - len then
      Except.error "flat_buffer::prepare buffer overflow"
    else
      let moved := (b.buf.drop b.inp).take len ++ b.buf.drop len
      Except.ok (len, { buf := moved, inp := 0, out := len, last := len + n })

/-! ## Sequence counter (`basic_session_impl::next_sequence_number`) -/

/-- One call to `next_sequence_number` on counter state `s` (the member
`sequence_number_`, a `uint32_t`): pre-increment with 32-bit wrap-around,
then the skip of 0.  The call's return value equals the new state. -/
def next_sequence_number (s : Nat) : Nat :=
  let s' := (s + 1) % 2 ^ 32
  if s' = 0 then 1 else s'

/-- Counter state after `k` calls starting from the constructor's initial
`sequence_number_{0}`; for `k ≥ 1` this is also what the `k`-th call
returned. -/
def seq_after : Nat → Nat
  | 0 => 0
  | k + 1 => next_sequence_number (seq_after k)

/-! ## Send path (`basic_session_impl::do_send_impl`) -/

/-- Behaviour of `serialize_to(&pending_send_buf_, pdu)` as seen from
`do_send_impl`: either it appends the PDU's body bytes and returns, or it
throws after having appended some partial prefix of bytes. -/
inductive SerializeBehaviour where
  | ok (bodyBytes : List Nat)
  | throwsAfter (partialBytes : List Nat)
deriving Repr, DecidableEq

/-- Result of `do_send_impl`: the pending send buffer afterwards, whether a
C++ exception propagated to the caller, and whether the message was
serialized and queued. -/
structure SendOutcome where
  pending : List Nat
  thrown : Bool
  queued : Bool
deriving Repr, DecidableEq

/-- Model of `basic_session_impl::do_send_impl` acting on the pending send
buffer.  `can_send` is `state_->can_send()`.  The source records
`prev_size`, grows the buffer by `header_length` zero bytes (`resize`),
runs the serializer inside a try block whose catch clause resizes the
buffer back to `prev_size` and rethrows, and on success overwrites the
reserved bytes with the real header. -/
def do_send_impl (can_send : Bool) (pending : List Nat)
    (cmd_id seq_num status : Nat) (ser : SerializeBehaviour) : SendOutcome :=
  if !can_send then
    { pending := pending, thrown := false, queued := false }
  else
    let prev_size := pending.length
    let resized := pending ++ List.replicate header_length 0
    match ser with
    | SerializeBehaviour.throwsAfter partialBytes =>
      { pending := (resized ++ partialBytes).take prev_size
        thrown := true
        queued := false }
    | SerializeBehaviour.ok bodyBytes =>
      let grown := resized ++ bodyBytes
      let cmd_len := grown.length - prev_size
      let header := serialize_header cmd_len cmd_id seq_num status
      { pending := grown.take prev_size ++ header ++ grown.drop (prev_size + header_length)
        thrown := false
        queued := true }

/-! ## Expirators — shared association-list and multimap models

All four expirator variants keep a key-indexed hash map
(`std::unordered_map`) and a deadline-ordered structure.  The hash maps
are modelled as association lists with pairwise-distinct keys; deadlines
(`std::chrono::steady_clock::time_point`) are modelled as `Int`
(milliseconds of monotonic time), and durations as `Int` so that
non-positive ttls behave as in the source. -/

section Expirators

variable {K V : Type} [DecidableEq K]

/-- Lookup in an association list (`unordered_map::find`). -/
def find_entry {V' : Type} : List (K × V') → K → Option V'
  | [], _ => none
  | (k', v) :: rest, k => if k' = k then some v else find_entry rest k

/-- Erase from an association list (`unordered_map::erase` of the found
iterator; under distinct keys this removes exactly that entry). -/
def erase_entry {V' : Type} : List (K × V') → K → List (K × V')
  | [], _ => []
  | (k', v) :: rest, k => if k' = k then rest else (k', v) :: erase_entry rest k

/-- Pairwise-distinct keys, the `unordered_map` representation invariant. -/
def keys_nodup {V' : Type} : List (K × V') → Bool
  | [] => true
  | (k, _) :: rest => !(find_entry rest k).isSome && keys_nodup rest

/-- Insertion into a deadline-sorted multimap (`std::multimap::emplace`
places a new element after existing elements with an equivalent key). -/
def mm_insert (p : Int × K) : List (Int × K) → List (Int × K)
  | [] => [p]
  | q :: rest => if q.1 ≤ p.1 then q :: mm_insert p rest else p :: q :: rest

/-- Erasure of one specific element through a stored iterator
(`expiry_queue_.erase(queue_iter)`): removes the first occurrence of that
exact (deadline, key) element. -/
def mm_erase (p : Int × K) : List (Int × K) → List (Int × K)
  | [] => []
  | q :: rest => if q = p then rest else q :: mm_erase p rest

/-- Multimap ordering invariant: deadlines are nondecreasing front to back. -/
def mm_sorted : List (Int × K) → Bool
  | [] => true
  | [_] => true
  | p :: q :: rest => decide (p.1 ≤ q.1) && mm_sorted (q :: rest)

/-- Outcome of one firing pass of an expirator (one timer callback):
the state afterwards, the list of expiry-handler invocations — each with
the key, the payload moved into the callback, and a snapshot of the
expirator state at the moment of that invocation — the exception that
escaped the pass uncaught (if the handler threw), and the
`error_handler_` reports made during the pass (the firing loops of all
variants make none; that handler is only invoked for timer errors). -/
structure FireOutcome (K V S : Type) where
  state : S
  fired : List (K × V × S)
  escaped : Option String
  error_reports : List String

/-- The (key, payload) pairs handed to the expiry handler during a pass. -/
def fired_pairs {K V S : Type} (o : FireOutcome K V S) : List (K × V) :=
  o.fired.map (fun x => (x.1, x.2.1))

/-- The keys handed to the expiry handler during a pass. -/
def fired_keys {K V S : Type} (o : FireOutcome K V S) : List K :=
  o.fired.map (fun x => x.1)

/-- The specified behaviour of one firing pass with a non-throwing handler:
no exception escapes, no error-handler report is made, the invoked
(key, payload) pairs are exactly the due entries (each exactly once), and
at the moment of each invocation the fired key is visible neither through
`contains` nor through `get_info`. -/
def FiringPost {K V S : Type} (contains : S → K → Bool) (get_info : S → K → Option V)
    (due : List (K × V)) (o : FireOutcome K V S) : Prop :=
  o.escaped = none ∧
  o.error_reports = [] ∧
  List.Perm (fired_pairs o) due ∧
  (fired_keys o).Nodup ∧
  ∀ x ∈ o.fired, contains x.2.2 x.1 = false ∧ get_info x.2.2 x.1 = none

/-- The actual behaviour of one firing pass when the handler throws: the
pass makes no error-handler report; if an exception escapes, the last
invocation is the one that threw it, every invoked entry had already been
removed when its callback ran, and every due entry that was never invoked
is still present in the final state. -/
def EscapePost {K V S : Type} (contains : S → K → Bool) (get_info : S → K → Option V)
    (handler : K → V → Except String Unit) (due : List (K × V))
    (o : FireOutcome K V S) : Prop :=
  o.error_reports = [] ∧
  ∀ msg, o.escaped = some msg →
    (∃ pre lastx, o.fired = pre ++ [lastx] ∧
      handler lastx.1 lastx.2.1 = Except.error msg) ∧
    (∀ x ∈ o.fired, contains x.2.2 x.1 = false ∧ get_info x.2.2 x.1 = none) ∧
    (∀ p ∈ due, p.1 ∉ fired_keys o → contains o.state p.1 = true)

/-! ### Ordered-map variant (`pa::pinex::io::expirator`) -/

/-- Model of `io::expirator::entry_data` without the stored multimap
iterator: the iterator is represented by the (deadline, key) element it
designates, which `expiry` and the entry's key determine. -/
structure IoEntry (V : Type) where
  expiry : Int
  info : V
deriving Repr, DecidableEq

/-- Model of the `io::expirator` state: key map, deadline multimap, and the
`running_` flag. -/
structure IoState (K V : Type) where
  entries : List (K × IoEntry V)
  expiry_queue : List (Int × K)
  running : Bool
deriving Repr, DecidableEq

/-- Model of `io::expirator::add`.  On success the timer ends up armed in
every branch of the source (reschedule when the new element is the
earliest, auto-start otherwise), so `running` becomes true. -/
def io_add (st : IoState K V) (now : Int) (key : K) (dur : Int) (info : V) :
    Bool × IoState K V :=
  if (find_entry st.entries key).isSome then (false, st)
  else
    let expiry := now + dur
    (true, { entries := st.entries ++ [(key, ⟨expiry, info⟩)]
             expiry_queue := mm_insert (expiry, key) st.expiry_queue
             running := true })

/-- Model of `io::expirator::contains`. -/
def io_contains (st : IoState K V) (k : K) : Bool :=
  (find_entry st.entries k).isSome

/-- Model of `io::expirator::get_info`. -/
def io_get_info (st : IoState K V) (k : K) : Option V :=
  (find_entry st.entries k).map (fun e => e.info)

/-- The per-key body of the second loop of `io::expirator::process_expired`:
look the key up, erase the queue element through the stored iterator, erase
the map entry, then invoke the handler with a copy of the payload.  A
throwing handler aborts the loop and the exception escapes (the source has
no try/catch here). -/
def io_process_keys (handler : K → V → Except String Unit) :
    List K → IoState K V → FireOutcome K V (IoState K V)
  | [], st => { state := st, fired := [], escaped := none, error_reports := [] }
  | k :: rest, st =>
    match find_entry st.entries k with
    | none => io_process_keys handler rest st
    | some e =>
      let st' : IoState K V :=
        { entries := erase_entry st.entries k
          expiry_queue := mm_erase (e.expiry, k) st.expiry_queue
          running := st.running }
      match handler k e.info with
      | Except.error msg =>
        { state := st', fired := [(k, e.info, st')], escaped := some msg, error_reports := [] }
      | Except.ok _ =>
        let o := io_process_keys handler rest st'
        { o with fired := (k, e.info, st') :: o.fired }

/-- Model of `io::expirator::process_expired`: collect the keys of the
leading queue elements with deadline at most `now`, then process them. -/
def io_process_expired (handler : K → V → Except String Unit)
    (st : IoState K V) (now : Int) : FireOutcome K V (IoState K V) :=
  let expired_keys := (st.expiry_queue.takeWhile (fun p => decide (p.1 ≤ now))).map (fun p => p.2)
  io_process_keys handler expired_keys st

/-- Well-formedness of an `io::expirator` state: distinct keys, sorted
queue, and the queue holding exactly one (deadline, key) element per map
entry. -/
def io_wf (st : IoState K V) : Bool :=
  keys_nodup st.entries &&
  mm_sorted st.expiry_queue &&
  decide (List.Perm (st.expiry_queue.map (fun p => (p.2, p.1)))
    (st.entries.map (fun p => (p.1, p.2.expiry))))

/-- The (key, payload) pairs of the entries with deadline at most `now`. -/
def io_due (st : IoState K V) (now : Int) : List (K × V) :=
  (st.entries.filter (fun p => decide (p.2.expiry ≤ now))).map (fun p => (p.1, p.2.info))

/-! ### Binary min-heap variant (`expirator::heap_expirator`) -/

/-- Model of `heap_expirator::entry_data`. -/
structure HeapEntryData (V : Type) where
  expiry : Int
  info : V
  heap_index : Nat
deriving Repr, DecidableEq

/-- Model of `heap_expirator::heap_node`. -/
structure heap_node (K : Type) where
  expiry : Int
  key : K
deriving Repr, DecidableEq

/-- Model of the `heap_expirator` state. -/
structure HeapState (K V : Type) where
  entries : List (K × HeapEntryData V)
  heap : List (heap_node K)
  running : Bool
deriving Repr, DecidableEq

/-- Model of `heap_expirator::parent`. -/
def parent_idx (i : Nat) : Nat := (i - 1) / 2

/-- Model of `heap_expirator::left_child`. -/
def left_child (i : Nat) : Nat := 2 * i + 1

/-- Model of `heap_expirator::right_child`. -/
def right_child (i : Nat) : Nat := 2 * i + 2

/-- The heap-index bookkeeping write
`entries_[heap_[i].key].heap_index = i` (the key is present whenever the
source performs this write, so the map update touches exactly one entry). -/
def set_heap_index : List (K × HeapEntryData V) → K → Nat → List (K × HeapEntryData V)
  | [], _, _ => []
  | (k', d) :: rest, k, i =>
    (k', if k' = k then { d with heap_index := i } else d) :: set_heap_index rest k i

/-- Bookkeeping helper: update the stored heap index of the entry whose key
sits at heap position `i`. -/
def fix_index (entries : List (K × HeapEntryData V)) (h : List (heap_node K)) (i : Nat) :
    List (K × HeapEntryData V) :=
  match h[i]? with
  | some n => set_heap_index entries n.key i
  | none => entries

/-- Swap of two heap positions (`std::swap(heap_[i], heap_[j])`). -/
def swap_nodes {K' : Type} (h : List (heap_node K')) (i j : Nat) : List (heap_node K') :=
  match h[i]?, h[j]? with
  | some a, some b => (h.set i b).set j a
  | _, _ => h

/-- Comparison `heap_[i].expiry < heap_[j].expiry` (false when either index
is out of range; the source only evaluates it on valid indices). -/
def node_lt {K' : Type} (h : List (heap_node K')) (i j : Nat) : Bool :=
  match h[i]?, h[j]? with
  | some a, some b => decide (a.expiry < b.expiry)
  | _, _ => false

/-- Model of `heap_expirator::heap_bubble_up`.  The `while (idx > 0)` loop
is embedded with a fuel argument; `idx` strictly decreases each iteration,
so any fuel of at least `idx + 1` computes the loop's result. -/
def heap_bubble_up :
    Nat → List (heap_node K) → List (K × HeapEntryData V) → Nat →
    List (heap_node K) × List (K × HeapEntryData V)
  | 0, h, e, _ => (h, e)
  | fuel + 1, h, e, idx =>
    if idx > 0 then
      let p := parent_idx idx
      if !(node_lt h idx p) then (h, e)
      else
        let h' := swap_nodes h idx p
        let e' := fix_index (fix_index e h' idx) h' p
        heap_bubble_up fuel h' e' p
    else (h, e)

/-- The `smallest` computation of one `heap_expirator::heap_bubble_down`
iteration: the index among `idx` and its in-range children holding the
least expiry (children win ties against `idx`, the right child loses ties
against the left). -/
def bd_target {K' : Type} (h : List (heap_node K')) (idx : Nat) : Nat :=
  let size := h.length
  let l := left_child idx
  let r := right_child idx
  let s1 := if l < size && node_lt h l idx then l else idx
  if r < size && node_lt h r s1 then r else s1

/-- Model of `heap_expirator::heap_bubble_down`.  The `while (true)` loop is
embedded with a fuel argument; `idx` strictly increases each iteration while
staying below the heap size, so any fuel of at least `size - idx` computes
the loop's result. -/
def heap_bubble_down :
    Nat → List (heap_node K) → List (K × HeapEntryData V) → Nat →
    List (heap_node K) × List (K × HeapEntryData V)
  | 0, h, e, _ => (h, e)
  | fuel + 1, h, e, idx =>
    let s2 := bd_target h idx
    if s2 = idx then (h, e)
    else
      let h' := swap_nodes h idx s2
      let e' := fix_index (fix_index e h' idx) h' s2
      heap_bubble_down fuel h' e' s2

/-- Model of `heap_expirator::add`: reject a present key, otherwise append
the node, record the entry with deadline `now + ttl`, sift up, and arm the
timer when the new node ended up at (or started at) the root. -/
def heap_add (st : HeapState K V) (now : Int) (key : K) (dur : Int) (info : V) :
    Bool × HeapState K V :=
  if (find_entry st.entries key).isSome then (false, st)
  else
    let expiry := now + dur
    let heap_index := st.heap.length
    let h1 := st.heap ++ [⟨expiry, key⟩]
    let e1 := st.entries ++ [(key, ⟨expiry, info, heap_index⟩)]
    let he := heap_bubble_up h1.length h1 e1 heap_index
    let becameRoot :=
      decide (heap_index = 0) ||
        (match he.1[0]? with
         | some n => decide (n.key = key)
         | none => false)
    (true, { entries := he.2, heap := he.1
             running := if becameRoot then true else st.running })

/-- Model of `heap_expirator::contains`. -/
def heap_contains (st : HeapState K V) (k : K) : Bool :=
  (find_entry st.entries k).isSome

/-- Model of `heap_expirator::get_info`. -/
def heap_get_info (st : HeapState K V) (k : K) : Option V :=
  (find_entry st.entries k).map (fun e => e.info)

/-- The root-removal steps of `heap_expirator::process_expired`: overwrite
the root with the back node, pop the back, and — when the heap is still
non-empty — refresh the new root's stored index and sift down from the
root. -/
def heap_pop_root (h : List (heap_node K)) (e : List (K × HeapEntryData V)) :
    List (heap_node K) × List (K × HeapEntryData V) :=
  match h.getLast? with
  | none => (h, e)
  | some lastNode =>
    let h1 := (h.set 0 lastNode).dropLast
    if h1.isEmpty then (h1, e)
    else
      let e1 := fix_index e h1 0
      heap_bubble_down h1.length h1 e1 0

/-- Model of `heap_expirator::process_expired`.  The `while` loop is
embedded with fuel; each iteration removes one heap node, so any fuel of at
least the heap size computes the loop's result.  Handler exceptions are not
caught: the first throwing invocation ends the pass and escapes. -/
def heap_process_expired (handler : K → V → Except String Unit) :
    Nat → HeapState K V → Int → FireOutcome K V (HeapState K V)
  | 0, st, _ => { state := st, fired := [], escaped := none, error_reports := [] }
  | fuel + 1, st, now =>
    match st.heap[0]? with
    | none => { state := st, fired := [], escaped := none, error_reports := [] }
    | some root =>
      if decide (root.expiry ≤ now) then
        match find_entry st.entries root.key with
        | some entry =>
          let he := heap_pop_root st.heap st.entries
          let st' : HeapState K V :=
            { entries := erase_entry he.2 root.key, heap := he.1, running := st.running }
          match handler root.key entry.info with
          | Except.error msg =>
            { state := st', fired := [(root.key, entry.info, st')]
              escaped := some msg, error_reports := [] }
          | Except.ok _ =>
            let o := heap_process_expired handler fuel st' now
            { o with fired := (root.key, entry.info, st') :: o.fired }
        | none =>
          let he := heap_pop_root st.heap st.entries
          heap_process_expired handler fuel
            { entries := he.2, heap := he.1, running := st.running } now
      else { state := st, fired := [], escaped := none, error_reports := [] }

/-- The binary-heap ordering invariant: every non-root node's parent holds
an expiry at most the node's expiry. -/
def heap_prop {K' : Type} (h : List (heap_node K')) : Bool :=
  (List.range h.length).all fun j =>
    decide (j = 0) ||
      match h[parent_idx j]?, h[j]? with
      | some a, some b => decide (a.expiry ≤ b.expiry)
      | _, _ => true

/-- Propositional form of the binary-heap ordering invariant. -/
def IsHeapP {K' : Type} (h : List (heap_node K')) : Prop :=
  ∀ j a b, 0 < j → h[j]? = some b → h[parent_idx j]? = some a → a.expiry ≤ b.expiry

/-- The heap invariant possibly broken at `idx` only: every parent-child
pair not rooted at `idx` is ordered, and `idx`'s own parent already bounds
the children of `idx` (the state reached while sifting down). -/
def AlmostHeapAt {K' : Type} (idx : Nat) (h : List (heap_node K')) : Prop :=
  (∀ j a b, 0 < j → parent_idx j ≠ idx → h[j]? = some b → h[parent_idx j]? = some a →
    a.expiry ≤ b.expiry) ∧
  (∀ j g b, parent_idx j = idx → 0 < idx → h[j]? = some b → h[parent_idx idx]? = some g →
    g.expiry ≤ b.expiry)

/-- Synchronisation invariant of `heap_expirator`: the heap's
(key, deadline) multiset equals the map's. -/
def heap_sync (st : HeapState K V) : Bool :=
  decide (List.Perm (st.heap.map (fun n => (n.key, n.expiry)))
    (st.entries.map (fun p => (p.1, p.2.expiry))))

/-- Well-formedness of a `heap_expirator` state. -/
def heap_wf (st : HeapState K V) : Bool :=
  keys_nodup st.entries && heap_sync st && heap_prop st.heap

/-- The (key, payload) pairs of the heap entries with deadline at most
`now`. -/
def heap_due (st : HeapState K V) (now : Int) : List (K × V) :=
  (st.entries.filter (fun p => decide (p.2.expiry ≤ now))).map (fun p => (p.1, p.2.info))

/-- The user-visible (deadline, payload) view of one key's map entry,
ignoring the internal `heap_index` bookkeeping field. -/
def entry_view (l : List (K × HeapEntryData V)) (k : K) : Option (Int × V) :=
  (find_entry l k).map (fun d => (d.expiry, d.info))

/-! ### Hierarchical timing-wheel variant (`expirator::timing_wheel_expirator`)

The 1 ms base tick makes `duration_cast<milliseconds>` the identity on the
`Int`-millisecond time model. -/

/-- Slot count of wheel 0. -/
def WHEEL_0_SIZE : Nat := 256

/-- Slot count of wheel 1. -/
def WHEEL_1_SIZE : Nat := 64

/-- Slot count of wheel 2. -/
def WHEEL_2_SIZE : Nat := 64

/-- Slot count of wheel 3. -/
def WHEEL_3_SIZE : Nat := 64

/-- Model of `timing_wheel_expirator::entry_node`. -/
structure WheelEntry (K V : Type) where
  key : K
  info : V
  expiry : Int
  wheel_level : Nat
  slot_index : Nat
deriving Repr, DecidableEq

/-- Model of the `timing_wheel_expirator` state.  The key index
`key_to_entry_` maps each key to the wheel level and slot index of its
list node (the stored `std::list` iterator designates exactly that node
within the slot). -/
structure WheelState (K V : Type) where
  current_tick : Nat
  wheel_0 : List (List (WheelEntry K V))
  wheel_1 : List (List (WheelEntry K V))
  wheel_2 : List (List (WheelEntry K V))
  wheel_3 : List (List (WheelEntry K V))
  key_to_entry : List (K × (Nat × Nat))
  running : Bool
deriving Repr, DecidableEq

/-- Model of `timing_wheel_expirator::get_wheel` (slot list read). -/
def get_wheel (st : WheelState K V) (level : Nat) : List (List (WheelEntry K V)) :=
  match level with
  | 0 => st.wheel_0
  | 1 => st.wheel_1
  | 2 => st.wheel_2
  | _ => st.wheel_3

/-- Write one slot of one wheel. -/
def set_wheel_slot (st : WheelState K V) (level slot : Nat) (lst : List (WheelEntry K V)) :
    WheelState K V :=
  match level with
  | 0 => { st with wheel_0 := st.wheel_0.set slot lst }
  | 1 => { st with wheel_1 := st.wheel_1.set slot lst }
  | 2 => { st with wheel_2 := st.wheel_2.set slot lst }
  | _ => { st with wheel_3 := st.wheel_3.set slot lst }

/-- The wheel-level and slot-index computation of
`timing_wheel_expirator::insert_entry`: the coarsest wheel needed for a
deadline `ticks_from_now` ticks away, and the slot of `target_tick` on it. -/
def wheel_position (current_tick ticks_from_now : Nat) : Nat × Nat :=
  let target_tick := current_tick + ticks_from_now
  if ticks_from_now < WHEEL_0_SIZE then
    (0, target_tick % WHEEL_0_SIZE)
  else if ticks_from_now < WHEEL_0_SIZE * WHEEL_1_SIZE then
    (1, (target_tick / WHEEL_0_SIZE) % WHEEL_1_SIZE)
  else if ticks_from_now < WHEEL_0_SIZE * WHEEL_1_SIZE * WHEEL_2_SIZE then
    (2, (target_tick / (WHEEL_0_SIZE * WHEEL_1_SIZE)) % WHEEL_2_SIZE)
  else
    (3, (target_tick / (WHEEL_0_SIZE * WHEEL_1_SIZE * WHEEL_2_SIZE)) % WHEEL_3_SIZE)

/-- Model of `timing_wheel_expirator::insert_entry`: clamp the remaining
ticks at zero, pick the coarsest wheel needed, append the node to the slot,
and index the key. -/
def insert_entry (st : WheelState K V) (now : Int) (key : K) (info : V) (expiry : Int) :
    WheelState K V :=
  let t := expiry - now
  let ticks_from_now : Nat := if t < 0 then 0 else t.toNat
  let lvlslot : Nat × Nat := wheel_position st.current_tick ticks_from_now
  let slot := (get_wheel st lvlslot.1).getD lvlslot.2 []
  let slot' := slot ++ [⟨key, info, expiry, lvlslot.1, lvlslot.2⟩]
  let st' := set_wheel_slot st lvlslot.1 lvlslot.2 slot'
  { st' with key_to_entry := st'.key_to_entry ++ [(key, lvlslot)] }

/-- Model of `timing_wheel_expirator::add`: reject a present key, insert
with deadline `now + ttl`, and when the wheel was stopped, `start()` resets
the tick origin and arms the timer. -/
def wheel_add (st : WheelState K V) (now : Int) (key : K) (dur : Int) (info : V) :
    Bool × WheelState K V :=
  if (find_entry st.key_to_entry key).isSome then (false, st)
  else
    let expiry := now + dur
    let st' := insert_entry st now key info expiry
    if !st.running then
      (true, { st' with current_tick := 0, running := true })
    else
      (true, st')

/-- Model of `timing_wheel_expirator::contains`. -/
def wheel_contains (st : WheelState K V) (k : K) : Bool :=
  (find_entry st.key_to_entry k).isSome

/-- Model of `timing_wheel_expirator::get_info`: follow the key index to
the slot node and read its payload. -/
def wheel_get_info (st : WheelState K V) (k : K) : Option V :=
  match find_entry st.key_to_entry k with
  | none => none
  | some lvlslot =>
    (((get_wheel st lvlslot.1).getD lvlslot.2 []).find? (fun en => decide (en.key = k))).map
      (fun en => en.info)

/-- Shape invariant of the four `std::array` wheels: 256/64/64/64 slots. -/
def wheel_shape (st : WheelState K V) : Bool :=
  decide (st.wheel_0.length = WHEEL_0_SIZE) &&
  decide (st.wheel_1.length = WHEEL_1_SIZE) &&
  decide (st.wheel_2.length = WHEEL_2_SIZE) &&
  decide (st.wheel_3.length = WHEEL_3_SIZE)

/-- The iteration of `timing_wheel_expirator::process_slot` over the slot
list of wheel 0 at index `s`: `kept` holds the entries already visited and
retained, and the state's slot always equals `kept` followed by the
remaining entries.  A due entry is erased from the key index and the slot
list before its callback runs; a throwing callback ends the pass and the
exception escapes uncaught. -/
def wheel_process_slot_go (handler : K → V → Except String Unit) (s : Nat) (now : Int) :
    List (WheelEntry K V) → List (WheelEntry K V) → WheelState K V →
    FireOutcome K V (WheelState K V)
  | [], _, st => { state := st, fired := [], escaped := none, error_reports := [] }
  | en :: rest, kept, st =>
    if decide (en.expiry ≤ now) then
      let st' : WheelState K V :=
        set_wheel_slot { st with key_to_entry := erase_entry st.key_to_entry en.key }
          0 s (kept ++ rest)
      match handler en.key en.info with
      | Except.error msg =>
        { state := st', fired := [(en.key, en.info, st')]
          escaped := some msg, error_reports := [] }
      | Except.ok _ =>
        let o := wheel_process_slot_go handler s now rest kept st'
        { o with fired := (en.key, en.info, st') :: o.fired }
    else
      wheel_process_slot_go handler s now rest (kept ++ [en]) st

/-- Model of `timing_wheel_expirator::process_slot` applied to slot `s` of
wheel 0 (as `process_tick` does). -/
def wheel_process_slot (handler : K → V → Except String Unit)
    (st : WheelState K V) (s : Nat) (now : Int) : FireOutcome K V (WheelState K V) :=
  wheel_process_slot_go handler s now (st.wheel_0.getD s []) [] st

/-- Well-formedness used for the firing pass: the slot index is in range,
the key index has distinct keys, the processed slot's entries carry
distinct keys, and each of them is indexed. -/
def wheel_slot_wf (st : WheelState K V) (s : Nat) : Bool :=
  decide (s < st.wheel_0.length) &&
  keys_nodup st.key_to_entry &&
  keys_nodup ((st.wheel_0.getD s []).map (fun en => (en.key, ()))) &&
  (st.wheel_0.getD s []).all (fun en => (find_entry st.key_to_entry en.key).isSome)

/-- The (key, payload) pairs of the due entries of slot `s` of wheel 0. -/
def wheel_slot_due (st : WheelState K V) (s : Nat) (now : Int) : List (K × V) :=
  ((st.wheel_0.getD s []).filter (fun en => decide (en.expiry ≤ now))).map
    (fun en => (en.key, en.info))

/-! ### Lock-free MPSC variant (`expirator::lockfree_expirator`) -/

/-- Model of `lockfree_expirator::operation::op_type`. -/
inductive op_type where
  | ADD
  | REMOVE
  | STOP
deriving Repr, DecidableEq

/-- Model of `lockfree_expirator::operation`. -/
structure operation (K V : Type) where
  type : op_type
  key : K
  info : V
  expiry : Int
deriving Repr, DecidableEq

/-- Ring capacity `lockfree_expirator::QUEUE_SIZE`. -/
def QUEUE_SIZE : Nat := 4096

/-- Model of the `lockfree_expirator` state: the operation ring with its
producer and consumer indices, and the consumer-private map, deadline
multimap and running flag. -/
structure LFState (K V : Type) where
  op_queue : List (operation K V)
  write_index : Nat
  read_index : Nat
  entries : List (K × IoEntry V)
  expiry_queue : List (Int × K)
  running : Bool
deriving Repr, DecidableEq

/-- Model of `lockfree_expirator::add` (producer side): compute the
deadline, reject when the ring is full, otherwise publish an ADD operation
and advance the write index.  No key-presence check happens here; the
`start()` call this may trigger drains the ring on the consumer
(`lf_process_operations`). -/
def lf_add (st : LFState K V) (now : Int) (key : K) (dur : Int) (info : V) :
    Bool × LFState K V :=
  let expiry := now + dur
  let current_write := st.write_index
  let next_write := (current_write + 1) % QUEUE_SIZE
  if next_write = st.read_index then (false, st)
  else
    (true, { st with
               op_queue := st.op_queue.set current_write ⟨op_type.ADD, key, info, expiry⟩
               write_index := next_write
               running := true })

/-- Application of one drained operation in
`lockfree_expirator::process_operations`: a duplicate ADD is dropped, a
REMOVE erases the map entry and its queue element, STOP records nothing. -/
def lf_apply_op (st : LFState K V) (op : operation K V) : LFState K V :=
  match op.type with
  | op_type.ADD =>
    if (find_entry st.entries op.key).isSome then st
    else { st with entries := st.entries ++ [(op.key, ⟨op.expiry, op.info⟩)]
                   expiry_queue := mm_insert (op.expiry, op.key) st.expiry_queue }
  | op_type.REMOVE =>
    match find_entry st.entries op.key with
    | none => st
    | some e => { st with entries := erase_entry st.entries op.key
                          expiry_queue := mm_erase (e.expiry, op.key) st.expiry_queue }
  | op_type.STOP => st

/-- The drain loop of `lockfree_expirator::process_operations`, fuelled by
the ring capacity. -/
def lf_process_operations_go : Nat → LFState K V → Nat → LFState K V × Nat
  | 0, st, r => (st, r)
  | fuel + 1, st, r =>
    if r = st.write_index then (st, r)
    else
      match st.op_queue[r]? with
      | none => (st, r)
      | some op => lf_process_operations_go fuel (lf_apply_op st op) ((r + 1) % QUEUE_SIZE)

/-- Model of `lockfree_expirator::process_operations`. -/
def lf_process_operations (st : LFState K V) : LFState K V :=
  let sr := lf_process_operations_go QUEUE_SIZE st st.read_index
  { sr.1 with read_index := sr.2 }

/-- Model of `lockfree_expirator::contains`. -/
def lf_contains (st : LFState K V) (k : K) : Bool :=
  (find_entry st.entries k).isSome

/-- Model of `lockfree_expirator::get_info`. -/
def lf_get_info (st : LFState K V) (k : K) : Option V :=
  (find_entry st.entries k).map (fun e => e.info)

/-- Model of `lockfree_expirator::process_expired`, fuelled by the queue
length: pop the earliest queue element while it is due, erase the map
entry, then invoke the handler with the moved-out payload; a throwing
handler ends the pass and the exception escapes uncaught. -/
def lf_process_expired (handler : K → V → Except String Unit) :
    Nat → LFState K V → Int → FireOutcome K V (LFState K V)
  | 0, st, _ => { state := st, fired := [], escaped := none, error_reports := [] }
  | fuel + 1, st, now =>
    match st.expiry_queue with
    | [] => { state := st, fired := [], escaped := none, error_reports := [] }
    | (t, key) :: qrest =>
      if decide (t ≤ now) then
        let st1 : LFState K V := { st with expiry_queue := qrest }
        match find_entry st1.entries key with
        | some e =>
          let st' : LFState K V := { st1 with entries := erase_entry st1.entries key }
          match handler key e.info with
          | Except.error msg =>
            { state := st', fired := [(key, e.info, st')]
              escaped := some msg, error_reports := [] }
          | Except.ok _ =>
            let o := lf_process_expired handler fuel st' now
            { o with fired := (key, e.info, st') :: o.fired }
        | none => lf_process_expired handler fuel st1 now
      else { state := st, fired := [], escaped := none, error_reports := [] }

/-- Well-formedness of the consumer-private `lockfree_expirator` state. -/
def lf_wf (st : LFState K V) : Bool :=
  keys_nodup st.entries &&
  mm_sorted st.expiry_queue &&
  decide (List.Perm (st.expiry_queue.map (fun p => (p.2, p.1)))
    (st.entries.map (fun p => (p.1, p.2.expiry))))

/-- The (key, payload) pairs of the entries with deadline at most `now`. -/
def lf_due (st : LFState K V) (now : Int) : List (K × V) :=
  (st.entries.filter (fun p => decide (p.2.expiry ≤ now))).map (fun p => (p.1, p.2.info))

end Expirators

/-! # Theorems -/

/-! ## Sequence counter (claim C9) -/

/-- Auxiliary: closed form of the sequence counter. -/
theorem seq_after_closed_form (m : Nat) :
    seq_after (m + 1) = m % 4294967295 + 1 := by
  induction m with
  | zero => rfl
  | succ n ih =>
    show next_sequence_number (seq_after (n + 1)) = _
    rw [ih]
    simp only [next_sequence_number, show (2 : Nat) ^ 32 = 4294967296 by norm_num]
    split_ifs with hc <;> omega

/-- C9: starting from the initial counter state 0, the value returned by the
k-th call to `next_sequence_number` is ((k-1) mod 0xFFFFFFFF) + 1; hence the
calls return 1, 2, 3, … strictly increasing through 0xFFFFFFFF, the call
after the one returning 0xFFFFFFFF returns 1 (the wrap skips 0), and no call
ever returns 0. -/
theorem c9_sequence_counter (k : Nat) :
    seq_after (k + 1) = k % 4294967295 + 1 ∧
    seq_after (k + 1) ≠ 0 ∧
    (k % 4294967295 + 1 < 4294967295 → seq_after (k + 2) = seq_after (k + 1) + 1) ∧
    (seq_after (k + 1) = 4294967295 → seq_after (k + 2) = 1) := by
  have h1 := seq_after_closed_form k
  have h2 : seq_after (k + 2) = (k + 1) % 4294967295 + 1 := seq_after_closed_form (k + 1)
  refine ⟨h1, by omega, fun h => by omega, fun h => by omega⟩

/-! ## Send-path serialization failure (claim C10) -/

/-- C10: when the body serializer throws inside `do_send_impl` (in a
sendable state), the pending send buffer is restored to exactly its
contents before the call — the reserved header bytes and any partial body
bytes are removed — no message is queued, and the exception propagates to
the caller. -/
theorem c10_send_serialize_failure (pending partialBytes : List Nat)
    (cmd_id seq_num status : Nat) :
    do_send_impl true pending cmd_id seq_num status
        (SerializeBehaviour.throwsAfter partialBytes) =
      { pending := pending, thrown := true, queued := false } := by
  simp only [do_send_impl, Bool.not_true, Bool.false_eq_true, if_false]
  rw [List.append_assoc, List.take_left]

/-! ## Header codec round trip (claim C5) -/

/-- Auxiliary: arithmetic form of the big-endian 32-bit read. -/
theorem read_u32_eq (b0 b1 b2 b3 : Nat) (h0 : b0 < 256) (h1 : b1 < 256)
    (h2 : b2 < 256) (h3 : b3 < 256) :
    read_u32 b0 b1 b2 b3 = ((b0 * 256 + b1) * 256 + b2) * 256 + b3 := by
  unfold read_u32
  rw [Nat.shiftLeft_eq, Nat.shiftLeft_eq, Nat.shiftLeft_eq]
  rw [show b0 * 2 ^ 24 = 2 ^ 24 * b0 from Nat.mul_comm _ _]
  rw [← Nat.mul_add_lt_is_or (show b1 * 2 ^ 16 < 2 ^ 24 by omega) b0]
  rw [show 2 ^ 24 * b0 + b1 * 2 ^ 16 = 2 ^ 16 * (2 ^ 8 * b0 + b1) by ring]
  rw [← Nat.mul_add_lt_is_or (show b2 * 2 ^ 8 < 2 ^ 16 by omega) (2 ^ 8 * b0 + b1)]
  rw [show 2 ^ 16 * (2 ^ 8 * b0 + b1) + b2 * 2 ^ 8 =
        2 ^ 8 * (2 ^ 16 * b0 + 2 ^ 8 * b1 + b2) by ring]
  rw [← Nat.mul_add_lt_is_or (show b3 < 2 ^ 8 by omega) (2 ^ 16 * b0 + 2 ^ 8 * b1 + b2)]
  omega

/-- Auxiliary: arithmetic form of the big-endian 32-bit write. -/
theorem write_u32_eq (v : Nat) :
    write_u32 v =
      [v / 2 ^ 24 % 2 ^ 8, v / 2 ^ 16 % 2 ^ 8, v / 2 ^ 8 % 2 ^ 8, v % 2 ^ 8] := by
  simp only [write_u32, Nat.shiftRight_eq_div_pow,
    show (0xFF : Nat) = 2 ^ 8 - 1 from rfl, Nat.and_pow_two_sub_one_eq_mod]

/-- C5: header codec round trip.  Decoding any 10-byte header whose
big-endian length field is at least 10 succeeds, and re-serializing the
decoded tuple reproduces the original bytes; conversely, serializing any
in-range tuple with length at least 10 and decoding the resulting 10 bytes
returns the same tuple. -/
theorem c5_header_roundtrip :
    (∀ b0 b1 b2 b3 b4 b5 b6 b7 b8 b9 : Nat,
      b0 < 256 → b1 < 256 → b2 < 256 → b3 < 256 → b4 < 256 →
      b5 < 256 → b6 < 256 → b7 < 256 → b8 < 256 → b9 < 256 →
      10 ≤ read_u32 b0 b1 b2 b3 →
      deserialize_header [b0, b1, b2, b3, b4, b5, b6, b7, b8, b9] =
        Except.ok (read_u32 b0 b1 b2 b3, b4, b5, read_u32 b6 b7 b8 b9) ∧
      serialize_header (read_u32 b0 b1 b2 b3) b4 (read_u32 b6 b7 b8 b9) b5 =
        [b0, b1, b2, b3, b4, b5, b6, b7, b8, b9]) ∧
    (∀ len cmd status seq : Nat,
      10 ≤ len → len < 2 ^ 32 → cmd < 256 → status < 256 → seq < 2 ^ 32 →
      deserialize_header (serialize_header len cmd seq status) =
        Except.ok (len, cmd, status, seq)) := by
  constructor
  · intro b0 b1 b2 b3 b4 b5 b6 b7 b8 b9 h0 h1 h2 h3 h4 h5 h6 h7 h8 h9 hlen
    constructor
    · simp only [deserialize_header, header_length, List.length_cons, List.length_nil,
        List.getD_cons_zero, List.getD_cons_succ]
      rw [if_neg (by omega), if_neg (by omega)]
    · rw [serialize_header, write_u32_eq, write_u32_eq,
        read_u32_eq b0 b1 b2 b3 h0 h1 h2 h3, read_u32_eq b6 b7 b8 b9 h6 h7 h8 h9]
      simp only [List.cons_append, List.nil_append, List.cons.injEq, and_true]
      refine ⟨by omega, by omega, by omega, by omega, by omega, by omega,
        by omega, by omega, by omega, by omega⟩
  · intro len cmd status seq hlo hhi hcmd hstatus hseq
    rw [serialize_header, write_u32_eq, write_u32_eq]
    have hr1 : read_u32 (len / 2 ^ 24 % 2 ^ 8) (len / 2 ^ 16 % 2 ^ 8)
        (len / 2 ^ 8 % 2 ^ 8) (len % 2 ^ 8) = len := by
      rw [read_u32_eq _ _ _ _ (by omega) (by omega) (by omega) (by omega)]
      omega
    have hr2 : read_u32 (seq / 2 ^ 24 % 2 ^ 8) (seq / 2 ^ 16 % 2 ^ 8)
        (seq / 2 ^ 8 % 2 ^ 8) (seq % 2 ^ 8) = seq := by
      rw [read_u32_eq _ _ _ _ (by omega) (by omega) (by omega) (by omega)]
      omega
    simp only [deserialize_header, header_length, List.cons_append, List.nil_append,
      List.length_cons, List.length_nil, List.getD_cons_zero, List.getD_cons_succ]
    rw [hr1, hr2, if_neg (by omega), if_neg (by omega)]
    have : cmd % 256 = cmd := by omega
    rw [this]
    have : status % 256 = status := by omega
    rw [this]

/-! ## Backpressure controller (claim C7) -/

/-- Auxiliary: a `should_pause` call that returns false leaves the
controller unchanged. -/
theorem should_pause_of_false (c : backpressure_controller) (n : Nat)
    (h : (should_pause c n).1 = false) : should_pause c n = (false, c) := by
  unfold should_pause at *
  split_ifs at * <;> simp_all

/-- Auxiliary: a `should_resume` call on a flowing controller returns false
and changes nothing. -/
theorem should_resume_of_flowing (c : backpressure_controller) (n : Nat)
    (h : c.paused = false) : should_resume c n = (false, c) := by
  unfold should_resume
  rw [h]
  simp

/-- Auxiliary: in a trace starting from a flowing controller, a resume edge
cannot occur before some pause edge. -/
theorem bp_resume_needs_pause (ops : List BPOp) :
    ∀ (c : backpressure_controller) (m : Nat), c.paused = false →
      isResumeFire ((bp_trace c ops).getD m (BPOp.pauseCheck 0, false)) = true →
      ∃ k, k < m ∧
        isPauseFire ((bp_trace c ops).getD k (BPOp.pauseCheck 0, false)) = true := by
  induction ops with
  | nil =>
    intro c m hp h
    simp [bp_trace, List.getD, isResumeFire] at h
  | cons op rest ih =>
    intro c m hp h
    cases op with
    | pauseCheck n =>
      cases m with
      | zero => simp [bp_trace, isResumeFire] at h
      | succ m' =>
        by_cases hr : (should_pause c n).1 = true
        · refine ⟨0, Nat.succ_pos _, ?_⟩
          simp [bp_trace, isPauseFire, hr]
        · have heq := should_pause_of_false c n (by simpa using hr)
          have hp2 : (should_pause c n).2.paused = false := by rw [heq]; exact hp
          obtain ⟨k, hk, hkf⟩ := ih _ m' hp2 (by simpa [bp_trace] using h)
          exact ⟨k + 1, by omega, by simpa [bp_trace] using hkf⟩
    | resumeCheck n =>
      have heq := should_resume_of_flowing c n hp
      cases m with
      | zero => simp [bp_trace, heq, isResumeFire] at h
      | succ m' =>
        obtain ⟨k, hk, hkf⟩ := ih c m' hp (by simpa [bp_trace, heq] using h)
        exact ⟨k + 1, by omega, by simpa [bp_trace, heq] using hkf⟩

/-- Auxiliary: between any two resume edges of a controller trace there is a
pause edge. -/
theorem bp_between_resumes (ops : List BPOp) :
    ∀ (c : backpressure_controller) (i j : Nat), i < j →
      isResumeFire ((bp_trace c ops).getD i (BPOp.pauseCheck 0, false)) = true →
      isResumeFire ((bp_trace c ops).getD j (BPOp.pauseCheck 0, false)) = true →
      ∃ k, i < k ∧ k < j ∧
        isPauseFire ((bp_trace c ops).getD k (BPOp.pauseCheck 0, false)) = true := by
  induction ops with
  | nil =>
    intro c i j hij hi hj
    simp [bp_trace, List.getD, isResumeFire] at hi
  | cons op rest ih =>
    intro c i j hij hi hj
    obtain ⟨j', rfl⟩ : ∃ j', j = j' + 1 := ⟨j - 1, by omega⟩
    cases i with
    | zero =>
      cases op with
      | pauseCheck n => simp [bp_trace, isResumeFire] at hi
      | resumeCheck n =>
        have hfire : (should_resume c n).1 = true := by
          by_cases hb : (should_resume c n).1 = true
          · exact hb
          · rw [Bool.not_eq_true] at hb
            simp [bp_trace, isResumeFire, hb] at hi
        have hp2 : (should_resume c n).2.paused = false := by
          unfold should_resume at *
          split_ifs at * <;> simp_all
        have hj' : isResumeFire
            ((bp_trace (should_resume c n).2 rest).getD j' (BPOp.pauseCheck 0, false)) =
              true := by
          simpa [bp_trace] using hj
        obtain ⟨k, hk, hkf⟩ := bp_resume_needs_pause rest _ j' hp2 hj'
        exact ⟨k + 1, by omega, by omega, by simpa [bp_trace] using hkf⟩
    | succ i' =>
      cases op with
      | pauseCheck n =>
        obtain ⟨k, hk1, hk2, hkf⟩ := ih (should_pause c n).2 i' j' (by omega)
          (by simpa [bp_trace] using hi) (by simpa [bp_trace] using hj)
        exact ⟨k + 1, by omega, by omega, by simpa [bp_trace] using hkf⟩
      | resumeCheck n =>
        obtain ⟨k, hk1, hk2, hkf⟩ := ih (should_resume c n).2 i' j' (by omega)
          (by simpa [bp_trace] using hi) (by simpa [bp_trace] using hj)
        exact ⟨k + 1, by omega, by omega, by simpa [bp_trace] using hkf⟩

/-- C7: the backpressure controller is a two-state machine —
`should_pause` returns true exactly on the flowing-to-paused transition,
which happens iff the controller is not paused and the pending size strictly
exceeds the high watermark; `should_resume` returns true exactly on the
paused-to-flowing transition, which happens iff the controller is paused and
the pending size is strictly below the low watermark; consequently, in any
send-path trace, between two calls on which `should_resume` returned true
(the edges on which `send_buf_available` fires) there is a call on which
`should_pause` returned true: the callback is edge-triggered, once per
pause episode. -/
theorem c7_backpressure_controller :
    (∀ (c : backpressure_controller) (n : Nat),
      ((should_pause c n).1 = true ↔ c.paused = false ∧ n > c.high_watermark) ∧
      ((should_pause c n).2.paused = true ↔
        c.paused = true ∨ n > c.high_watermark)) ∧
    (∀ (c : backpressure_controller) (n : Nat),
      ((should_resume c n).1 = true ↔ c.paused = true ∧ n < c.low_watermark) ∧
      ((should_resume c n).2.paused = true ↔
        c.paused = true ∧ ¬ n < c.low_watermark)) ∧
    (∀ (c : backpressure_controller) (ops : List BPOp) (i j : Nat), i < j →
      isResumeFire ((bp_trace c ops).getD i (BPOp.pauseCheck 0, false)) = true →
      isResumeFire ((bp_trace c ops).getD j (BPOp.pauseCheck 0, false)) = true →
      ∃ k, i < k ∧ k < j ∧
        isPauseFire ((bp_trace c ops).getD k (BPOp.pauseCheck 0, false)) = true) := by
  refine ⟨?_, ?_, fun c ops i j => bp_between_resumes ops c i j⟩
  · intro c n
    obtain ⟨low, hiw, p⟩ := c
    cases p <;> by_cases hgt : n > hiw <;> simp [should_pause, hgt]
  · intro c n
    obtain ⟨low, hiw, p⟩ := c
    cases p <;> by_cases hlt : n < low <;> simp [should_resume, hlt]

/-! ## Flat buffer prepare (claim C8) -/

/-- C8: `flat_buffer::prepare` on a well-formed buffer.  When the request
fits after `out`, the returned writable region of length n starts at `out`
and the readable bytes are untouched; otherwise, when n fits in the total
free space, the buffer compacts — the readable bytes move to offset 0 with
their values and count preserved — and the region is returned after them;
otherwise it fails with an overflow error (leaving the buffer unchanged). -/
theorem c8_flat_buffer_prepare (b : flat_buffer) (n : Nat) (hwf : b.wf = true) :
    (n ≤ b.capacity - b.out →
      b.prepare n = Except.ok (b.out, { b with last := b.out + n }) ∧
      flat_buffer.readable { b with last := b.out + n } = b.readable ∧
      b.out + n ≤ b.capacity) ∧
    (n > b.capacity - b.out → n ≤ b.capacity - b.size →
      ∃ b', b.prepare n = Except.ok (b.size, b') ∧
        b'.inp = 0 ∧ b'.out = b.size ∧ b'.last = b.size + n ∧
        b'.readable = b.readable ∧ b'.size = b.size ∧
        b'.capacity = b.capacity ∧ b'.out + n ≤ b'.capacity) ∧
    (n > b.capacity - b.out → n > b.capacity - b.size →
      b.prepare n = Except.error "flat_buffer::prepare buffer overflow") := by
  simp only [flat_buffer.wf, Bool.and_eq_true, decide_eq_true_eq] at hwf
  obtain ⟨⟨h1, h2⟩, h3⟩ := hwf
  refine ⟨?_, ?_, ?_⟩
  · intro hfit
    unfold flat_buffer.prepare
    rw [if_pos hfit]
    exact ⟨rfl, rfl, by unfold flat_buffer.capacity at *; omega⟩
  · intro hnofit hfree
    unfold flat_buffer.prepare
    rw [if_neg (by omega), if_neg (by omega)]
    have hlen1 : ((b.buf.drop b.inp).take b.size).length = b.size := by
      rw [List.length_take, List.length_drop]
      unfold flat_buffer.size flat_buffer.capacity at *
      omega
    refine ⟨_, rfl, rfl, rfl, rfl, ?_, ?_, ?_, ?_⟩
    · show (((b.buf.drop b.inp).take b.size ++ b.buf.drop b.size).drop 0).take
          (b.size - 0) = _
      rw [List.drop_zero, Nat.sub_zero, List.take_append_eq_append_take, hlen1,
        Nat.sub_self, List.take_zero, List.append_nil, List.take_take]
      unfold flat_buffer.readable flat_buffer.size
      rw [Nat.min_self]
    · show b.size - 0 = b.size
      omega
    · show ((b.buf.drop b.inp).take b.size ++ b.buf.drop b.size).length = _
      rw [List.length_append, hlen1, List.length_drop]
      unfold flat_buffer.size flat_buffer.capacity at *
      omega
    · show b.size + n ≤ ((b.buf.drop b.inp).take b.size ++ b.buf.drop b.size).length
      rw [List.length_append, hlen1, List.length_drop]
      unfold flat_buffer.size flat_buffer.capacity at *
      omega
  · intro hnofit hover
    unfold flat_buffer.prepare
    rw [if_neg (by omega), if_pos (by omega)]

/-! ## Frame-length validation (claim C1) -/

/-- C1 evaluation: with the default configuration, a frame whose declared
length exceeds `max_command_length` closes the session, but a frame whose
declared length is below 10 makes `deserialize_header` throw an exception
that `do_receive` does not catch — the outcome is an escaping exception,
not a `close`, and no body is dispatched. -/
theorem c1_short_frame_not_closed :
    do_receive_step {} [0, 0, 0, 5, 4, 0, 0, 0, 0, 1] =
      RecvOutcome.uncaughtException "Invalid command_length" ∧
    do_receive_step {} [0, 160, 0, 1, 2, 0, 0, 0, 0, 2] =
      RecvOutcome.closed "Command length exceeds max" := by
  constructor <;> rfl

/-! ## Small-body stack copy (claim C6) -/

/-- C6 evaluation: the configuration with `small_body_size = 512` passes
`session_config::is_valid`, yet a frame with body size 300 takes the
stack-buffer branch of `process_message` and `std::copy_n` writes 300 bytes
into the fixed 256-byte `stack_buf` — 44 bytes beyond its end.  (The body
handed to dispatch is still the frame's 300 body bytes.) -/
theorem c6_stack_copy_out_of_bounds :
    session_config.is_valid { small_body_size := 512 } = true ∧
    (process_message { small_body_size := 512 } (List.replicate 310 7) 310).storage =
      BodyStorage.stackBuf 300 ∧
    (process_message { small_body_size := 512 } (List.replicate 310 7) 310).body =
      List.replicate 300 7 ∧
    stack_buf_size = 256 ∧
    ¬ 300 ≤ stack_buf_size := by
  refine ⟨rfl, rfl, by decide, rfl, by decide⟩

/-! ## Witnesses for the hypothesis-bearing theorems above -/

/-- Witness for C9 at the first call. -/
theorem c9_sequence_counter_witness :
    seq_after 1 = 0 % 4294967295 + 1 ∧
    seq_after 1 ≠ 0 ∧
    (0 % 4294967295 + 1 < 4294967295 → seq_after 2 = seq_after 1 + 1) ∧
    (seq_after 1 = 4294967295 → seq_after 2 = 1) :=
  c9_sequence_counter 0

/-- Witness for C5 at a concrete bind-request header. -/
theorem c5_header_roundtrip_witness :
    (deserialize_header [0, 0, 0, 11, 2, 0, 0, 0, 0, 7] = Except.ok (11, 2, 0, 7) ∧
      serialize_header 11 2 7 0 = [0, 0, 0, 11, 2, 0, 0, 0, 0, 7]) ∧
    deserialize_header (serialize_header 11 2 7 0) = Except.ok (11, 2, 0, 7) := by
  constructor
  · exact c5_header_roundtrip.1 0 0 0 11 2 0 0 0 0 7 (by decide) (by decide) (by decide)
      (by decide) (by decide) (by decide) (by decide) (by decide) (by decide) (by decide)
      (by decide)
  · exact c5_header_roundtrip.2 11 2 0 7 (by decide) (by decide) (by decide) (by decide)
      (by decide)

/-- Witness for C7 on a concrete trace: resume edges at positions 0 and 2
with the forced pause edge strictly between them. -/
theorem c7_backpressure_controller_witness :
    ∃ k, 0 < k ∧ k < 2 ∧
      isPauseFire ((bp_trace { low_watermark := 2, high_watermark := 5, paused := true }
        [BPOp.resumeCheck 0, BPOp.pauseCheck 10, BPOp.resumeCheck 1]).getD k
        (BPOp.pauseCheck 0, false)) = true :=
  c7_backpressure_controller.2.2 _ _ 0 2 (by decide) (by decide) (by decide)

/-- Witness for C8 on a concrete buffer that must compact: capacity 4,
readable region [1, 3), request 2. -/
theorem c8_flat_buffer_prepare_witness :
    ∃ b', flat_buffer.prepare { buf := [1, 2, 3, 4], inp := 1, out := 3, last := 3 } 2 =
        Except.ok (2, b') ∧
      b'.inp = 0 ∧ b'.out = 2 ∧ b'.last = 4 ∧
      b'.readable = flat_buffer.readable { buf := [1, 2, 3, 4], inp := 1, out := 3, last := 3 } ∧
      b'.size = 2 ∧ b'.capacity = 4 ∧ b'.out + 2 ≤ b'.capacity :=
  (c8_flat_buffer_prepare { buf := [1, 2, 3, 4], inp := 1, out := 3, last := 3 } 2
    (by decide)).2.1 (by decide) (by decide)

/-! ## Association-list and multimap lemmas for the expirators -/

section ExpiratorTheorems

variable {K V : Type} [DecidableEq K]

/-- Auxiliary: a false `isSome` means `none`. -/
theorem isSome_false_eq_none {A : Type} {o : Option A} (h : o.isSome = false) : o = none := by
  cases o <;> simp_all

/-- Unfolding lemma for `find_entry` on a cons cell. -/
theorem find_entry_cons {V' : Type} (k' : K) (v : V') (rest : List (K × V')) (k : K) :
    find_entry ((k', v) :: rest) k = if k' = k then some v else find_entry rest k := rfl

/-- Unfolding lemma for `erase_entry` on a cons cell. -/
theorem erase_entry_cons {V' : Type} (k' : K) (v : V') (rest : List (K × V')) (k : K) :
    erase_entry ((k', v) :: rest) k =
      if k' = k then rest else (k', v) :: erase_entry rest k := rfl

/-- Unfolding lemma for `keys_nodup` on a cons cell. -/
theorem keys_nodup_cons {V' : Type} (k' : K) (v : V') (rest : List (K × V')) :
    keys_nodup ((k', v) :: rest) = (!(find_entry rest k').isSome && keys_nodup rest) := rfl

/-- Appending a fresh key makes it findable. -/
theorem find_entry_append_absent {V' : Type} (l : List (K × V')) (k : K) (v : V')
    (h : find_entry l k = none) : find_entry (l ++ [(k, v)]) k = some v := by
  induction l with
  | nil => simp [find_entry]
  | cons p rest ih =>
    obtain ⟨k', v'⟩ := p
    rw [find_entry_cons] at h
    by_cases hk : k' = k
    · simp [hk] at h
    · rw [List.cons_append, find_entry_cons, if_neg hk]
      exact ih (by rwa [if_neg hk] at h)

/-- Appending any entry does not change lookups of other present keys. -/
theorem find_entry_append_other {V' : Type} (l : List (K × V')) (p : K × V') (k : K)
    (h : p.1 ≠ k) : find_entry (l ++ [p]) k = find_entry l k := by
  induction l with
  | nil => obtain ⟨k', v'⟩ := p; simp [find_entry, h]
  | cons q rest ih =>
    obtain ⟨k', v'⟩ := q
    rw [List.cons_append, find_entry_cons, find_entry_cons]
    by_cases hk : k' = k
    · simp [hk]
    · rw [if_neg hk, if_neg hk, ih]

/-- A successful lookup is a membership. -/
theorem find_entry_some_mem {V' : Type} {l : List (K × V')} {k : K} {v : V'}
    (h : find_entry l k = some v) : (k, v) ∈ l := by
  induction l with
  | nil => simp [find_entry] at h
  | cons p rest ih =>
    obtain ⟨k', v'⟩ := p
    rw [find_entry_cons] at h
    by_cases hk : k' = k
    · rw [if_pos hk] at h
      cases h
      exact hk ▸ List.mem_cons_self _ _
    · exact List.mem_cons_of_mem _ (ih (by rwa [if_neg hk] at h))

/-- A membership makes the lookup succeed (with some value). -/
theorem find_entry_isSome_of_mem {V' : Type} {l : List (K × V')} {k : K} {v : V'}
    (hm : (k, v) ∈ l) : (find_entry l k).isSome = true := by
  induction l with
  | nil => simp at hm
  | cons p rest ih =>
    obtain ⟨k', v'⟩ := p
    rw [find_entry_cons]
    by_cases hk : k' = k
    · simp [hk]
    · rw [if_neg hk]
      rcases List.mem_cons.1 hm with heq | hmem
      · cases heq; simp at hk
      · exact ih hmem

/-- Under distinct keys, a membership determines the lookup. -/
theorem find_entry_of_mem_nodup {V' : Type} {l : List (K × V')}
    (hnd : keys_nodup l = true) {k : K} {v : V'} (hm : (k, v) ∈ l) :
    find_entry l k = some v := by
  induction l with
  | nil => simp at hm
  | cons p rest ih =>
    obtain ⟨k', v'⟩ := p
    rw [keys_nodup_cons, Bool.and_eq_true, Bool.not_eq_true'] at hnd
    obtain ⟨hfind0, hrest⟩ := hnd
    have hfind := isSome_false_eq_none hfind0
    rw [find_entry_cons]
    rcases List.mem_cons.1 hm with heq | hmem
    · cases heq; simp
    · by_cases hk : k' = k
      · subst hk
        have := find_entry_isSome_of_mem hmem
        rw [hfind] at this
        simp at this
      · rw [if_neg hk]
        exact ih hrest hmem

/-- Erasing a key removes it from the lookup (under distinct keys). -/
theorem find_entry_erase_self {V' : Type} {l : List (K × V')}
    (hnd : keys_nodup l = true) (k : K) : find_entry (erase_entry l k) k = none := by
  induction l with
  | nil => simp [erase_entry, find_entry]
  | cons p rest ih =>
    obtain ⟨k', v'⟩ := p
    rw [keys_nodup_cons, Bool.and_eq_true, Bool.not_eq_true'] at hnd
    obtain ⟨hfind0, hrest⟩ := hnd
    have hfind := isSome_false_eq_none hfind0
    rw [erase_entry_cons]
    by_cases hk : k' = k
    · rw [if_pos hk]
      rw [← hk]
      exact hfind
    · rw [if_neg hk, find_entry_cons, if_neg hk]
      exact ih hrest

/-- Erasing one key does not change the lookups of the others. -/
theorem find_entry_erase_ne {V' : Type} (l : List (K × V')) {k k' : K}
    (h : k' ≠ k) : find_entry (erase_entry l k) k' = find_entry l k' := by
  induction l with
  | nil => simp [erase_entry]
  | cons p rest ih =>
    obtain ⟨k'', v''⟩ := p
    rw [erase_entry_cons, find_entry_cons]
    by_cases hk : k'' = k
    · rw [if_pos hk, if_neg (by rw [hk]; exact fun hc => h hc.symm)]
    · rw [if_neg hk, find_entry_cons]
      by_cases hk' : k'' = k'
      · rw [if_pos hk', if_pos hk']
      · rw [if_neg hk', if_neg hk', ih]

/-- Erasure yields a sublist. -/
theorem erase_entry_sublist {V' : Type} (l : List (K × V')) (k : K) :
    List.Sublist (erase_entry l k) l := by
  induction l with
  | nil => simp [erase_entry]
  | cons p rest ih =>
    obtain ⟨k', v'⟩ := p
    rw [erase_entry_cons]
    by_cases hk : k' = k
    · rw [if_pos hk]; exact List.sublist_cons_self _ _
    · rw [if_neg hk]; exact List.Sublist.cons₂ _ ih

/-- Failing lookup means the key is outside the key list. -/
theorem find_entry_eq_none_iff {V' : Type} (l : List (K × V')) (k : K) :
    find_entry l k = none ↔ k ∉ l.map Prod.fst := by
  induction l with
  | nil => simp [find_entry]
  | cons p rest ih =>
    obtain ⟨k', v'⟩ := p
    rw [find_entry_cons]
    by_cases hk : k' = k
    · simp [hk]
    · simp only [List.map_cons, List.mem_cons]
      rw [if_neg hk, ih]
      constructor
      · intro h hc
        rcases hc with hc | hc
        · exact hk hc.symm
        · exact h hc
      · intro h
        exact fun hc => h (Or.inr hc)

/-- The Boolean key-distinctness test agrees with `List.Nodup` on keys. -/
theorem keys_nodup_iff {V' : Type} (l : List (K × V')) :
    keys_nodup l = true ↔ (l.map Prod.fst).Nodup := by
  induction l with
  | nil => simp [keys_nodup]
  | cons p rest ih =>
    obtain ⟨k', v'⟩ := p
    rw [keys_nodup_cons, Bool.and_eq_true, Bool.not_eq_true']
    constructor
    · rintro ⟨hf, hr⟩
      rw [List.map_cons, List.nodup_cons]
      exact ⟨(find_entry_eq_none_iff rest k').1 (isSome_false_eq_none hf), ih.1 hr⟩
    · intro h
      rw [List.map_cons, List.nodup_cons] at h
      refine ⟨?_, ih.2 h.2⟩
      rw [(find_entry_eq_none_iff rest k').2 h.1]
      rfl

/-- Key distinctness passes to sublists. -/
theorem keys_nodup_of_sublist {V' : Type} {l' l : List (K × V')} (hs : List.Sublist l' l)
    (h : keys_nodup l = true) : keys_nodup l' = true := by
  rw [keys_nodup_iff] at *
  exact (hs.map Prod.fst).nodup h

/-- An association list with a found entry is a permutation of that entry
consed onto the erasure. -/
theorem perm_cons_erase_assoc {V' : Type} {l : List (K × V')} {k : K} {v : V'}
    (h : find_entry l k = some v) : l.Perm ((k, v) :: erase_entry l k) := by
  induction l with
  | nil => simp [find_entry] at h
  | cons p rest ih =>
    obtain ⟨k', v'⟩ := p
    rw [find_entry_cons] at h
    rw [erase_entry_cons]
    by_cases hk : k' = k
    · rw [if_pos hk] at h ⊢
      cases h
      subst hk
      exact List.Perm.refl _
    · rw [if_neg hk] at h ⊢
      exact ((ih h).cons (k', v')).trans (List.Perm.swap _ _ _)

/-- Multimap iterator erasure yields a sublist. -/
theorem mm_erase_sublist (p : Int × K) (l : List (Int × K)) : List.Sublist (mm_erase p l) l := by
  induction l with
  | nil => simp [mm_erase]
  | cons q rest ih =>
    rw [show mm_erase p (q :: rest) = if q = p then rest else q :: mm_erase p rest from rfl]
    by_cases hq : q = p
    · rw [if_pos hq]; exact List.sublist_cons_self _ _
    · rw [if_neg hq]; exact List.Sublist.cons₂ _ ih

/-- A list containing `p` is a permutation of `p` consed onto its
`mm_erase`. -/
theorem perm_cons_mm_erase {p : Int × K} {l : List (Int × K)} (h : p ∈ l) :
    l.Perm (p :: mm_erase p l) := by
  induction l with
  | nil => simp at h
  | cons q rest ih =>
    rw [show mm_erase p (q :: rest) = if q = p then rest else q :: mm_erase p rest from rfl]
    by_cases hq : q = p
    · rw [if_pos hq, hq]
    · rw [if_neg hq]
      rcases List.mem_cons.1 h with heq | hmem
      · exact absurd heq.symm hq
      · exact ((ih hmem).cons q).trans (List.Perm.swap _ _ _)

/-- The Boolean sortedness test agrees with pairwise ordering. -/
theorem mm_sorted_iff_pairwise (l : List (Int × K)) :
    mm_sorted l = true ↔ l.Pairwise (fun a b : Int × K => a.1 ≤ b.1) := by
  induction l with
  | nil => simp [mm_sorted]
  | cons q rest ih =>
    cases rest with
    | nil => simp [mm_sorted]
    | cons r rrest =>
      rw [show mm_sorted (q :: r :: rrest) =
            (decide (q.1 ≤ r.1) && mm_sorted (r :: rrest)) from rfl]
      rw [Bool.and_eq_true, decide_eq_true_eq, ih]
      constructor
      · rintro ⟨hqr, hp⟩
        rw [List.pairwise_cons]
        refine ⟨?_, hp⟩
        intro b hb
        rcases List.mem_cons.1 hb with hb | hb
        · exact hb ▸ hqr
        · exact le_trans hqr ((List.pairwise_cons.1 hp).1 b hb)
      · intro hp
        rw [List.pairwise_cons] at hp
        exact ⟨hp.1 r (List.mem_cons_self _ _), hp.2⟩

/-- On a deadline-sorted queue, filtering the due elements is the same as
taking the leading due run. -/
theorem sorted_filter_eq_takeWhile (now : Int) {l : List (Int × K)}
    (hs : l.Pairwise (fun a b : Int × K => a.1 ≤ b.1)) :
    l.filter (fun p => decide (p.1 ≤ now)) = l.takeWhile (fun p => decide (p.1 ≤ now)) := by
  induction l with
  | nil => rfl
  | cons q rest ih =>
    rw [List.pairwise_cons] at hs
    obtain ⟨hall, htail⟩ := hs
    by_cases hq : q.1 ≤ now
    · have hdec : decide (q.1 ≤ now) = true := by simpa using hq
      simp only [List.filter_cons, List.takeWhile_cons, hdec, if_true]
      rw [ih htail]
    · have hdec : decide (q.1 ≤ now) = false := by simpa using hq
      simp only [List.filter_cons, List.takeWhile_cons, hdec, Bool.false_eq_true, if_false]
      rw [List.filter_eq_nil_iff]
      intro p hp
      have := hall p hp
      simp only [decide_eq_true_eq]
      omega

/-! ### Heap bookkeeping preserves the user-visible entry view -/

/-- Generalised cons unfolding for `find_entry` (holds by structure eta). -/
theorem find_entry_cons' {V' : Type} (p : K × V') (rest : List (K × V')) (k : K) :
    find_entry (p :: rest) k = if p.1 = k then some p.2 else find_entry rest k := rfl

/-- The heap-index bookkeeping write does not change any key's
(deadline, payload) view. -/
theorem set_heap_index_view (l : List (K × HeapEntryData V)) (k' : K) (i : Nat) (k : K) :
    entry_view (set_heap_index l k' i) k = entry_view l k := by
  induction l with
  | nil => rfl
  | cons p rest ih =>
    obtain ⟨k'', d⟩ := p
    rw [show set_heap_index ((k'', d) :: rest) k' i =
          (k'', if k'' = k' then { d with heap_index := i } else d) ::
            set_heap_index rest k' i from rfl]
    unfold entry_view at *
    rw [find_entry_cons', find_entry_cons']
    by_cases h2 : k'' = k
    · rw [if_pos h2, if_pos h2]
      by_cases h1 : k'' = k' <;> simp [h1]
    · rw [if_neg h2, if_neg h2]
      exact ih

/-- `fix_index` does not change any key's view. -/
theorem fix_index_view (l : List (K × HeapEntryData V)) (h : List (heap_node K))
    (i : Nat) (k : K) : entry_view (fix_index l h i) k = entry_view l k := by
  unfold fix_index
  cases h[i]? with
  | none => rfl
  | some n => exact set_heap_index_view l n.key i k

/-- Sifting up does not change any key's view. -/
theorem heap_bubble_up_view (fuel : Nat) :
    ∀ (h : List (heap_node K)) (e : List (K × HeapEntryData V)) (idx : Nat) (k : K),
      entry_view (heap_bubble_up fuel h e idx).2 k = entry_view e k := by
  induction fuel with
  | zero => intro h e idx k; rfl
  | succ f ih =>
    intro h e idx k
    show entry_view (heap_bubble_up (f + 1) h e idx).2 k = entry_view e k
    rw [heap_bubble_up]
    by_cases h1 : idx > 0
    · rw [if_pos h1]
      by_cases h2 : (!node_lt h idx (parent_idx idx)) = true
      · rw [if_pos h2]
      · rw [if_neg h2, ih, fix_index_view, fix_index_view]
    · rw [if_neg h1]

/-- Sifting down does not change any key's view. -/
theorem heap_bubble_down_view (fuel : Nat) :
    ∀ (h : List (heap_node K)) (e : List (K × HeapEntryData V)) (idx : Nat) (k : K),
      entry_view (heap_bubble_down fuel h e idx).2 k = entry_view e k := by
  induction fuel with
  | zero => intro h e idx k; rfl
  | succ f ih =>
    intro h e idx k
    rw [heap_bubble_down]
    by_cases h1 : bd_target h idx = idx
    · rw [if_pos h1]
    · rw [if_neg h1, ih, fix_index_view, fix_index_view]

/-- A fresh key appended to the map has the expected view. -/
theorem entry_view_append_absent (l : List (K × HeapEntryData V)) (k : K)
    (d : HeapEntryData V) (h : find_entry l k = none) :
    entry_view (l ++ [(k, d)]) k = some (d.expiry, d.info) := by
  unfold entry_view
  rw [find_entry_append_absent l k d h]
  rfl

/-! ### Timing-wheel helpers -/

/-- The slot write of `set_wheel_slot` leaves the key index unchanged. -/
theorem set_wheel_slot_key_index (st : WheelState K V) (level slot : Nat)
    (lst : List (WheelEntry K V)) :
    (set_wheel_slot st level slot lst).key_to_entry = st.key_to_entry := by
  unfold set_wheel_slot
  cases level with
  | zero => rfl
  | succ l1 =>
    cases l1 with
    | zero => rfl
    | succ l2 =>
      cases l2 with
      | zero => rfl
      | succ l3 => rfl

/-- Reading back the wheel written by `set_wheel_slot`. -/
theorem get_wheel_set_wheel_slot (st : WheelState K V) (level slot : Nat)
    (lst : List (WheelEntry K V)) :
    get_wheel (set_wheel_slot st level slot lst) level = (get_wheel st level).set slot lst := by
  unfold set_wheel_slot get_wheel
  cases level with
  | zero => rfl
  | succ l1 =>
    cases l1 with
    | zero => rfl
    | succ l2 =>
      cases l2 with
      | zero => rfl
      | succ l3 => rfl

/-- `getD` after an in-range `set` reads the written value. -/
theorem getD_set_self {A : Type} (l : List A) (i : Nat) (a d : A) (h : i < l.length) :
    (l.set i a).getD i d = a := by
  rw [List.getD_eq_getElem?_getD, List.getElem?_set_self', List.getElem?_eq_getElem h]
  rfl

/-- The computed wheel position is always in range on a well-shaped wheel
set. -/
theorem wheel_position_cases (ct tf : Nat) :
    ((wheel_position ct tf).1 = 0 ∧ (wheel_position ct tf).2 < WHEEL_0_SIZE) ∨
    ((wheel_position ct tf).1 = 1 ∧ (wheel_position ct tf).2 < WHEEL_1_SIZE) ∨
    ((wheel_position ct tf).1 = 2 ∧ (wheel_position ct tf).2 < WHEEL_2_SIZE) ∨
    ((wheel_position ct tf).1 = 3 ∧ (wheel_position ct tf).2 < WHEEL_3_SIZE) := by
  unfold wheel_position WHEEL_0_SIZE WHEEL_1_SIZE WHEEL_2_SIZE WHEEL_3_SIZE
  split_ifs <;> simp <;> omega

/-- The length of the wheel that `wheel_position` picks, on a well-shaped
state. -/
theorem wheel_position_slot_lt (st : WheelState K V) (hshape : wheel_shape st = true)
    (ct tf : Nat) :
    (wheel_position ct tf).2 < (get_wheel st (wheel_position ct tf).1).length := by
  simp only [wheel_shape, Bool.and_eq_true, decide_eq_true_eq] at hshape
  obtain ⟨⟨⟨hw0, hw1⟩, hw2⟩, hw3⟩ := hshape
  rcases wheel_position_cases ct tf with ⟨h1, h2⟩ | ⟨h1, h2⟩ | ⟨h1, h2⟩ | ⟨h1, h2⟩ <;> rw [h1]
  · show (wheel_position ct tf).2 < st.wheel_0.length
    omega
  · show (wheel_position ct tf).2 < st.wheel_1.length
    omega
  · show (wheel_position ct tf).2 < st.wheel_2.length
    omega
  · show (wheel_position ct tf).2 < st.wheel_3.length
    omega

/-- What `insert_entry` does, on a wheel of the correct shape: the key is
appended to the key index bound to a level and slot of the wheel set, and
the entry node is appended to that slot's list. -/
theorem insert_entry_spec (st : WheelState K V) (now : Int) (key : K) (info : V)
    (expiry : Int) (hshape : wheel_shape st = true) :
    ∃ ls : Nat × Nat,
      (insert_entry st now key info expiry).key_to_entry =
        st.key_to_entry ++ [(key, ls)] ∧
      (get_wheel (insert_entry st now key info expiry) ls.1).getD ls.2 [] =
        (get_wheel st ls.1).getD ls.2 [] ++ [⟨key, info, expiry, ls.1, ls.2⟩] := by
  refine ⟨wheel_position st.current_tick
    (if expiry - now < 0 then 0 else (expiry - now).toNat), ?_, ?_⟩
  · show (set_wheel_slot st _ _ _).key_to_entry ++ _ = _
    rw [set_wheel_slot_key_index]
  · show (get_wheel { set_wheel_slot st _ _ _ with
        key_to_entry := (set_wheel_slot st _ _ _).key_to_entry ++ _ } _).getD _ [] = _
    have hkey : ∀ (w : WheelState K V) (kk : List (K × (Nat × Nat))) (lvl : Nat),
        get_wheel { w with key_to_entry := kk } lvl = get_wheel w lvl := by
      intro w kk lvl
      unfold get_wheel
      cases lvl with
      | zero => rfl
      | succ l1 =>
        cases l1 with
        | zero => rfl
        | succ l2 =>
          cases l2 with
          | zero => rfl
          | succ l3 => rfl
    rw [hkey, get_wheel_set_wheel_slot]
    exact getD_set_self _ _ _ _ (wheel_position_slot_lt st hshape _ _)

/-- Wheel reads ignore the tick counter and running flag. -/
theorem get_wheel_irrelevant (w : WheelState K V) (ct : Nat) (r : Bool) (lvl : Nat) :
    get_wheel { w with current_tick := ct, running := r } lvl = get_wheel w lvl := by
  unfold get_wheel
  cases lvl with
  | zero => rfl
  | succ l1 =>
    cases l1 with
    | zero => rfl
    | succ l2 =>
      cases l2 with
      | zero => rfl
      | succ l3 => rfl

/-- Wheel reads ignore the key index. -/
theorem get_wheel_key_index_irrelevant (w : WheelState K V) (kk : List (K × (Nat × Nat)))
    (lvl : Nat) : get_wheel { w with key_to_entry := kk } lvl = get_wheel w lvl := by
  unfold get_wheel
  cases lvl with
  | zero => rfl
  | succ l1 =>
    cases l1 with
    | zero => rfl
    | succ l2 =>
      cases l2 with
      | zero => rfl
      | succ l3 => rfl

/-! ## Expirator add semantics (claim C3) -/

/-- C3 counterexample: in the lock-free variant, a state whose consumer map
already holds key 5 and whose operation ring has room: `add(5, …)` returns
true, not false.  The claim as stated (every variant returns false on a
present key) is therefore false on this input. -/
theorem c3_lockfree_duplicate_add_returns_true :
    lf_contains
      ({ op_queue := List.replicate QUEUE_SIZE ⟨op_type.STOP, 0, 0, 0⟩
         write_index := 0, read_index := 0
         entries := [(5, ⟨100, 42⟩)], expiry_queue := [(100, 5)]
         running := true } : LFState Nat Nat) 5 = true ∧
    (lf_add
      ({ op_queue := List.replicate QUEUE_SIZE ⟨op_type.STOP, 0, 0, 0⟩
         write_index := 0, read_index := 0
         entries := [(5, ⟨100, 42⟩)], expiry_queue := [(100, 5)]
         running := true } : LFState Nat Nat) 200 5 50 7).1 = true :=
  ⟨rfl, rfl⟩

/-- C3 amended: in the heap, ordered-map and timing-wheel variants,
`add(k, ttl, v)` returns false (leaving the state unchanged) when `k` is
present, and otherwise returns true after inserting the entry with deadline
`now + ttl` and payload `v`.  In the lock-free variant, `add` returns false
exactly when the operation ring is full; otherwise it returns true after
publishing an ADD operation carrying deadline `now + ttl` — without any
key-presence check (a duplicate is dropped later by the consumer). -/
theorem c3_add_semantics (now : Int) (key : K) (dur : Int) (info : V) :
    (∀ st : HeapState K V,
      ((find_entry st.entries key).isSome = true →
        heap_add st now key dur info = (false, st)) ∧
      (find_entry st.entries key = none →
        (heap_add st now key dur info).1 = true ∧
        heap_contains (heap_add st now key dur info).2 key = true ∧
        heap_get_info (heap_add st now key dur info).2 key = some info ∧
        entry_view (heap_add st now key dur info).2.entries key = some (now + dur, info))) ∧
    (∀ st : IoState K V,
      ((find_entry st.entries key).isSome = true →
        io_add st now key dur info = (false, st)) ∧
      (find_entry st.entries key = none →
        (io_add st now key dur info).1 = true ∧
        io_contains (io_add st now key dur info).2 key = true ∧
        io_get_info (io_add st now key dur info).2 key = some info ∧
        find_entry (io_add st now key dur info).2.entries key = some ⟨now + dur, info⟩)) ∧
    (∀ st : WheelState K V,
      ((find_entry st.key_to_entry key).isSome = true →
        wheel_add st now key dur info = (false, st)) ∧
      (find_entry st.key_to_entry key = none → wheel_shape st = true →
        (wheel_add st now key dur info).1 = true ∧
        wheel_contains (wheel_add st now key dur info).2 key = true ∧
        ∃ ls : Nat × Nat,
          find_entry (wheel_add st now key dur info).2.key_to_entry key = some ls ∧
          (⟨key, info, now + dur, ls.1, ls.2⟩ : WheelEntry K V) ∈
            (get_wheel (wheel_add st now key dur info).2 ls.1).getD ls.2 [])) ∧
    (∀ st : LFState K V,
      ((st.write_index + 1) % QUEUE_SIZE = st.read_index →
        lf_add st now key dur info = (false, st)) ∧
      ((st.write_index + 1) % QUEUE_SIZE ≠ st.read_index →
        (lf_add st now key dur info).1 = true ∧
        (lf_add st now key dur info).2.op_queue =
          st.op_queue.set st.write_index ⟨op_type.ADD, key, info, now + dur⟩ ∧
        (lf_add st now key dur info).2.write_index = (st.write_index + 1) % QUEUE_SIZE ∧
        (lf_add st now key dur info).2.entries = st.entries)) := by
  refine ⟨?_, ?_, ?_, ?_⟩
  · intro st
    constructor
    · intro hp
      unfold heap_add
      rw [if_pos hp]
    · intro habs
      unfold heap_add
      rw [habs]
      simp only [Option.isSome_none, Bool.false_eq_true, if_false]
      have hkey : entry_view (heap_bubble_up
          (st.heap ++ [(⟨now + dur, key⟩ : heap_node K)]).length
          (st.heap ++ [(⟨now + dur, key⟩ : heap_node K)])
          (st.entries ++ [(key, ⟨now + dur, info, st.heap.length⟩)]) st.heap.length).2 key =
          some (now + dur, info) := by
        rw [heap_bubble_up_view]
        exact entry_view_append_absent _ _ _ habs
      have hkey' := hkey
      unfold entry_view at hkey'
      obtain ⟨d, hd, hdv⟩ := Option.map_eq_some'.1 hkey'
      rw [Prod.mk.injEq] at hdv
      refine ⟨by trivial, ?_, ?_, ?_⟩
      · show (find_entry (heap_bubble_up _ _ _ _).2 key).isSome = true
        rw [hd]
        rfl
      · show (find_entry (heap_bubble_up _ _ _ _).2 key).map _ = some info
        rw [hd]
        simp [hdv.2]
      · exact hkey
  · intro st
    constructor
    · intro hp
      unfold io_add
      rw [if_pos hp]
    · intro habs
      unfold io_add
      rw [habs]
      simp only [Option.isSome_none, Bool.false_eq_true, if_false]
      have hf := find_entry_append_absent st.entries key
        (⟨now + dur, info⟩ : IoEntry V) habs
      refine ⟨by trivial, ?_, ?_, hf⟩
      · show (find_entry (st.entries ++ [(key, ⟨now + dur, info⟩)]) key).isSome = true
        rw [hf]
        rfl
      · show (find_entry (st.entries ++ [(key, ⟨now + dur, info⟩)]) key).map _ = some info
        rw [hf]
        rfl
  · intro st
    constructor
    · intro hp
      unfold wheel_add
      rw [if_pos hp]
    · intro habs hshape
      unfold wheel_add
      rw [habs]
      simp only [Option.isSome_none, Bool.false_eq_true, if_false]
      obtain ⟨ls, hk, hslot⟩ := insert_entry_spec st now key info (now + dur) hshape
      have hfind : find_entry (insert_entry st now key info (now + dur)).key_to_entry key =
          some ls := by
        rw [hk]
        exact find_entry_append_absent _ _ _ habs
      by_cases hrun : st.running
      · simp only [hrun, Bool.not_true, Bool.false_eq_true, if_false]
        refine ⟨by trivial, ?_, ls, hfind, ?_⟩
        · show (find_entry (insert_entry st now key info (now + dur)).key_to_entry
            key).isSome = true
          rw [hfind]
          rfl
        · rw [hslot]
          exact List.mem_append_right _ (List.mem_singleton.2 rfl)
      · rw [show st.running = false by simpa using hrun]
        simp only [Bool.not_false, if_true]
        refine ⟨by trivial, ?_, ls, ?_, ?_⟩
        · show (find_entry (insert_entry st now key info (now + dur)).key_to_entry
            key).isSome = true
          rw [hfind]
          rfl
        · exact hfind
        · show (⟨key, info, now + dur, ls.1, ls.2⟩ : WheelEntry K V) ∈
            (get_wheel { insert_entry st now key info (now + dur) with
              current_tick := 0, running := true } ls.1).getD ls.2 []
          rw [get_wheel_irrelevant, hslot]
          exact List.mem_append_right _ (List.mem_singleton.2 rfl)
  · intro st
    constructor
    · intro hfull
      unfold lf_add
      rw [if_pos hfull]
    · intro hroom
      unfold lf_add
      rw [if_neg hroom]
      exact ⟨rfl, rfl, rfl, rfl⟩

/-- Witness for the amended C3 at concrete states: a fresh insertion into
each of the heap, map and wheel variants, and a non-full lock-free ring
publication. -/
theorem c3_add_semantics_witness :
    ((heap_add (⟨[], [], false⟩ : HeapState Nat Nat) 0 1 5 9).1 = true ∧
      heap_contains (heap_add (⟨[], [], false⟩ : HeapState Nat Nat) 0 1 5 9).2 1 = true ∧
      heap_get_info (heap_add (⟨[], [], false⟩ : HeapState Nat Nat) 0 1 5 9).2 1 = some 9 ∧
      entry_view (heap_add (⟨[], [], false⟩ : HeapState Nat Nat) 0 1 5 9).2.entries 1 =
        some (0 + 5, 9)) ∧
    io_add (⟨[(1, ⟨8, 2⟩)], [(8, 1)], true⟩ : IoState Nat Nat) 0 1 5 9 =
      (false, ⟨[(1, ⟨8, 2⟩)], [(8, 1)], true⟩) ∧
    ((wheel_add (⟨0, List.replicate 256 [], List.replicate 64 [], List.replicate 64 [],
        List.replicate 64 [], [], false⟩ : WheelState Nat Nat) 0 1 5 9).1 = true ∧
      wheel_contains (wheel_add (⟨0, List.replicate 256 [], List.replicate 64 [],
        List.replicate 64 [], List.replicate 64 [], [], false⟩ : WheelState Nat Nat)
        0 1 5 9).2 1 = true ∧
      ∃ ls : Nat × Nat,
        find_entry (wheel_add (⟨0, List.replicate 256 [], List.replicate 64 [],
          List.replicate 64 [], List.replicate 64 [], [], false⟩ : WheelState Nat Nat)
          0 1 5 9).2.key_to_entry 1 = some ls ∧
        (⟨1, 9, 0 + 5, ls.1, ls.2⟩ : WheelEntry Nat Nat) ∈
          (get_wheel (wheel_add (⟨0, List.replicate 256 [], List.replicate 64 [],
            List.replicate 64 [], List.replicate 64 [], [], false⟩ : WheelState Nat Nat)
            0 1 5 9).2 ls.1).getD ls.2 []) ∧
    ((lf_add (⟨List.replicate QUEUE_SIZE ⟨op_type.STOP, 0, 0, 0⟩, 0, 0, [], [], false⟩ :
        LFState Nat Nat) 0 1 5 9).1 = true ∧
      (lf_add (⟨List.replicate QUEUE_SIZE ⟨op_type.STOP, 0, 0, 0⟩, 0, 0, [], [], false⟩ :
        LFState Nat Nat) 0 1 5 9).2.op_queue =
        (List.replicate QUEUE_SIZE (⟨op_type.STOP, 0, 0, 0⟩ : operation Nat Nat)).set 0
          ⟨op_type.ADD, 1, 9, 0 + 5⟩ ∧
      (lf_add (⟨List.replicate QUEUE_SIZE ⟨op_type.STOP, 0, 0, 0⟩, 0, 0, [], [], false⟩ :
        LFState Nat Nat) 0 1 5 9).2.write_index = (0 + 1) % QUEUE_SIZE ∧
      (lf_add (⟨List.replicate QUEUE_SIZE ⟨op_type.STOP, 0, 0, 0⟩, 0, 0, [], [], false⟩ :
        LFState Nat Nat) 0 1 5 9).2.entries = []) := by
  refine ⟨((c3_add_semantics 0 1 5 9).1 _).2 rfl, ?_, ?_, ?_⟩
  · exact ((c3_add_semantics 0 1 5 9).2.1 _).1 rfl
  · exact ((c3_add_semantics 0 1 5 9).2.2.1 _).2 rfl (by decide)
  · exact ((c3_add_semantics 0 1 5 9).2.2.2 _).2 (by decide)

/-! ## Firing pass of the timing wheel -/

/-- Wheel-0 write of `set_wheel_slot` at level 0. -/
theorem set_wheel_slot_zero_wheel0 (w : WheelState K V) (slot : Nat)
    (lst : List (WheelEntry K V)) :
    (set_wheel_slot w 0 slot lst).wheel_0 = w.wheel_0.set slot lst := rfl

/-- Master lemma for `wheel_process_slot_go`: over a well-formed slot, the
loop fires exactly the due entries of the remaining list in order, each
after its removal from the key index and the slot; it makes no
error-handler report; and when the handler throws, the pass stops at the
throwing entry and all unfired due entries remain present. -/
theorem wheel_process_slot_go_spec (handler : K → V → Except String Unit) (s : Nat)
    (now : Int) :
    ∀ (rem kept : List (WheelEntry K V)) (st : WheelState K V),
      keys_nodup st.key_to_entry = true →
      keys_nodup ((kept ++ rem).map (fun en => (en.key, ()))) = true →
      (∀ en ∈ kept ++ rem, (find_entry st.key_to_entry en.key).isSome = true) →
      st.wheel_0.getD s [] = kept ++ rem →
      s < st.wheel_0.length →
      (wheel_process_slot_go handler s now rem kept st).error_reports = [] ∧
      ((wheel_process_slot_go handler s now rem kept st).escaped = none →
        fired_pairs (wheel_process_slot_go handler s now rem kept st) =
          (rem.filter (fun en => decide (en.expiry ≤ now))).map
            (fun en => (en.key, en.info))) ∧
      (∀ x ∈ (wheel_process_slot_go handler s now rem kept st).fired,
        wheel_contains x.2.2 x.1 = false ∧ wheel_get_info x.2.2 x.1 = none) ∧
      (∀ msg, (wheel_process_slot_go handler s now rem kept st).escaped = some msg →
        (∃ pre lastx, (wheel_process_slot_go handler s now rem kept st).fired =
            pre ++ [lastx] ∧ handler lastx.1 lastx.2.1 = Except.error msg) ∧
        (∀ en ∈ rem, decide (en.expiry ≤ now) = true →
          en.key ∉ fired_keys (wheel_process_slot_go handler s now rem kept st) →
          wheel_contains (wheel_process_slot_go handler s now rem kept st).state en.key =
            true)) := by
  intro rem
  induction rem with
  | nil =>
    intro kept st hidx hslotk hcov hslot hs
    refine ⟨rfl, fun _ => rfl, ?_, ?_⟩
    · intro x hx
      simp [wheel_process_slot_go] at hx
    · intro msg hmsg
      simp [wheel_process_slot_go] at hmsg
  | cons en rest ih =>
    intro kept st hidx hslotk hcov hslot hs
    have hkeys : ((kept ++ en :: rest).map (fun e => e.key)).Nodup := by
      have h1 := (keys_nodup_iff ((kept ++ en :: rest).map (fun e => (e.key, ())))).1 hslotk
      simpa [List.map_map, Function.comp] using h1
    have hkeyne : ∀ en' ∈ kept ++ rest, en'.key ≠ en.key := by
      intro en' hmem heq
      rw [List.map_append, List.map_cons] at hkeys
      rw [List.nodup_append] at hkeys
      obtain ⟨hnk, hnc, hdisj⟩ := hkeys
      rcases List.mem_append.1 hmem with hmk | hmr
      · exact hdisj (heq ▸ List.mem_map_of_mem _ hmk) (List.mem_cons_self _ _)
      · exact (List.nodup_cons.1 hnc).1 (heq ▸ List.mem_map_of_mem _ hmr)
    by_cases hdue : en.expiry ≤ now
    · have hdec : decide (en.expiry ≤ now) = true := by simpa using hdue
      set st' : WheelState K V :=
        set_wheel_slot { st with key_to_entry := erase_entry st.key_to_entry en.key }
          0 s (kept ++ rest) with hst'
      have hidx' : st'.key_to_entry = erase_entry st.key_to_entry en.key := by
        rw [hst', set_wheel_slot_key_index]
      have hcontains : wheel_contains st' en.key = false := by
        unfold wheel_contains
        rw [hidx', find_entry_erase_self hidx]
        rfl
      have hinfo : wheel_get_info st' en.key = none := by
        unfold wheel_get_info
        rw [hidx', find_entry_erase_self hidx]
      have hidxnd' : keys_nodup st'.key_to_entry = true := by
        rw [hidx']
        exact keys_nodup_of_sublist (erase_entry_sublist _ _) hidx
      have hcov' : ∀ en' ∈ kept ++ rest, (find_entry st'.key_to_entry en'.key).isSome =
          true := by
        intro en' hmem
        rw [hidx', find_entry_erase_ne _ (hkeyne en' hmem)]
        refine hcov en' ?_
        rcases List.mem_append.1 hmem with hmk | hmr
        · exact List.mem_append.2 (Or.inl hmk)
        · exact List.mem_append.2 (Or.inr (List.mem_cons_of_mem _ hmr))
      have hslot' : st'.wheel_0.getD s [] = kept ++ rest := by
        rw [hst', set_wheel_slot_zero_wheel0]
        show (st.wheel_0.set s (kept ++ rest)).getD s [] = kept ++ rest
        exact getD_set_self _ _ _ _ hs
      have hs' : s < st'.wheel_0.length := by
        rw [hst', set_wheel_slot_zero_wheel0]
        show s < (st.wheel_0.set s (kept ++ rest)).length
        rw [List.length_set]
        exact hs
      have hslotk' : keys_nodup ((kept ++ rest).map (fun en => (en.key, ()))) = true := by
        refine keys_nodup_of_sublist (List.Sublist.map _ ?_) hslotk
        exact List.Sublist.append_left (List.sublist_cons_self _ _) kept
      cases hh : handler en.key en.info with
      | error msg =>
        have heq : wheel_process_slot_go handler s now (en :: rest) kept st =
            { state := st', fired := [(en.key, en.info, st')]
              escaped := some msg, error_reports := [] } := by
          rw [wheel_process_slot_go, if_pos hdec, hh]
        rw [heq]
        refine ⟨rfl, ?_, ?_, ?_⟩
        · intro habs
          simp at habs
        · intro x hx
          rcases List.mem_singleton.1 hx with rfl
          exact ⟨hcontains, hinfo⟩
        · intro msg' hmsg'
          obtain rfl : msg = msg' := by simpa using hmsg'
          refine ⟨⟨[], (en.key, en.info, st'), by simp, hh⟩, ?_⟩
          · intro en' hmem hdue' hnotin
            have hne : en'.key ≠ en.key := by
              intro heq
              exact hnotin (by simp [fired_keys, heq])
            show wheel_contains st' en'.key = true
            unfold wheel_contains
            rw [hidx', find_entry_erase_ne _ hne]
            rcases List.mem_cons.1 hmem with rfl | hmr
            · exact absurd rfl hne
            · exact hcov en' (List.mem_append.2 (Or.inr (List.mem_cons_of_mem _ hmr)))
      | ok u =>
        have heq : wheel_process_slot_go handler s now (en :: rest) kept st =
            { wheel_process_slot_go handler s now rest kept st' with
              fired := (en.key, en.info, st') ::
                (wheel_process_slot_go handler s now rest kept st').fired } := by
          rw [wheel_process_slot_go, if_pos hdec, hh]
        rw [heq]
        obtain ⟨ihrep, ihnone, ihsnap, ihesc⟩ := ih kept st' hidxnd' hslotk' hcov' hslot' hs'
        refine ⟨ihrep, ?_, ?_, ?_⟩
        · intro hnone
          have hnone' : (wheel_process_slot_go handler s now rest kept st').escaped =
              none := hnone
          show ((en.key, en.info) :: fired_pairs (wheel_process_slot_go handler s now
              rest kept st') : List (K × V)) = _
          rw [List.filter_cons, ihnone hnone']
          simp [hdec]
        · intro x hx
          rcases List.mem_cons.1 hx with rfl | hxr
          · exact ⟨hcontains, hinfo⟩
          · exact ihsnap x hxr
        · intro msg hmsg
          have hmsg' : (wheel_process_slot_go handler s now rest kept st').escaped =
              some msg := hmsg
          obtain ⟨⟨pre, lastx, hfeq, hthrow⟩, ihrem⟩ := ihesc msg hmsg'
          refine ⟨⟨(en.key, en.info, st') :: pre, lastx, by simp [hfeq], hthrow⟩, ?_⟩
          intro en' hmem hdue' hnotin
          have hne : en'.key ≠ en.key := by
            intro heq
            exact hnotin (by simp [fired_keys, heq])
          rcases List.mem_cons.1 hmem with rfl | hmr
          · exact absurd rfl hne
          · refine (ihesc msg hmsg').2 en' hmr hdue' ?_
            intro hcontra
            exact hnotin (by simp [fired_keys] at hcontra ⊢; exact Or.inr hcontra)
    · have hdec : decide (en.expiry ≤ now) = false := by simpa using hdue
      rw [show wheel_process_slot_go handler s now (en :: rest) kept st =
            wheel_process_slot_go handler s now rest (kept ++ [en]) st from by
        rw [wheel_process_slot_go, hdec]
        simp]
      have hassoc : (kept ++ [en]) ++ rest = kept ++ en :: rest := by simp
      obtain ⟨ihrep, ihnone, ihsnap, ihesc⟩ := ih (kept ++ [en]) st hidx
        (by rw [hassoc]; exact hslotk) (by rw [hassoc]; exact hcov)
        (by rw [hassoc]; exact hslot) hs
      refine ⟨ihrep, ?_, ihsnap, ?_⟩
      · intro hnone
        rw [ihnone hnone, List.filter_cons, hdec]
        simp
      · intro msg hmsg
        obtain ⟨hdecomp, ihrem⟩ := ihesc msg hmsg
        refine ⟨hdecomp, ?_⟩
        intro en' hmem hdue' hnotin
        rcases List.mem_cons.1 hmem with rfl | hmr
        · rw [hdec] at hdue'
          simp at hdue'
        · exact ihrem en' hmr hdue' hnotin

/-! ## Firing pass of the ordered-map expirator -/

/-- Auxiliary: a `filterMap` whose function always succeeds is a `map`. -/
theorem filterMap_eq_map_of_some {A B : Type} (l : List A) (f : A → Option B)
    (g : A → B) (h : ∀ a ∈ l, f a = some (g a)) : l.filterMap f = l.map g := by
  induction l with
  | nil => rfl
  | cons a rest ih =>
    rw [List.filterMap_cons, h a (List.mem_cons_self _ _), List.map_cons,
      ih (fun a' ha' => h a' (List.mem_cons_of_mem _ ha'))]

/-- Auxiliary: the sync permutation of a well-formed ordered-map state,
in propositional form. -/
theorem io_wf_parts {st : IoState K V} (hwf : io_wf st = true) :
    keys_nodup st.entries = true ∧
    (st.expiry_queue.map (fun p => (p.2, p.1))).Perm
      (st.entries.map (fun p => (p.1, p.2.expiry))) ∧
    st.expiry_queue.Pairwise (fun a b : Int × K => a.1 ≤ b.1) := by
  simp only [io_wf, Bool.and_eq_true, decide_eq_true_eq] at hwf
  obtain ⟨⟨h1, h2⟩, h3⟩ := hwf
  exact ⟨h1, h3, (mm_sorted_iff_pairwise _).1 h2⟩

/-- Rebuild the Boolean well-formedness from the parts. -/
theorem io_wf_intro {st : IoState K V} (h1 : keys_nodup st.entries = true)
    (h2 : (st.expiry_queue.map (fun p => (p.2, p.1))).Perm
      (st.entries.map (fun p => (p.1, p.2.expiry))))
    (h3 : st.expiry_queue.Pairwise (fun a b : Int × K => a.1 ≤ b.1)) :
    io_wf st = true := by
  simp only [io_wf, Bool.and_eq_true, decide_eq_true_eq]
  exact ⟨⟨h1, (mm_sorted_iff_pairwise _).2 h3⟩, h2⟩

/-- One erasure step of the ordered-map firing loop preserves
well-formedness. -/
theorem io_erase_step_wf {st : IoState K V} (hwf : io_wf st = true) {k : K}
    {e : IoEntry V} (hke : find_entry st.entries k = some e) :
    io_wf ({ entries := erase_entry st.entries k
             expiry_queue := mm_erase (e.expiry, k) st.expiry_queue
             running := st.running } : IoState K V) = true := by
  obtain ⟨hnd, hperm, hsort⟩ := io_wf_parts hwf
  have hqmem : (e.expiry, k) ∈ st.expiry_queue := by
    have hv : (k, e.expiry) ∈ st.entries.map (fun p => (p.1, p.2.expiry)) :=
      List.mem_map_of_mem _ (find_entry_some_mem hke)
    have := hperm.mem_iff.2 hv
    obtain ⟨q, hq, hqe⟩ := List.mem_map.1 this
    obtain ⟨t', k'⟩ := q
    simp only [Prod.mk.injEq] at hqe
    obtain ⟨h1, h2⟩ := hqe
    subst h1
    subst h2
    exact hq
  refine io_wf_intro ?_ ?_ ?_
  · exact keys_nodup_of_sublist (erase_entry_sublist _ _) hnd
  · have hq : st.expiry_queue.Perm ((e.expiry, k) :: mm_erase (e.expiry, k)
        st.expiry_queue) := perm_cons_mm_erase hqmem
    have he : st.entries.Perm ((k, e) :: erase_entry st.entries k) :=
      perm_cons_erase_assoc hke
    have hq' := hq.map (fun p : Int × K => (p.2, p.1))
    have he' := he.map (fun p : K × IoEntry V => (p.1, p.2.expiry))
    rw [List.map_cons] at hq' he'
    exact (hq'.symm.trans (hperm.trans he')).cons_inv
  · exact hsort.sublist (mm_erase_sublist _ _)

/-- Master lemma for the per-key loop of
`io::expirator::process_expired`. -/
theorem io_process_keys_spec (handler : K → V → Except String Unit) (now : Int) :
    ∀ (ks : List K) (st : IoState K V),
      io_wf st = true →
      ks.Nodup →
      (∀ k ∈ ks, ∃ e, find_entry st.entries k = some e ∧ e.expiry ≤ now) →
      (io_process_keys handler ks st).error_reports = [] ∧
      io_wf (io_process_keys handler ks st).state = true ∧
      (∀ x ∈ (io_process_keys handler ks st).fired,
        io_contains x.2.2 x.1 = false ∧ io_get_info x.2.2 x.1 = none ∧
        ∀ t : Int, (t, x.1) ∉ x.2.2.expiry_queue) ∧
      (∃ rest, ks = fired_keys (io_process_keys handler ks st) ++ rest ∧
        ((io_process_keys handler ks st).escaped = none → rest = [])) ∧
      ((io_process_keys handler ks st).escaped = none →
        fired_pairs (io_process_keys handler ks st) =
          ks.filterMap (fun k => (find_entry st.entries k).map (fun e => (k, e.info)))) ∧
      (∀ msg, (io_process_keys handler ks st).escaped = some msg →
        ∃ pre lastx, (io_process_keys handler ks st).fired = pre ++ [lastx] ∧
          handler lastx.1 lastx.2.1 = Except.error msg) ∧
      (∀ k, k ∉ fired_keys (io_process_keys handler ks st) →
        find_entry (io_process_keys handler ks st).state.entries k =
          find_entry st.entries k) := by
  intro ks
  induction ks with
  | nil =>
    intro st hwf hnd hpres
    refine ⟨rfl, hwf, ?_, ⟨[], rfl, fun _ => rfl⟩, fun _ => rfl, ?_, fun k _ => rfl⟩
    · intro x hx
      simp [io_process_keys] at hx
    · intro msg hmsg
      simp [io_process_keys] at hmsg
  | cons k rest ih =>
    intro st hwf hnd hpres
    obtain ⟨e, hke, hedue⟩ := hpres k (List.mem_cons_self _ _)
    rw [List.nodup_cons] at hnd
    obtain ⟨hknotin, hndr⟩ := hnd
    set st' : IoState K V :=
      { entries := erase_entry st.entries k
        expiry_queue := mm_erase (e.expiry, k) st.expiry_queue
        running := st.running } with hst'
    have hwf' : io_wf st' = true := io_erase_step_wf hwf hke
    have hnd0 : keys_nodup st.entries = true := (io_wf_parts hwf).1
    have hcontains : io_contains st' k = false := by
      unfold io_contains
      show (find_entry (erase_entry st.entries k) k).isSome = false
      rw [find_entry_erase_self hnd0]
      rfl
    have hinfo : io_get_info st' k = none := by
      unfold io_get_info
      show (find_entry (erase_entry st.entries k) k).map _ = none
      rw [find_entry_erase_self hnd0]
      rfl
    have hqueue : ∀ t : Int, (t, k) ∉ st'.expiry_queue := by
      intro t hmem
      obtain ⟨hnd', hperm', hsort'⟩ := io_wf_parts hwf'
      have : (k, t) ∈ st'.entries.map (fun p => (p.1, p.2.expiry)) :=
        hperm'.mem_iff.1 (List.mem_map_of_mem _ hmem)
      obtain ⟨p, hp, hpe⟩ := List.mem_map.1 this
      have hk : p.1 = k := (Prod.ext_iff.1 hpe).1
      have : (find_entry st'.entries p.1).isSome = true := by
        obtain ⟨p1, p2⟩ := p
        exact find_entry_isSome_of_mem hp
      rw [hk] at this
      show False
      have hnone : find_entry st'.entries k = none := find_entry_erase_self hnd0 k
      rw [hnone] at this
      simp at this
    have hfind' : ∀ k', k' ≠ k → find_entry st'.entries k' = find_entry st.entries k' :=
      fun k' hne => find_entry_erase_ne _ hne
    have hpres' : ∀ k' ∈ rest, ∃ e', find_entry st'.entries k' = some e' ∧
        e'.expiry ≤ now := by
      intro k' hk'
      obtain ⟨e', he', hd'⟩ := hpres k' (List.mem_cons_of_mem _ hk')
      exact ⟨e', by rw [hfind' k' (fun hc => hknotin (hc ▸ hk'))]; exact he', hd'⟩
    cases hh : handler k e.info with
    | error msg =>
      have heq : io_process_keys handler (k :: rest) st =
          { state := st', fired := [(k, e.info, st')]
            escaped := some msg, error_reports := [] } := by
        simp only [io_process_keys, hke, hh]
      rw [heq]
      refine ⟨rfl, hwf', ?_, ⟨rest, by simp [fired_keys], ?_⟩, ?_, ?_, ?_⟩
      · intro x hx
        rcases List.mem_singleton.1 hx with rfl
        exact ⟨hcontains, hinfo, hqueue⟩
      · intro habs
        simp at habs
      · intro habs
        simp at habs
      · intro msg' hmsg'
        obtain rfl : msg = msg' := by simpa using hmsg'
        exact ⟨[], (k, e.info, st'), by simp, hh⟩
      · intro k' hk'
        have hne : k' ≠ k := by
          intro hceq
          exact hk' (by simp [fired_keys, hceq])
        exact hfind' k' hne
    | ok u =>
      have heq : io_process_keys handler (k :: rest) st =
          { io_process_keys handler rest st' with
            fired := (k, e.info, st') :: (io_process_keys handler rest st').fired } := by
        simp only [io_process_keys, hke, hh]
      rw [heq]
      obtain ⟨ihrep, ihwf, ihsnap, ⟨rest2, hrest2, hrest2none⟩, ihnone, ihesc, ihfind⟩ :=
        ih st' hwf' hndr hpres'
      refine ⟨ihrep, ihwf, ?_, ⟨rest2, ?_, ?_⟩, ?_, ?_, ?_⟩
      · intro x hx
        rcases List.mem_cons.1 hx with rfl | hxr
        · exact ⟨hcontains, hinfo, hqueue⟩
        · exact ihsnap x hxr
      · show k :: rest = (k :: fired_keys (io_process_keys handler rest st')) ++ rest2
        rw [List.cons_append, ← hrest2]
      · intro hnone
        exact hrest2none hnone
      · intro hnone
        have hnone' : (io_process_keys handler rest st').escaped = none := hnone
        show ((k, e.info) :: fired_pairs (io_process_keys handler rest st') :
            List (K × V)) = _
        rw [List.filterMap_cons, hke]
        show _ = (k, e.info) :: rest.filterMap _
        rw [ihnone hnone']
        refine congrArg _ (List.filterMap_congr ?_)
        intro k' hk'
        rw [hfind' k' (fun hc => hknotin (hc ▸ hk'))]
      · intro msg hmsg
        have hmsg' : (io_process_keys handler rest st').escaped = some msg := hmsg
        obtain ⟨pre, lastx, hfeq, hthrow⟩ := ihesc msg hmsg'
        exact ⟨(k, e.info, st') :: pre, lastx, by simp [hfeq], hthrow⟩
      · intro k' hk'
        have hne : k' ≠ k := by
          intro hceq
          exact hk' (by simp [fired_keys, hceq])
        have hnotr : k' ∉ fired_keys (io_process_keys handler rest st') := by
          intro hc
          exact hk' (by simp [fired_keys] at hc ⊢; exact Or.inr hc)
        rw [show ({ io_process_keys handler rest st' with
            fired := (k, e.info, st') :: (io_process_keys handler rest st').fired } :
              FireOutcome K V (IoState K V)).state =
            (io_process_keys handler rest st').state from rfl]
        rw [ihfind k' hnotr]
        exact hfind' k' hne

/-! ## Firing pass of the lock-free expirator -/

/-- Decompose the Boolean well-formedness of a lock-free state. -/
theorem lf_wf_parts {st : LFState K V} (hwf : lf_wf st = true) :
    keys_nodup st.entries = true ∧
    (st.expiry_queue.map (fun p => (p.2, p.1))).Perm
      (st.entries.map (fun p => (p.1, p.2.expiry))) ∧
    st.expiry_queue.Pairwise (fun a b : Int × K => a.1 ≤ b.1) := by
  simp only [lf_wf, Bool.and_eq_true, decide_eq_true_eq] at hwf
  obtain ⟨⟨h1, h2⟩, h3⟩ := hwf
  exact ⟨h1, h3, (mm_sorted_iff_pairwise _).1 h2⟩

/-- Rebuild the Boolean well-formedness of a lock-free state. -/
theorem lf_wf_intro {st : LFState K V} (h1 : keys_nodup st.entries = true)
    (h2 : (st.expiry_queue.map (fun p => (p.2, p.1))).Perm
      (st.entries.map (fun p => (p.1, p.2.expiry))))
    (h3 : st.expiry_queue.Pairwise (fun a b : Int × K => a.1 ≤ b.1)) :
    lf_wf st = true := by
  simp only [lf_wf, Bool.and_eq_true, decide_eq_true_eq]
  exact ⟨⟨h1, (mm_sorted_iff_pairwise _).2 h3⟩, h2⟩

/-- The queue head of a well-formed lock-free state is present in the map
with the head's deadline. -/
theorem lf_head_present {st : LFState K V} (hwf : lf_wf st = true) {t : Int} {key : K}
    {qrest : List (Int × K)} (hq : st.expiry_queue = (t, key) :: qrest) :
    ∃ e, find_entry st.entries key = some e ∧ e.expiry = t := by
  obtain ⟨hnd, hperm, _⟩ := lf_wf_parts hwf
  have hmem : (key, t) ∈ st.entries.map (fun p => (p.1, p.2.expiry)) := by
    refine hperm.mem_iff.1 ?_
    rw [hq, List.map_cons]
    exact List.mem_cons_self _ _
  obtain ⟨p, hp, hpe⟩ := List.mem_map.1 hmem
  obtain ⟨k', e'⟩ := p
  simp only [Prod.mk.injEq] at hpe
  obtain ⟨h1, h2⟩ := hpe
  subst h1
  exact ⟨e', find_entry_of_mem_nodup hnd hp, h2⟩

/-- Master lemma for `lockfree_expirator::process_expired`: with sufficient
fuel on a well-formed state it fires exactly the due entries once each,
each after its removal from both structures, reports nothing to the error
handler, and on a handler throw stops at the throwing entry leaving the
unfired due entries present. -/
theorem lf_process_expired_spec (handler : K → V → Except String Unit) (now : Int) :
    ∀ (fuel : Nat) (st : LFState K V),
      lf_wf st = true →
      st.expiry_queue.length ≤ fuel →
      (lf_process_expired handler fuel st now).error_reports = [] ∧
      lf_wf (lf_process_expired handler fuel st now).state = true ∧
      ((lf_process_expired handler fuel st now).escaped = none →
        List.Perm (fired_pairs (lf_process_expired handler fuel st now))
          (lf_due st now)) ∧
      (fired_keys (lf_process_expired handler fuel st now)).Nodup ∧
      (∀ x ∈ (lf_process_expired handler fuel st now).fired,
        lf_contains x.2.2 x.1 = false ∧ lf_get_info x.2.2 x.1 = none ∧
        ∀ t : Int, (t, x.1) ∉ x.2.2.expiry_queue) ∧
      (∀ x ∈ (lf_process_expired handler fuel st now).fired,
        ∃ e, find_entry st.entries x.1 = some e ∧ x.2.1 = e.info ∧ e.expiry ≤ now) ∧
      (∀ msg, (lf_process_expired handler fuel st now).escaped = some msg →
        ∃ pre lastx, (lf_process_expired handler fuel st now).fired = pre ++ [lastx] ∧
          handler lastx.1 lastx.2.1 = Except.error msg) ∧
      (∀ p ∈ lf_due st now, p.1 ∉ fired_keys (lf_process_expired handler fuel st now) →
        lf_contains (lf_process_expired handler fuel st now).state p.1 = true) := by
  intro fuel
  induction fuel with
  | zero =>
    intro st hwf hlen
    have hq : st.expiry_queue = [] := List.eq_nil_of_length_eq_zero (by omega)
    obtain ⟨hnd, hperm, _⟩ := lf_wf_parts hwf
    have hentries : st.entries = [] := by
      have : st.entries.map (fun p => (p.1, p.2.expiry)) = [] := by
        refine List.Perm.eq_nil ?_
        rw [hq] at hperm
        exact hperm.symm
      exact List.map_eq_nil.1 this
    have hdue : lf_due st now = [] := by
      unfold lf_due
      rw [hentries]
      rfl
    refine ⟨rfl, hwf, ?_, List.nodup_nil, ?_, ?_, ?_, ?_⟩
    · intro _
      rw [hdue]
      exact List.Perm.refl _
    · intro x hx
      simp [lf_process_expired] at hx
    · intro x hx
      simp [lf_process_expired] at hx
    · intro msg hmsg
      simp [lf_process_expired] at hmsg
    · intro p hp _
      rw [hdue] at hp
      simp at hp
  | succ fuel ih =>
    intro st hwf hlen
    obtain ⟨hnd, hperm, hsort⟩ := lf_wf_parts hwf
    cases hq : st.expiry_queue with
    | nil =>
      have heq : lf_process_expired handler (fuel + 1) st now =
          { state := st, fired := [], escaped := none, error_reports := [] } := by
        simp only [lf_process_expired, hq]
      have hentries : st.entries = [] := by
        have : st.entries.map (fun p => (p.1, p.2.expiry)) = [] := by
          refine List.Perm.eq_nil ?_
          rw [hq] at hperm
          exact hperm.symm
        exact List.map_eq_nil.1 this
      have hdue : lf_due st now = [] := by
        unfold lf_due
        rw [hentries]
        rfl
      rw [heq]
      refine ⟨rfl, hwf, ?_, List.nodup_nil, ?_, ?_, ?_, ?_⟩
      · intro _
        rw [hdue]
        exact List.Perm.refl _
      · intro x hx
        simp at hx
      · intro x hx
        simp at hx
      · intro msg hmsg
        simp at hmsg
      · intro p hp _
        rw [hdue] at hp
        simp at hp
    | cons hd qrest =>
      obtain ⟨t, key⟩ := hd
      by_cases hdue : t ≤ now
      · have hdec : decide (t ≤ now) = true := by simpa using hdue
        obtain ⟨e, hfind, hexp⟩ := lf_head_present hwf hq
        set st1 : LFState K V := { st with expiry_queue := qrest } with hst1
        set st' : LFState K V := { st1 with entries := erase_entry st1.entries key }
          with hst'
        have hfind1 : find_entry st1.entries key = some e := hfind
        have hwf' : lf_wf st' = true := by
          refine lf_wf_intro ?_ ?_ ?_
          · exact keys_nodup_of_sublist (erase_entry_sublist _ _) hnd
          · have he : st.entries.Perm ((key, e) :: erase_entry st.entries key) :=
              perm_cons_erase_assoc hfind
            have he' := he.map (fun p : K × IoEntry V => (p.1, p.2.expiry))
            rw [List.map_cons] at he'
            have hq' : (st.expiry_queue.map (fun p : Int × K => (p.2, p.1))) =
                (key, t) :: qrest.map (fun p : Int × K => (p.2, p.1)) := by
              rw [hq, List.map_cons]
            rw [hq'] at hperm
            have := hperm.trans he'
            rw [hexp] at this
            exact this.cons_inv
          · show List.Pairwise (fun a b : Int × K => a.1 ≤ b.1) qrest
            have hs2 : List.Pairwise (fun a b : Int × K => a.1 ≤ b.1)
                ((t, key) :: qrest) := by
              rw [← hq]
              exact hsort
            exact (List.pairwise_cons.1 hs2).2
        have hlen' : st'.expiry_queue.length ≤ fuel := by
          show qrest.length ≤ fuel
          have : st.expiry_queue.length = qrest.length + 1 := by rw [hq]; rfl
          omega
        have hcontains : lf_contains st' key = false := by
          unfold lf_contains
          show (find_entry (erase_entry st.entries key) key).isSome = false
          rw [find_entry_erase_self hnd key]
          rfl
        have hinfo : lf_get_info st' key = none := by
          unfold lf_get_info
          show (find_entry (erase_entry st.entries key) key).map _ = none
          rw [find_entry_erase_self hnd key]
          rfl
        have hqueue : ∀ t' : Int, (t', key) ∉ st'.expiry_queue := by
          intro t' hmem
          obtain ⟨hnd', hperm', _⟩ := lf_wf_parts hwf'
          have : (key, t') ∈ st'.entries.map (fun p => (p.1, p.2.expiry)) :=
            hperm'.mem_iff.1 (List.mem_map_of_mem _ hmem)
          obtain ⟨p, hp, hpe⟩ := List.mem_map.1 this
          have hk : p.1 = key := (Prod.ext_iff.1 hpe).1
          have hs : (find_entry st'.entries p.1).isSome = true := by
            obtain ⟨p1, p2⟩ := p
            exact find_entry_isSome_of_mem hp
          rw [hk] at hs
          have hnone : find_entry st'.entries key = none := find_entry_erase_self hnd key
          rw [hnone] at hs
          simp at hs
        have hedue : e.expiry ≤ now := by omega
        have hdueperm : (lf_due st now).Perm ((key, e.info) :: lf_due st' now) := by
          have he : st.entries.Perm ((key, e) :: erase_entry st.entries key) :=
            perm_cons_erase_assoc hfind
          have hf := he.filter (fun p : K × IoEntry V => decide (p.2.expiry ≤ now))
          rw [List.filter_cons] at hf
          rw [show decide (((key, e) : K × IoEntry V).2.expiry ≤ now) = true from by
            simpa using hedue] at hf
          simp only [if_true] at hf
          have hm := hf.map (fun p : K × IoEntry V => (p.1, p.2.info))
          rw [List.map_cons] at hm
          exact hm
        have hprov : ∀ x ∈ [((key, e.info, st') : K × V × LFState K V)],
            ∃ e', find_entry st.entries x.1 = some e' ∧ x.2.1 = e'.info ∧
              e'.expiry ≤ now := by
          intro x hx
          rcases List.mem_singleton.1 hx with rfl
          exact ⟨e, hfind, rfl, hedue⟩
        cases hh : handler key e.info with
        | error msg =>
          have heqE : lf_process_expired handler (fuel + 1) st now =
              { state := st', fired := [(key, e.info, st')], escaped := some msg
                error_reports := [] } := by
            simp only [lf_process_expired, hq, hdec, hfind, hh, hst', hst1, if_true]
          rw [heqE]
          refine ⟨rfl, hwf', ?_, by simp [fired_keys], ?_, hprov, ?_, ?_⟩
          · intro habs
            simp at habs
          · intro x hx
            rcases List.mem_singleton.1 hx with rfl
            exact ⟨hcontains, hinfo, hqueue⟩
          · intro msg' hmsg'
            obtain rfl : msg = msg' := by simpa using hmsg'
            exact ⟨[], (key, e.info, st'), by simp, hh⟩
          · intro p hp hnotin
            have hne : p.1 ≠ key := by
              intro hceq
              exact hnotin (by simp [fired_keys, hceq])
            have hp' : p ∈ lf_due st' now := by
              rcases List.mem_cons.1 (hdueperm.mem_iff.1 hp) with rfl | hmr
            
              · exact absurd rfl hne
              · exact hmr
            obtain ⟨q, hqmem, hqe⟩ := List.mem_map.1 hp'
            have hqm : q ∈ st'.entries := List.mem_filter.1 hqmem |>.1
            show lf_contains st' p.1 = true
            unfold lf_contains
            rw [show p.1 = q.1 from by rw [← hqe]]
            obtain ⟨q1, q2⟩ := q
            exact find_entry_isSome_of_mem hqm
        | ok u =>
          have heqO : lf_process_expired handler (fuel + 1) st now =
              { lf_process_expired handler fuel st' now with
                fired := (key, e.info, st') ::
                  (lf_process_expired handler fuel st' now).fired } := by
            simp only [lf_process_expired, hq, hdec, hfind, hh, hst', hst1, if_true]
          rw [heqO]
          obtain ⟨ihrep, ihwf, ihperm, ihnd, ihsnap, ihprov, ihesc, ihrem⟩ :=
            ih st' hwf' hlen'
          have ihprov' : ∀ x ∈ (lf_process_expired handler fuel st' now).fired,
              ∃ e', find_entry st.entries x.1 = some e' ∧ x.2.1 = e'.info ∧
                e'.expiry ≤ now := by
            intro x hx
            obtain ⟨e', he', hi', hd'⟩ := ihprov x hx
            have hne : x.1 ≠ key := by
              intro hceq
              rw [hceq, show find_entry st'.entries key = none from
                find_entry_erase_self hnd key] at he'
              cases he'
            refine ⟨e', ?_, hi', hd'⟩
            rw [← he']
            exact (find_entry_erase_ne st.entries hne).symm
          refine ⟨ihrep, ihwf, ?_, ?_, ?_, ?_, ?_, ?_⟩
          · intro hnone
            have hnone' : (lf_process_expired handler fuel st' now).escaped = none :=
              hnone
            show (((key, e.info) ::
              fired_pairs (lf_process_expired handler fuel st' now)) : List (K × V)).Perm _
            exact ((ihperm hnone').cons (key, e.info)).trans hdueperm.symm
          · show (key :: fired_keys (lf_process_expired handler fuel st' now)).Nodup
            rw [List.nodup_cons]
            refine ⟨?_, ihnd⟩
            intro hc
            obtain ⟨x, hx, hxk⟩ := List.mem_map.1 hc
            obtain ⟨e', he', _, _⟩ := ihprov x hx
            rw [hxk, show find_entry st'.entries key = none from
              find_entry_erase_self hnd key] at he'
            cases he'
          · intro x hx
            rcases List.mem_cons.1 hx with rfl | hxr
            · exact ⟨hcontains, hinfo, hqueue⟩
            · exact ihsnap x hxr
          · intro x hx
            rcases List.mem_cons.1 hx with rfl | hxr
            · exact ⟨e, hfind, rfl, hedue⟩
            · exact ihprov' x hxr
          · intro msg hmsg
            have hmsg' : (lf_process_expired handler fuel st' now).escaped = some msg :=
              hmsg
            obtain ⟨pre, lastx, hfeq, hthrow⟩ := ihesc msg hmsg'
            exact ⟨(key, e.info, st') :: pre, lastx, by simp [hfeq], hthrow⟩
          · intro p hp hnotin
            have hne : p.1 ≠ key := by
              intro hceq
              exact hnotin (by simp [fired_keys, hceq])
            have hp' : p ∈ lf_due st' now := by
              rcases List.mem_cons.1 (hdueperm.mem_iff.1 hp) with rfl | hmr
              · exact absurd rfl hne
              · exact hmr
            refine ihrem p hp' ?_
            intro hc
            refine hnotin ?_
            show p.1 ∈ (key :: fired_keys (lf_process_expired handler fuel st' now))
            exact List.mem_cons_of_mem _ hc
      · have hdec : decide (t ≤ now) = false := by simpa using hdue
        have heqN : lf_process_expired handler (fuel + 1) st now =
            { state := st, fired := [], escaped := none, error_reports := [] } := by
          simp only [lf_process_expired, hq, hdec, Bool.false_eq_true, if_false]
        have hduenil : lf_due st now = [] := by
          unfold lf_due
          rw [show st.entries.filter (fun p => decide (p.2.expiry ≤ now)) = [] from ?_]
          · rfl
          · rw [List.filter_eq_nil_iff]
            intro p hp
            have hmem : (p.1, p.2.expiry) ∈ st.entries.map
                (fun q => (q.1, q.2.expiry)) := List.mem_map_of_mem _ hp
            have := hperm.mem_iff.2 hmem
            obtain ⟨q, hqmem, hqe⟩ := List.mem_map.1 this
            have hq1 : q.1 = p.2.expiry := (Prod.ext_iff.1 hqe).2
            rw [hq] at hqmem
            rcases List.mem_cons.1 hqmem with rfl | hmr
            · simp only [decide_eq_true_eq]
              omega
            · have := (List.pairwise_cons.1 (by rw [← hq]; exact hsort)).1 q hmr
              simp only [decide_eq_true_eq]
              omega
        rw [heqN]
        refine ⟨rfl, hwf, ?_, List.nodup_nil, ?_, ?_, ?_, ?_⟩
        · intro _
          rw [hduenil]
          exact List.Perm.refl _
        · intro x hx
          simp at hx
        · intro x hx
          simp at hx
        · intro msg hmsg
          simp at hmsg
        · intro p hp _
          rw [hduenil] at hp
          simp at hp

/-! ## Heap-expirator infrastructure -/

/-- Replacing position `m` of `t` by `x` and consing the displaced value is
a permutation of consing `x` onto `t`. -/
theorem cons_set_perm {A : Type} :
    ∀ (t : List A) (m : Nat) (x b : A), t[m]? = some b →
      (b :: t.set m x).Perm (x :: t) := by
  intro t
  induction t with
  | nil =>
    intro m x b hb
    simp at hb
  | cons y t' ih =>
    intro m x b hb
    cases m with
    | zero =>
      obtain rfl : y = b := by simpa using hb
      exact List.Perm.swap _ _ _
    | succ k =>
      have hb' : t'[k]? = some b := by simpa using hb
      show (b :: y :: t'.set k x).Perm (x :: y :: t')
      have p1 : (b :: y :: t'.set k x).Perm (y :: b :: t'.set k x) :=
        List.Perm.swap y b (t'.set k x)
      have p2 : (y :: b :: t'.set k x).Perm (y :: x :: t') := (ih k x b hb').cons y
      exact (p1.trans p2).trans (List.Perm.swap x y t')

/-- Writing back the value already stored at a position is the identity. -/
theorem set_of_getElem {A : Type} :
    ∀ (l : List A) (i : Nat) (a : A), l[i]? = some a → l.set i a = l := by
  intro l
  induction l with
  | nil => intro i a ha; simp at ha
  | cons y t ih =>
    intro i a ha
    cases i with
    | zero =>
      obtain rfl : y = a := by simpa using ha
      rfl
    | succ k =>
      have ha' : t[k]? = some a := by simpa using ha
      show y :: t.set k a = y :: t
      rw [ih k a ha']

/-- The double write of a swap permutes the list. -/
theorem set_set_perm {A : Type} (l : List A) (i j : Nat) (a b : A)
    (hi : l[i]? = some a) (hj : l[j]? = some b) :
    ((l.set i b).set j a).Perm l := by
  by_cases hij : i = j
  · subst hij
    obtain rfl : a = b := by rw [hi] at hj; exact Option.some.inj hj
    rw [List.set_set, set_of_getElem l i a hi]
  · have hj' : (l.set i b)[j]? = some b := by
      rw [List.getElem?_set, if_neg hij]; exact hj
    have p1 := cons_set_perm (l.set i b) j a b hj'
    have p2 := cons_set_perm l i b a hi
    exact (p1.trans p2).cons_inv

/-- A `swap_nodes` call permutes the heap array. -/
theorem swap_nodes_perm {K' : Type} (h : List (heap_node K')) (i j : Nat) :
    (swap_nodes h i j).Perm h := by
  unfold swap_nodes
  cases hi : h[i]? with
  | none => cases hj : h[j]? <;> exact List.Perm.refl h
  | some a =>
    cases hj : h[j]? with
    | none => exact List.Perm.refl h
    | some b => exact set_set_perm h i j a b hi hj

/-- `swap_nodes` preserves the heap size. -/
theorem swap_nodes_length {K' : Type} (h : List (heap_node K')) (i j : Nat) :
    (swap_nodes h i j).length = h.length := by
  exact (swap_nodes_perm h i j).length_eq

/-- Pointwise description of a swap of two occupied positions. -/
theorem swap_nodes_getElem {K' : Type} (h : List (heap_node K')) (i j m : Nat)
    (a b : heap_node K') (hi : h[i]? = some a) (hj : h[j]? = some b) :
    (swap_nodes h i j)[m]? = if m = j then some a else if m = i then some b else h[m]? := by
  have hilen : i < h.length := (List.getElem?_eq_some.1 hi).choose
  have hjlen : j < h.length := (List.getElem?_eq_some.1 hj).choose
  unfold swap_nodes
  rw [hi, hj]
  show ((h.set i b).set j a)[m]? = _
  rw [List.getElem?_set, List.getElem?_set, List.length_set]
  by_cases hmj : m = j
  · subst hmj
    rw [if_pos rfl, if_pos rfl, if_pos hjlen]
  · rw [if_neg (fun hc => hmj hc.symm), if_neg hmj]
    by_cases hmi : m = i
    · subst hmi
      rw [if_pos rfl, if_pos rfl, if_pos hilen]
    · rw [if_neg (fun hc => hmi hc.symm), if_neg hmi]

/-- `node_lt` on two occupied positions compares the stored expiries. -/
theorem node_lt_eq {K' : Type} (h : List (heap_node K')) (i j : Nat)
    (a b : heap_node K') (hi : h[i]? = some a) (hj : h[j]? = some b) :
    node_lt h i j = decide (a.expiry < b.expiry) := by
  unfold node_lt
  rw [hi, hj]

/-- `node_lt` is false when the right-hand position is vacant. -/
theorem node_lt_none_right {K' : Type} (h : List (heap_node K')) (i j : Nat)
    (hj : h[j]? = none) : node_lt h i j = false := by
  unfold node_lt
  rw [hj]
  cases hx : h[i]? <;> rfl

/-- The executable heap invariant agrees with its propositional form. -/
theorem heap_prop_iff {K' : Type} (h : List (heap_node K')) :
    heap_prop h = true ↔ IsHeapP h := by
  unfold heap_prop IsHeapP
  rw [List.all_eq_true]
  constructor
  · intro hall j a b hj hjb hpa
    have hjlen : j < h.length := (List.getElem?_eq_some.1 hjb).choose
    have hthis := hall j (List.mem_range.2 hjlen)
    rw [Bool.or_eq_true] at hthis
    rcases hthis with h0 | hm
    · exact absurd (of_decide_eq_true h0) (by omega)
    · rw [hpa, hjb] at hm
      exact of_decide_eq_true hm
  · intro hP j hjr
    rw [Bool.or_eq_true]
    by_cases h0 : j = 0
    · exact Or.inl (decide_eq_true h0)
    · refine Or.inr ?_
      cases hpa : h[parent_idx j]? with
      | none => cases hjb : h[j]? <;> rfl
      | some a =>
        cases hjb : h[j]? with
        | none => rfl
        | some b => exact decide_eq_true (hP j a b (Nat.pos_of_ne_zero h0) hjb hpa)

/-- `node_lt` is false when the left-hand position is vacant. -/
theorem node_lt_none_left {K' : Type} (h : List (heap_node K')) (i j : Nat)
    (hi : h[i]? = none) : node_lt h i j = false := by
  unfold node_lt
  rw [hi]

/-- `bd_target` stays put on a vacant position. -/
theorem bd_target_of_none {K' : Type} (h : List (heap_node K')) (idx : Nat)
    (hidx : h[idx]? = none) : bd_target h idx = idx := by
  simp [bd_target, node_lt_none_right h (left_child idx) idx hidx,
        node_lt_none_right h (right_child idx) idx hidx]

/-- Case analysis of one `heap_bubble_down` iteration's `smallest` choice:
either it stays at `idx` and `idx`'s node bounds both children, or it moves
to a child holding a strictly smaller expiry that also bounds both
children. -/
theorem bd_target_analysis {K' : Type} (h : List (heap_node K')) (idx : Nat)
    (a : heap_node K') (ha : h[idx]? = some a) :
    (bd_target h idx = idx ∧ ∀ c x, (c = left_child idx ∨ c = right_child idx) →
        h[c]? = some x → a.expiry ≤ x.expiry) ∨
    (∃ b, h[bd_target h idx]? = some b ∧
      (bd_target h idx = left_child idx ∨ bd_target h idx = right_child idx) ∧
      b.expiry < a.expiry ∧
      ∀ c x, (c = left_child idx ∨ c = right_child idx) → h[c]? = some x →
        b.expiry ≤ x.expiry) := by
  by_cases hl : left_child idx < h.length
  case neg =>
    have hln : h[left_child idx]? = none := List.getElem?_eq_none (by omega)
    have hrn : h[right_child idx]? = none := by
      refine List.getElem?_eq_none ?_
      unfold left_child right_child at *
      omega
    have hbd : bd_target h idx = idx := by
      simp [bd_target, node_lt_none_left h (left_child idx) idx hln,
            show ∀ j, node_lt h (right_child idx) j = false from
              fun j => node_lt_none_left h (right_child idx) j hrn]
    refine Or.inl ⟨hbd, ?_⟩
    intro c x hc hx
    rcases hc with rfl | rfl
    · rw [hln] at hx; cases hx
    · rw [hrn] at hx; cases hx
  case pos =>
    obtain ⟨bl, hbl⟩ : ∃ bl, h[left_child idx]? = some bl :=
      ⟨_, List.getElem?_eq_getElem hl⟩
    by_cases hr : right_child idx < h.length
    case pos =>
      obtain ⟨br, hbr⟩ : ∃ br, h[right_child idx]? = some br :=
        ⟨_, List.getElem?_eq_getElem hr⟩
      by_cases hll : bl.expiry < a.expiry
      case pos =>
        by_cases hrl : br.expiry < bl.expiry
        case pos =>
          have hbd : bd_target h idx = right_child idx := by
            simp [bd_target, node_lt_eq h (left_child idx) idx bl a hbl ha,
                  node_lt_eq h (right_child idx) (left_child idx) br bl hbr hbl,
                  hl, hr, hll, hrl]
          refine Or.inr ⟨br, by rw [hbd]; exact hbr, Or.inr hbd,
            lt_trans hrl hll, ?_⟩
          intro c x hc hx
          rcases hc with rfl | rfl
          · obtain rfl : bl = x := Option.some.inj (hbl.symm.trans hx)
            exact le_of_lt hrl
          · obtain rfl : br = x := Option.some.inj (hbr.symm.trans hx)
            exact le_refl _
        case neg =>
          have hbd : bd_target h idx = left_child idx := by
            simp [bd_target, node_lt_eq h (left_child idx) idx bl a hbl ha,
                  node_lt_eq h (right_child idx) (left_child idx) br bl hbr hbl,
                  hl, hr, hll, hrl]
          refine Or.inr ⟨bl, by rw [hbd]; exact hbl, Or.inl hbd, hll, ?_⟩
          intro c x hc hx
          rcases hc with rfl | rfl
          · obtain rfl : bl = x := Option.some.inj (hbl.symm.trans hx)
            exact le_refl _
          · obtain rfl : br = x := Option.some.inj (hbr.symm.trans hx)
            exact Int.not_lt.1 hrl
      case neg =>
        by_cases hra : br.expiry < a.expiry
        case pos =>
          have hbd : bd_target h idx = right_child idx := by
            simp [bd_target, node_lt_eq h (left_child idx) idx bl a hbl ha,
                  node_lt_eq h (right_child idx) idx br a hbr ha,
                  hl, hr, hll, hra]
          refine Or.inr ⟨br, by rw [hbd]; exact hbr, Or.inr hbd, hra, ?_⟩
          intro c x hc hx
          rcases hc with rfl | rfl
          · obtain rfl : bl = x := Option.some.inj (hbl.symm.trans hx)
            exact le_trans (le_of_lt hra) (Int.not_lt.1 hll)
          · obtain rfl : br = x := Option.some.inj (hbr.symm.trans hx)
            exact le_refl _
        case neg =>
          have hbd : bd_target h idx = idx := by
            simp [bd_target, node_lt_eq h (left_child idx) idx bl a hbl ha,
                  node_lt_eq h (right_child idx) idx br a hbr ha,
                  hl, hr, hll, hra]
          refine Or.inl ⟨hbd, ?_⟩
          intro c x hc hx
          rcases hc with rfl | rfl
          · obtain rfl : bl = x := Option.some.inj (hbl.symm.trans hx)
            exact Int.not_lt.1 hll
          · obtain rfl : br = x := Option.some.inj (hbr.symm.trans hx)
            exact Int.not_lt.1 hra
    case neg =>
      have hrn : h[right_child idx]? = none := List.getElem?_eq_none (by omega)
      have hnr : ∀ j, node_lt h (right_child idx) j = false :=
        fun j => node_lt_none_left h (right_child idx) j hrn
      by_cases hll : bl.expiry < a.expiry
      case pos =>
        have hbd : bd_target h idx = left_child idx := by
          simp [bd_target, node_lt_eq h (left_child idx) idx bl a hbl ha,
                hnr, hl, hll]
        refine Or.inr ⟨bl, by rw [hbd]; exact hbl, Or.inl hbd, hll, ?_⟩
        intro c x hc hx
        rcases hc with rfl | rfl
        · obtain rfl : bl = x := Option.some.inj (hbl.symm.trans hx)
          exact le_refl _
        · rw [hrn] at hx; cases hx
      case neg =>
        have hbd : bd_target h idx = idx := by
          simp [bd_target, node_lt_eq h (left_child idx) idx bl a hbl ha,
                hnr, hl, hll]
        refine Or.inl ⟨hbd, ?_⟩
        intro c x hc hx
        rcases hc with rfl | rfl
        · obtain rfl : bl = x := Option.some.inj (hbl.symm.trans hx)
          exact Int.not_lt.1 hll
        · rw [hrn] at hx; cases hx

/-- Swapping the sifted node with its smaller-expiry child moves the
possibly-broken position of the heap invariant down to that child. -/
theorem almost_heap_swap {K' : Type} (h : List (heap_node K')) (idx s2 : Nat)
    (a b : heap_node K') (ha : h[idx]? = some a) (hb : h[s2]? = some b)
    (hchild : s2 = left_child idx ∨ s2 = right_child idx)
    (hba : b.expiry < a.expiry)
    (hmin : ∀ c x, (c = left_child idx ∨ c = right_child idx) → h[c]? = some x →
      b.expiry ≤ x.expiry)
    (hA : AlmostHeapAt idx h) :
    AlmostHeapAt s2 (swap_nodes h idx s2) := by
  have hw : ∀ m, (swap_nodes h idx s2)[m]? =
      if m = s2 then some a else if m = idx then some b else h[m]? :=
    fun m => swap_nodes_getElem h idx s2 m a b ha hb
  have hidxlt : idx < s2 := by
    rcases hchild with hc | hc <;> rw [hc] <;> simp only [left_child, right_child] <;> omega
  have hps2 : parent_idx s2 = idx := by
    rcases hchild with hc | hc <;> rw [hc] <;>
      simp only [parent_idx, left_child, right_child] <;> omega
  constructor
  · intro j c d hj0 hpj hjd hpc
    rw [hw] at hjd hpc
    by_cases hjs2 : j = s2
    · subst hjs2
      rw [if_pos rfl] at hjd
      obtain rfl : a = d := Option.some.inj hjd
      rw [hps2] at hpc
      rw [if_neg (by omega), if_pos rfl] at hpc
      obtain rfl : b = c := Option.some.inj hpc
      exact le_of_lt hba
    · rw [if_neg hjs2] at hjd
      by_cases hjidx : j = idx
      · subst hjidx
        rw [if_pos rfl] at hjd
        obtain rfl : b = d := Option.some.inj hjd
        have hpj_ne : parent_idx j ≠ j := by unfold parent_idx; omega
        rw [if_neg hpj, if_neg (by unfold parent_idx; omega)] at hpc
        exact hA.2 s2 c b hps2 hj0 hb hpc
      · rw [if_neg hjidx] at hjd
        by_cases hpidx : parent_idx j = idx
        · rw [hpidx, if_neg (by omega), if_pos rfl] at hpc
          obtain rfl : b = c := Option.some.inj hpc
          have hj_child : j = left_child idx ∨ j = right_child idx := by
            unfold parent_idx at hpidx
            unfold left_child right_child
            omega
          exact hmin j d hj_child hjd
        · rw [if_neg hpj, if_neg hpidx] at hpc
          exact hA.1 j c d hj0 hpidx hjd hpc
  · intro j g d hpj hs2pos hjd hpg
    rw [hw] at hjd hpg
    have hjgt : s2 < j := by unfold parent_idx at hpj; omega
    rw [if_neg (by omega), if_neg (by omega)] at hjd
    rw [hps2, if_neg (by omega), if_pos rfl] at hpg
    obtain rfl : b = g := Option.some.inj hpg
    refine hA.1 j b d (by omega) (by omega) hjd ?_
    rw [hpj]
    exact hb

/-- Sifting down from the only possibly-broken position restores the heap
invariant. -/
theorem heap_bubble_down_isHeap :
    ∀ (fuel : Nat) (h : List (heap_node K)) (e : List (K × HeapEntryData V)) (idx : Nat),
      h.length ≤ fuel + idx → AlmostHeapAt idx h →
      IsHeapP (heap_bubble_down fuel h e idx).1 := by
  intro fuel
  induction fuel with
  | zero =>
    intro h e idx hlen hA
    show IsHeapP h
    intro j a b hj0 hjb hpa
    have hjlen : j < h.length := (List.getElem?_eq_some.1 hjb).choose
    exact hA.1 j a b hj0 (by unfold parent_idx; omega) hjb hpa
  | succ f ih =>
    intro h e idx hlen hA
    rw [heap_bubble_down]
    by_cases hs : bd_target h idx = idx
    · rw [if_pos hs]
      show IsHeapP h
      cases hidx : h[idx]? with
      | none =>
        have hout : h.length ≤ idx := by
          by_contra hc
          rw [List.getElem?_eq_getElem (by omega)] at hidx
          cases hidx
        intro j a b hj0 hjb hpa
        have hjlen : j < h.length := (List.getElem?_eq_some.1 hjb).choose
        exact hA.1 j a b hj0 (by unfold parent_idx; omega) hjb hpa
      | some a =>
        rcases bd_target_analysis h idx a hidx with ⟨_, hch⟩ | ⟨b, _, hchild, hba, _⟩
        · intro j c d hj0 hjd hpc
          by_cases hpj : parent_idx j = idx
          · have hceq : c = a := by
              rw [hpj, hidx] at hpc
              exact (Option.some.inj hpc).symm
            subst hceq
            have hj_child : j = left_child idx ∨ j = right_child idx := by
              unfold parent_idx at hpj
              unfold left_child right_child
              omega
            exact hch j d hj_child hjd
          · exact hA.1 j c d hj0 hpj hjd hpc
        · exfalso
          have hlt : idx < bd_target h idx := by
            rcases hchild with hc | hc <;> rw [hc] <;>
              simp only [left_child, right_child] <;> omega
          omega
    · rw [if_neg hs]
      cases hidx : h[idx]? with
      | none => exact absurd (bd_target_of_none h idx hidx) hs
      | some a =>
        rcases bd_target_analysis h idx a hidx with ⟨heq, _⟩ | ⟨b, hbd, hchild, hba, hmin⟩
        · exact absurd heq hs
        · have hlt : idx < bd_target h idx := by
            rcases hchild with hc | hc <;> rw [hc] <;>
              simp only [left_child, right_child] <;> omega
          refine ih (swap_nodes h idx (bd_target h idx)) _ (bd_target h idx) ?_ ?_
          · rw [swap_nodes_length]
            omega
          · exact almost_heap_swap h idx (bd_target h idx) a b hidx hbd hchild hba hmin hA

/-- In a well-ordered heap the root's expiry bounds every position. -/
theorem isHeap_root_min {K' : Type} (h : List (heap_node K')) (hP : IsHeapP h)
    (root : heap_node K') (hr : h[0]? = some root) :
    ∀ (j : Nat) (x : heap_node K'), h[j]? = some x → root.expiry ≤ x.expiry := by
  intro j
  induction j using Nat.strong_induction_on with
  | _ j ih =>
    intro x hx
    cases Nat.eq_zero_or_pos j with
    | inl h0 =>
      subst h0
      rw [hr] at hx
      obtain rfl : root = x := Option.some.inj hx
      exact le_refl _
    | inr hpos =>
      have hjlen : j < h.length := (List.getElem?_eq_some.1 hx).choose
      have hplt : parent_idx j < j := by unfold parent_idx; omega
      obtain ⟨y, hy⟩ : ∃ y, h[parent_idx j]? = some y :=
        ⟨_, List.getElem?_eq_getElem (by omega)⟩
      exact le_trans (ih (parent_idx j) hplt y hy) (hP j y x hpos hx hy)

/-- In a well-ordered heap the root's expiry bounds every member node. -/
theorem isHeap_root_min_mem {K' : Type} (h : List (heap_node K')) (hP : IsHeapP h)
    (root : heap_node K') (hr : h[0]? = some root) :
    ∀ x ∈ h, root.expiry ≤ x.expiry := by
  intro x hx
  obtain ⟨i, hi⟩ := List.mem_iff_getElem?.1 hx
  exact isHeap_root_min h hP root hr i x hi

/-- The heap-index write keeps the key list. -/
theorem set_heap_index_keys (l : List (K × HeapEntryData V)) (k : K) (i : Nat) :
    (set_heap_index l k i).map Prod.fst = l.map Prod.fst := by
  induction l with
  | nil => rfl
  | cons p rest ih =>
    obtain ⟨k', d⟩ := p
    simp only [set_heap_index, List.map_cons, ih]

/-- The heap-index write keeps every entry's (key, deadline) pair. -/
theorem set_heap_index_eview (l : List (K × HeapEntryData V)) (k : K) (i : Nat) :
    (set_heap_index l k i).map (fun p => (p.1, p.2.expiry)) =
      l.map (fun p => (p.1, p.2.expiry)) := by
  induction l with
  | nil => rfl
  | cons p rest ih =>
    obtain ⟨k', d⟩ := p
    by_cases hk : k' = k <;> simp [set_heap_index, ih, hk]

/-- The heap-index write keeps the due (key, payload) list. -/
theorem set_heap_index_due (l : List (K × HeapEntryData V)) (k : K) (i : Nat) (now : Int) :
    ((set_heap_index l k i).filter (fun p => decide (p.2.expiry ≤ now))).map
        (fun p => (p.1, p.2.info)) =
      (l.filter (fun p => decide (p.2.expiry ≤ now))).map (fun p => (p.1, p.2.info)) := by
  induction l with
  | nil => rfl
  | cons p rest ih =>
    obtain ⟨k', d⟩ := p
    by_cases hk : k' = k <;> by_cases hd : d.expiry ≤ now <;>
      simp [set_heap_index, ih, hk, hd]

/-- `fix_index` keeps the key list. -/
theorem fix_index_keys (l : List (K × HeapEntryData V)) (h : List (heap_node K)) (i : Nat) :
    (fix_index l h i).map Prod.fst = l.map Prod.fst := by
  unfold fix_index
  cases h[i]? with
  | none => rfl
  | some n => exact set_heap_index_keys l n.key i

/-- `fix_index` keeps every entry's (key, deadline) pair. -/
theorem fix_index_eview (l : List (K × HeapEntryData V)) (h : List (heap_node K)) (i : Nat) :
    (fix_index l h i).map (fun p => (p.1, p.2.expiry)) =
      l.map (fun p => (p.1, p.2.expiry)) := by
  unfold fix_index
  cases h[i]? with
  | none => rfl
  | some n => exact set_heap_index_eview l n.key i

/-- `fix_index` keeps the due (key, payload) list. -/
theorem fix_index_due (l : List (K × HeapEntryData V)) (h : List (heap_node K)) (i : Nat)
    (now : Int) :
    ((fix_index l h i).filter (fun p => decide (p.2.expiry ≤ now))).map
        (fun p => (p.1, p.2.info)) =
      (l.filter (fun p => decide (p.2.expiry ≤ now))).map (fun p => (p.1, p.2.info)) := by
  unfold fix_index
  cases h[i]? with
  | none => rfl
  | some n => exact set_heap_index_due l n.key i now

/-- Sifting down keeps the key list of the entry map. -/
theorem heap_bubble_down_keys (fuel : Nat) :
    ∀ (h : List (heap_node K)) (e : List (K × HeapEntryData V)) (idx : Nat),
      ((heap_bubble_down fuel h e idx).2).map Prod.fst = e.map Prod.fst := by
  induction fuel with
  | zero => intro h e idx; rfl
  | succ f ih =>
    intro h e idx
    rw [heap_bubble_down]
    by_cases h1 : bd_target h idx = idx
    · rw [if_pos h1]
    · rw [if_neg h1, ih, fix_index_keys, fix_index_keys]

/-- Sifting down keeps every entry's (key, deadline) pair. -/
theorem heap_bubble_down_eview (fuel : Nat) :
    ∀ (h : List (heap_node K)) (e : List (K × HeapEntryData V)) (idx : Nat),
      ((heap_bubble_down fuel h e idx).2).map (fun p => (p.1, p.2.expiry)) =
        e.map (fun p => (p.1, p.2.expiry)) := by
  induction fuel with
  | zero => intro h e idx; rfl
  | succ f ih =>
    intro h e idx
    rw [heap_bubble_down]
    by_cases h1 : bd_target h idx = idx
    · rw [if_pos h1]
    · rw [if_neg h1, ih, fix_index_eview, fix_index_eview]

/-- Sifting down keeps the due (key, payload) list. -/
theorem heap_bubble_down_due (fuel : Nat) :
    ∀ (h : List (heap_node K)) (e : List (K × HeapEntryData V)) (idx : Nat) (now : Int),
      (((heap_bubble_down fuel h e idx).2).filter (fun p => decide (p.2.expiry ≤ now))).map
          (fun p => (p.1, p.2.info)) =
        (e.filter (fun p => decide (p.2.expiry ≤ now))).map (fun p => (p.1, p.2.info)) := by
  induction fuel with
  | zero => intro h e idx now; rfl
  | succ f ih =>
    intro h e idx now
    rw [heap_bubble_down]
    by_cases h1 : bd_target h idx = idx
    · rw [if_pos h1]
    · rw [if_neg h1, ih, fix_index_due, fix_index_due]

/-- Sifting down permutes the heap array. -/
theorem heap_bubble_down_heap_perm (fuel : Nat) :
    ∀ (h : List (heap_node K)) (e : List (K × HeapEntryData V)) (idx : Nat),
      ((heap_bubble_down fuel h e idx).1).Perm h := by
  induction fuel with
  | zero => intro h e idx; exact List.Perm.refl h
  | succ f ih =>
    intro h e idx
    rw [heap_bubble_down]
    by_cases h1 : bd_target h idx = idx
    · rw [if_pos h1]
    · rw [if_neg h1]
      exact (ih _ _ _).trans (swap_nodes_perm h idx (bd_target h idx))

/-- `dropLast` commutes with a front write. -/
theorem dropLast_set_zero {A : Type} (l : List A) (x : A) :
    (l.set 0 x).dropLast = l.dropLast.set 0 x := by
  cases l with
  | nil => rfl
  | cons a t =>
    cases t with
    | nil => rfl
    | cons b t' => rfl

/-- A list with a known last element splits off that element. -/
theorem eq_dropLast_append_of_getLast {A : Type} (l : List A) (x : A)
    (h : l.getLast? = some x) : l = l.dropLast ++ [x] := by
  have hne : l ≠ [] := by
    intro hc
    subst hc
    simp at h
  have h2 : l.getLast? = some (l.getLast hne) := List.getLast?_eq_getLast l hne
  obtain rfl : x = l.getLast hne := by
    rw [h] at h2
    exact Option.some.inj h2
  exact (List.dropLast_append_getLast hne).symm

/-- Removing the root: the popped heap plus the old root permutes the old
heap. -/
theorem heap_pop_root_perm (h : List (heap_node K)) (e : List (K × HeapEntryData V))
    (root : heap_node K) (h0 : h[0]? = some root) :
    (root :: (heap_pop_root h e).1).Perm h := by
  cases hlast : h.getLast? with
  | none =>
    exfalso
    rw [List.getLast?_eq_none_iff] at hlast
    subst hlast
    simp at h0
  | some last =>
    have hsplit : h = h.dropLast ++ [last] := eq_dropLast_append_of_getLast h last hlast
    have hlen : 0 < h.length := (List.getElem?_eq_some.1 h0).choose
    simp only [heap_pop_root, hlast]
    by_cases hemp : ((h.set 0 last).dropLast).isEmpty = true
    · rw [if_pos hemp]
      have hlen1 : h.length = 1 := by
        have hnil := List.isEmpty_iff.1 hemp
        have hl1 : (h.set 0 last).dropLast.length = 0 := by rw [hnil]; rfl
        rw [List.length_dropLast, List.length_set] at hl1
        omega
      obtain ⟨a, rfl⟩ := List.length_eq_one.1 hlen1
      obtain rfl : a = root := by simpa using h0
      have hnil := List.isEmpty_iff.1 hemp
      rw [hnil]
    · rw [if_neg hemp]
      have hlen2 : 2 ≤ h.length := by
        rcases Nat.lt_or_ge h.length 2 with hc | hc
        · exfalso
          have hl0 : (h.set 0 last).dropLast.length = 0 := by
            rw [List.length_dropLast, List.length_set]
            omega
          exact hemp (List.isEmpty_iff.2 (List.length_eq_zero.1 hl0))
        · exact hc
      have hdrop : (h.set 0 last).dropLast = h.dropLast.set 0 last := dropLast_set_zero h last
      have hd0 : h.dropLast[0]? = some root := by
        rw [List.getElem?_dropLast, if_pos (by omega)]
        exact h0
      have hcons := cons_set_perm h.dropLast 0 last root hd0
      have p1 : (root :: (heap_bubble_down ((h.set 0 last).dropLast).length
            ((h.set 0 last).dropLast) (fix_index e ((h.set 0 last).dropLast) 0) 0).1).Perm
          (root :: (h.set 0 last).dropLast) :=
        (heap_bubble_down_heap_perm _ _ _ _).cons root
      have p2 : (root :: (h.set 0 last).dropLast).Perm (last :: h.dropLast) := by
        rw [hdrop]
        exact hcons
      have p3 : (h.dropLast ++ [last]).Perm h := by
        rw [← hsplit]
      exact ((p1.trans p2).trans
        ((List.perm_append_singleton last h.dropLast).symm.trans p3))

/-- Removing the root keeps the heap invariant. -/
theorem heap_pop_root_prop (h : List (heap_node K)) (e : List (K × HeapEntryData V))
    (hp : heap_prop h = true) : heap_prop (heap_pop_root h e).1 = true := by
  cases hlast : h.getLast? with
  | none =>
    simp only [heap_pop_root, hlast]
    exact hp
  | some last =>
    simp only [heap_pop_root, hlast]
    by_cases hemp : ((h.set 0 last).dropLast).isEmpty = true
    · rw [if_pos hemp]
      rw [List.isEmpty_iff.1 hemp]
      rfl
    · rw [if_neg hemp]
      refine (heap_prop_iff _).2 ?_
      have hget : ∀ (m : Nat) (v : heap_node K), 0 < m →
          ((h.set 0 last).dropLast)[m]? = some v → h[m]? = some v := by
        intro m v hm hv
        rw [List.getElem?_dropLast] at hv
        by_cases hlt : m < (h.set 0 last).length - 1
        · rw [if_pos hlt, List.getElem?_set, if_neg (by omega)] at hv
          exact hv
        · rw [if_neg hlt] at hv
          cases hv
      refine heap_bubble_down_isHeap ((h.set 0 last).dropLast).length
        ((h.set 0 last).dropLast) (fix_index e ((h.set 0 last).dropLast) 0) 0
        (by omega) ⟨?_, ?_⟩
      · intro j c d hj0 hpj hjd hpc
        have hpj0 : 0 < parent_idx j := Nat.pos_of_ne_zero hpj
        exact (heap_prop_iff h).1 hp j c d hj0 (hget j d hj0 hjd)
          (hget (parent_idx j) c hpj0 hpc)
      · intro j g d hpj h00 hjd hpg
        omega

/-- Popping the root keeps the key list of the entry map. -/
theorem heap_pop_root_keys (h : List (heap_node K)) (e : List (K × HeapEntryData V)) :
    ((heap_pop_root h e).2).map Prod.fst = e.map Prod.fst := by
  cases hlast : h.getLast? with
  | none => simp only [heap_pop_root, hlast]
  | some last =>
    simp only [heap_pop_root, hlast]
    by_cases hemp : ((h.set 0 last).dropLast).isEmpty = true
    · rw [if_pos hemp]
    · rw [if_neg hemp, heap_bubble_down_keys, fix_index_keys]

/-- Popping the root keeps every entry's (key, deadline) pair. -/
theorem heap_pop_root_eview (h : List (heap_node K)) (e : List (K × HeapEntryData V)) :
    ((heap_pop_root h e).2).map (fun p => (p.1, p.2.expiry)) =
      e.map (fun p => (p.1, p.2.expiry)) := by
  cases hlast : h.getLast? with
  | none => simp only [heap_pop_root, hlast]
  | some last =>
    simp only [heap_pop_root, hlast]
    by_cases hemp : ((h.set 0 last).dropLast).isEmpty = true
    · rw [if_pos hemp]
    · rw [if_neg hemp, heap_bubble_down_eview, fix_index_eview]

/-- Popping the root keeps the due (key, payload) list. -/
theorem heap_pop_root_due (h : List (heap_node K)) (e : List (K × HeapEntryData V))
    (now : Int) :
    (((heap_pop_root h e).2).filter (fun p => decide (p.2.expiry ≤ now))).map
        (fun p => (p.1, p.2.info)) =
      (e.filter (fun p => decide (p.2.expiry ≤ now))).map (fun p => (p.1, p.2.info)) := by
  cases hlast : h.getLast? with
  | none => simp only [heap_pop_root, hlast]
  | some last =>
    simp only [heap_pop_root, hlast]
    by_cases hemp : ((h.set 0 last).dropLast).isEmpty = true
    · rw [if_pos hemp]
    · rw [if_neg hemp, heap_bubble_down_due, fix_index_due]

/-- Popping the root keeps every key's user-visible view. -/
theorem heap_pop_root_view (h : List (heap_node K)) (e : List (K × HeapEntryData V))
    (k : K) : entry_view ((heap_pop_root h e).2) k = entry_view e k := by
  cases hlast : h.getLast? with
  | none => simp only [heap_pop_root, hlast]
  | some last =>
    simp only [heap_pop_root, hlast]
    by_cases hemp : ((h.set 0 last).dropLast).isEmpty = true
    · rw [if_pos hemp]
    · rw [if_neg hemp, heap_bubble_down_view, fix_index_view]

/-- Decomposition of a true `heap_wf`. -/
theorem heap_wf_parts {st : HeapState K V} (hwf : heap_wf st = true) :
    keys_nodup st.entries = true ∧
    (st.heap.map (fun n => (n.key, n.expiry))).Perm
      (st.entries.map (fun p => (p.1, p.2.expiry))) ∧
    IsHeapP st.heap := by
  simp only [heap_wf, heap_sync, Bool.and_eq_true, decide_eq_true_eq] at hwf
  exact ⟨hwf.1.1, hwf.1.2, (heap_prop_iff _).1 hwf.2⟩

/-- Introduction rule for `heap_wf`. -/
theorem heap_wf_intro {st : HeapState K V} (h1 : keys_nodup st.entries = true)
    (h2 : (st.heap.map (fun n => (n.key, n.expiry))).Perm
      (st.entries.map (fun p => (p.1, p.2.expiry))))
    (h3 : IsHeapP st.heap) : heap_wf st = true := by
  simp only [heap_wf, heap_sync, Bool.and_eq_true, decide_eq_true_eq]
  exact ⟨⟨h1, h2⟩, (heap_prop_iff _).2 h3⟩

/-- Master lemma for the heap variant's firing pass: it makes no
error-handler report, preserves well-formedness, fires exactly the due
entries (each once) when no exception escapes, hands the handler entries
that were present and due at entry with the key already removed from the
snapshot, decomposes an escaping pass at the throwing invocation, and
keeps every due-but-unfired entry present. -/
theorem heap_process_expired_spec (handler : K → V → Except String Unit) (now : Int) :
    ∀ (fuel : Nat) (st : HeapState K V),
      heap_wf st = true →
      st.heap.length ≤ fuel →
      (heap_process_expired handler fuel st now).error_reports = [] ∧
      heap_wf (heap_process_expired handler fuel st now).state = true ∧
      ((heap_process_expired handler fuel st now).escaped = none →
        List.Perm (fired_pairs (heap_process_expired handler fuel st now))
          (heap_due st now)) ∧
      (fired_keys (heap_process_expired handler fuel st now)).Nodup ∧
      (∀ x ∈ (heap_process_expired handler fuel st now).fired,
        heap_contains x.2.2 x.1 = false ∧ heap_get_info x.2.2 x.1 = none) ∧
      (∀ x ∈ (heap_process_expired handler fuel st now).fired,
        ∃ d, find_entry st.entries x.1 = some d ∧ x.2.1 = d.info ∧ d.expiry ≤ now) ∧
      (∀ msg, (heap_process_expired handler fuel st now).escaped = some msg →
        ∃ pre lastx, (heap_process_expired handler fuel st now).fired = pre ++ [lastx] ∧
          handler lastx.1 lastx.2.1 = Except.error msg) ∧
      (∀ p ∈ heap_due st now,
        p.1 ∉ fired_keys (heap_process_expired handler fuel st now) →
        heap_contains (heap_process_expired handler fuel st now).state p.1 = true) := by
  intro fuel
  induction fuel with
  | zero =>
    intro st hwf hlen
    obtain ⟨hnd, hsync, hP⟩ := heap_wf_parts hwf
    have hheap : st.heap = [] := List.eq_nil_of_length_eq_zero (by omega)
    have hentries : st.entries = [] := by
      have hmap : st.entries.map (fun p => (p.1, p.2.expiry)) = [] := by
        refine List.Perm.eq_nil ?_
        rw [hheap] at hsync
        exact hsync.symm
      exact List.map_eq_nil.1 hmap
    have hdue0 : heap_due st now = [] := by
      unfold heap_due
      rw [hentries]
      rfl
    refine ⟨rfl, hwf, ?_, List.nodup_nil, ?_, ?_, ?_, ?_⟩
    · intro _
      rw [hdue0]
      exact List.Perm.refl _
    · intro x hx
      simp [heap_process_expired] at hx
    · intro x hx
      simp [heap_process_expired] at hx
    · intro msg hmsg
      simp [heap_process_expired] at hmsg
    · intro p hp _
      rw [hdue0] at hp
      simp at hp
  | succ fuel ih =>
    intro st hwf hlen
    obtain ⟨hnd, hsync, hP⟩ := heap_wf_parts hwf
    cases hroot : st.heap[0]? with
    | none =>
      have heq : heap_process_expired handler (fuel + 1) st now =
          { state := st, fired := [], escaped := none, error_reports := [] } := by
        simp only [heap_process_expired, hroot]
      have hheap : st.heap = [] := by
        refine List.eq_nil_of_length_eq_zero ?_
        by_contra hc
        rw [List.getElem?_eq_getElem (by omega)] at hroot
        cases hroot
      have hentries : st.entries = [] := by
        have hmap : st.entries.map (fun p => (p.1, p.2.expiry)) = [] := by
          refine List.Perm.eq_nil ?_
          rw [hheap] at hsync
          exact hsync.symm
        exact List.map_eq_nil.1 hmap
      have hdue0 : heap_due st now = [] := by
        unfold heap_due
        rw [hentries]
        rfl
      rw [heq]
      refine ⟨rfl, hwf, ?_, List.nodup_nil, ?_, ?_, ?_, ?_⟩
      · intro _
        rw [hdue0]
        exact List.Perm.refl _
      · intro x hx
        simp at hx
      · intro x hx
        simp at hx
      · intro msg hmsg
        simp at hmsg
      · intro p hp _
        rw [hdue0] at hp
        simp at hp
    | some root =>
      by_cases hduer : root.expiry ≤ now
      case neg =>
        have hdec : decide (root.expiry ≤ now) = false := by simpa using hduer
        have heqN : heap_process_expired handler (fuel + 1) st now =
            { state := st, fired := [], escaped := none, error_reports := [] } := by
          simp only [heap_process_expired, hroot, hdec, Bool.false_eq_true, if_false]
        have hduenil : heap_due st now = [] := by
          unfold heap_due
          rw [show st.entries.filter (fun p => decide (p.2.expiry ≤ now)) = [] from ?_]
          · rfl
          · rw [List.filter_eq_nil_iff]
            intro p hp
            have hmem : (p.1, p.2.expiry) ∈ st.entries.map (fun q => (q.1, q.2.expiry)) :=
              List.mem_map_of_mem _ hp
            have hmem2 := hsync.mem_iff.2 hmem
            obtain ⟨n, hnmem, hne⟩ := List.mem_map.1 hmem2
            have hn2 : n.expiry = p.2.expiry := (Prod.ext_iff.1 hne).2
            have hge := isHeap_root_min_mem st.heap hP root hroot n hnmem
            simp only [decide_eq_true_eq]
            omega
        rw [heqN]
        refine ⟨rfl, hwf, ?_, List.nodup_nil, ?_, ?_, ?_, ?_⟩
        · intro _
          rw [hduenil]
          exact List.Perm.refl _
        · intro x hx
          simp at hx
        · intro x hx
          simp at hx
        · intro msg hmsg
          simp at hmsg
        · intro p hp _
          rw [hduenil] at hp
          simp at hp
      case pos =>
        have hdec : decide (root.expiry ≤ now) = true := by simpa using hduer
        have hmemroot : (root.key, root.expiry) ∈
            st.entries.map (fun q => (q.1, q.2.expiry)) := by
          refine hsync.mem_iff.1 ?_
          refine List.mem_map_of_mem _ ?_
          exact List.mem_iff_getElem?.2 ⟨0, hroot⟩
        obtain ⟨pe, hpemem, hpeeq⟩ := List.mem_map.1 hmemroot
        have hk1 : pe.1 = root.key := (Prod.ext_iff.1 hpeeq).1
        have hk2 : pe.2.expiry = root.expiry := (Prod.ext_iff.1 hpeeq).2
        have hfind : find_entry st.entries root.key = some pe.2 := by
          rw [← hk1]
          obtain ⟨p1, p2⟩ := pe
          exact find_entry_of_mem_nodup hnd hpemem
        set he := heap_pop_root st.heap st.entries with hhe
        set st' : HeapState K V := { entries := erase_entry he.2 root.key, heap := he.1, running := st.running } with hst'
        have hpp : (root :: he.1).Perm st.heap := by
          rw [hhe]
          exact heap_pop_root_perm st.heap st.entries root hroot
        have hkeys2 : (he.2).map Prod.fst = st.entries.map Prod.fst := by
          rw [hhe]
          exact heap_pop_root_keys st.heap st.entries
        have hnd2 : keys_nodup he.2 = true := by
          rw [keys_nodup_iff, hkeys2]
          exact (keys_nodup_iff _).1 hnd
        have heview2 : (he.2).map (fun p => (p.1, p.2.expiry)) =
            st.entries.map (fun p => (p.1, p.2.expiry)) := by
          rw [hhe]
          exact heap_pop_root_eview st.heap st.entries
        have hdue2 : ((he.2).filter (fun p => decide (p.2.expiry ≤ now))).map
            (fun p => (p.1, p.2.info)) = heap_due st now := by
          rw [hhe]
          unfold heap_due
          exact heap_pop_root_due st.heap st.entries now
        have hview2 : ∀ k, entry_view he.2 k = entry_view st.entries k := by
          intro k
          rw [hhe]
          exact heap_pop_root_view st.heap st.entries k
        have hvr : entry_view he.2 root.key = some (pe.2.expiry, pe.2.info) := by
          rw [hview2]
          unfold entry_view
          rw [hfind]
          rfl
        obtain ⟨pd2, hfind2, hexp2, hinfo2⟩ : ∃ pd2, find_entry he.2 root.key = some pd2 ∧
            pd2.expiry = pe.2.expiry ∧ pd2.info = pe.2.info := by
          unfold entry_view at hvr
          cases hf2 : find_entry he.2 root.key with
          | none =>
            rw [hf2] at hvr
            cases hvr
          | some d =>
            rw [hf2] at hvr
            have hdp : (d.expiry, d.info) = (pe.2.expiry, pe.2.info) := by simpa using hvr
            exact ⟨d, rfl, (Prod.ext_iff.1 hdp).1, (Prod.ext_iff.1 hdp).2⟩
        have hperm2 : he.2.Perm ((root.key, pd2) :: st'.entries) :=
          perm_cons_erase_assoc hfind2
        have hwf' : heap_wf st' = true := by
          refine heap_wf_intro ?_ ?_ ?_
          · show keys_nodup (erase_entry he.2 root.key) = true
            exact keys_nodup_of_sublist (erase_entry_sublist _ _) hnd2
          · show (he.1.map (fun n => (n.key, n.expiry))).Perm
              (st'.entries.map (fun p => (p.1, p.2.expiry)))
            have h1 : ((root.key, root.expiry) ::
                he.1.map (fun n => (n.key, n.expiry))).Perm
                (st.heap.map (fun n => (n.key, n.expiry))) := by
              have hmp := hpp.map (fun n : heap_node K => (n.key, n.expiry))
              rw [List.map_cons] at hmp
              exact hmp
            have h2 := hperm2.map (fun p : K × HeapEntryData V => (p.1, p.2.expiry))
            rw [List.map_cons] at h2
            rw [hexp2, hk2] at h2
            have h3 : (st.heap.map (fun n => (n.key, n.expiry))).Perm
                ((root.key, root.expiry) ::
                  st'.entries.map (fun p => (p.1, p.2.expiry))) := by
              refine hsync.trans ?_
              rw [← heview2]
              exact h2
            exact (h1.trans h3).cons_inv
          · show IsHeapP he.1
            refine (heap_prop_iff _).1 ?_
            rw [hhe]
            exact heap_pop_root_prop st.heap st.entries ((heap_prop_iff _).2 hP)
        have hlen' : st'.heap.length ≤ fuel := by
          have hl1 : (root :: he.1).length = st.heap.length := hpp.length_eq
          simp only [List.length_cons] at hl1
          show he.1.length ≤ fuel
          omega
        have hcontains : heap_contains st' root.key = false := by
          unfold heap_contains
          show (find_entry (erase_entry he.2 root.key) root.key).isSome = false
          rw [find_entry_erase_self hnd2 root.key]
          rfl
        have hinfo : heap_get_info st' root.key = none := by
          unfold heap_get_info
          show (find_entry (erase_entry he.2 root.key) root.key).map _ = none
          rw [find_entry_erase_self hnd2 root.key]
          rfl
        have hedue : pe.2.expiry ≤ now := by omega
        have hdueperm : (heap_due st now).Perm
            ((root.key, pe.2.info) :: heap_due st' now) := by
          have hf := hperm2.filter (fun p : K × HeapEntryData V => decide (p.2.expiry ≤ now))
          rw [List.filter_cons] at hf
          rw [show decide (((root.key, pd2) : K × HeapEntryData V).2.expiry ≤ now) = true
            from by simpa [hexp2] using hedue] at hf
          simp only [if_true] at hf
          have hm := hf.map (fun p : K × HeapEntryData V => (p.1, p.2.info))
          rw [List.map_cons] at hm
          rw [hdue2, hinfo2] at hm
          exact hm
        cases hh : handler root.key pe.2.info with
        | error msg =>
          have heqE : heap_process_expired handler (fuel + 1) st now =
              { state := st', fired := [(root.key, pe.2.info, st')], escaped := some msg
                error_reports := [] } := by
            simp only [heap_process_expired, hroot, hdec, hfind, hh, hst', hhe, if_true]
          rw [heqE]
          refine ⟨rfl, hwf', ?_, by simp [fired_keys], ?_, ?_, ?_, ?_⟩
          · intro habs
            simp at habs
          · intro x hx
            rcases List.mem_singleton.1 hx with rfl
            exact ⟨hcontains, hinfo⟩
          · intro x hx
            rcases List.mem_singleton.1 hx with rfl
            exact ⟨pe.2, hfind, rfl, hedue⟩
          · intro msg' hmsg'
            obtain rfl : msg = msg' := by simpa using hmsg'
            exact ⟨[], (root.key, pe.2.info, st'), by simp, hh⟩
          · intro p hp hnotin
            have hne : p.1 ≠ root.key := by
              intro hceq
              exact hnotin (by simp [fired_keys, hceq])
            have hp' : p ∈ heap_due st' now := by
              rcases List.mem_cons.1 (hdueperm.mem_iff.1 hp) with rfl | hmr
              · exact absurd rfl hne
              · exact hmr
            obtain ⟨q, hqmem, hqe⟩ := List.mem_map.1 hp'
            have hqm : q ∈ st'.entries := (List.mem_filter.1 hqmem).1
            show heap_contains st' p.1 = true
            unfold heap_contains
            rw [show p.1 = q.1 from by rw [← hqe]]
            obtain ⟨q1, q2⟩ := q
            exact find_entry_isSome_of_mem hqm
        | ok u =>
          have heqO : heap_process_expired handler (fuel + 1) st now =
              { heap_process_expired handler fuel st' now with
                fired := (root.key, pe.2.info, st') ::
                  (heap_process_expired handler fuel st' now).fired } := by
            simp only [heap_process_expired, hroot, hdec, hfind, hh, hst', hhe, if_true]
          rw [heqO]
          obtain ⟨ihrep, ihwf, ihperm, ihnd, ihsnap, ihprov, ihesc, ihrem⟩ :=
            ih st' hwf' hlen'
          have ihprov' : ∀ x ∈ (heap_process_expired handler fuel st' now).fired,
              ∃ d, find_entry st.entries x.1 = some d ∧ x.2.1 = d.info ∧
                d.expiry ≤ now := by
            intro x hx
            obtain ⟨d', hd', hi', hdd'⟩ := ihprov x hx
            have hne : x.1 ≠ root.key := by
              intro hceq
              rw [hceq, show find_entry st'.entries root.key = none from
                find_entry_erase_self hnd2 root.key] at hd'
              cases hd'
            have hfx : find_entry he.2 x.1 = some d' := by
              rw [← find_entry_erase_ne he.2 hne]
              exact hd'
            have hvx : entry_view st.entries x.1 = some (d'.expiry, d'.info) := by
              rw [← hview2]
              unfold entry_view
              rw [hfx]
              rfl
            unfold entry_view at hvx
            cases hfy : find_entry st.entries x.1 with
            | none =>
              rw [hfy] at hvx
              cases hvx
            | some d'' =>
              rw [hfy] at hvx
              have hdd : (d''.expiry, d''.info) = (d'.expiry, d'.info) := by simpa using hvx
              have hddi : d''.info = d'.info := congrArg Prod.snd hdd
              have hdde : d''.expiry = d'.expiry := congrArg Prod.fst hdd
              refine ⟨d'', rfl, ?_, ?_⟩
              · rw [hi', ← hddi]
              · rw [hdde]
                exact hdd'
          refine ⟨ihrep, ihwf, ?_, ?_, ?_, ?_, ?_, ?_⟩
          · intro hnone
            have hnone' : (heap_process_expired handler fuel st' now).escaped = none := hnone
            show (((root.key, pe.2.info) ::
              fired_pairs (heap_process_expired handler fuel st' now)) : List (K × V)).Perm _
            exact ((ihperm hnone').cons (root.key, pe.2.info)).trans hdueperm.symm
          · show (root.key :: fired_keys (heap_process_expired handler fuel st' now)).Nodup
            rw [List.nodup_cons]
            refine ⟨?_, ihnd⟩
            intro hc
            obtain ⟨x, hx, hxk⟩ := List.mem_map.1 hc
            obtain ⟨d', hd', _, _⟩ := ihprov x hx
            rw [hxk, show find_entry st'.entries root.key = none from
              find_entry_erase_self hnd2 root.key] at hd'
            cases hd'
          · intro x hx
            rcases List.mem_cons.1 hx with rfl | hxr
            · exact ⟨hcontains, hinfo⟩
            · exact ihsnap x hxr
          · intro x hx
            rcases List.mem_cons.1 hx with rfl | hxr
            · exact ⟨pe.2, hfind, rfl, hedue⟩
            · exact ihprov' x hxr
          · intro msg hmsg
            have hmsg' : (heap_process_expired handler fuel st' now).escaped = some msg :=
              hmsg
            obtain ⟨pre, lastx, hfeq, hthrow⟩ := ihesc msg hmsg'
            exact ⟨(root.key, pe.2.info, st') :: pre, lastx, by simp [hfeq], hthrow⟩
          · intro p hp hnotin
            have hne : p.1 ≠ root.key := by
              intro hceq
              exact hnotin (by simp [fired_keys, hceq])
            have hp' : p ∈ heap_due st' now := by
              rcases List.mem_cons.1 (hdueperm.mem_iff.1 hp) with rfl | hmr
              · exact absurd rfl hne
              · exact hmr
            refine ihrem p hp' ?_
            intro hc
            refine hnotin ?_
            show p.1 ∈ (root.key :: fired_keys (heap_process_expired handler fuel st' now))
            exact List.mem_cons_of_mem _ hc

/-- The fired keys are the first components of the fired pairs. -/
theorem fired_keys_eq_pairs {K' V' S : Type} (o : FireOutcome K' V' S) :
    fired_keys o = (fired_pairs o).map Prod.fst := by
  simp [fired_keys, fired_pairs, List.map_map]

/-- Master lemma for the ordered-map variant's full firing pass
(`io::expirator::process_expired`): collect the due prefix of the sorted
queue, then fire those keys. -/
theorem io_process_expired_full_spec (handler : K → V → Except String Unit) (now : Int)
    (st : IoState K V) (hwf : io_wf st = true) :
    (io_process_expired handler st now).error_reports = [] ∧
    ((io_process_expired handler st now).escaped = none →
      List.Perm (fired_pairs (io_process_expired handler st now)) (io_due st now)) ∧
    (fired_keys (io_process_expired handler st now)).Nodup ∧
    (∀ x ∈ (io_process_expired handler st now).fired,
      io_contains x.2.2 x.1 = false ∧ io_get_info x.2.2 x.1 = none) ∧
    (∀ msg, (io_process_expired handler st now).escaped = some msg →
      ∃ pre lastx, (io_process_expired handler st now).fired = pre ++ [lastx] ∧
        handler lastx.1 lastx.2.1 = Except.error msg) ∧
    (∀ p ∈ io_due st now, p.1 ∉ fired_keys (io_process_expired handler st now) →
      io_contains (io_process_expired handler st now).state p.1 = true) := by
  obtain ⟨hnd, hperm, hsort⟩ := io_wf_parts hwf
  have hqknd : (st.expiry_queue.map (fun p : Int × K => p.2)).Nodup := by
    have h1 := hperm.map Prod.fst
    rw [List.map_map, List.map_map] at h1
    have h2 : (st.entries.map
        (Prod.fst ∘ fun p : K × IoEntry V => (p.1, p.2.expiry))).Nodup := by
      have h3 := (keys_nodup_iff _).1 hnd
      simpa [Function.comp] using h3
    have h4 := h1.nodup_iff.2 h2
    simpa [Function.comp] using h4
  have htf : st.expiry_queue.filter (fun p => decide (p.1 ≤ now)) =
      st.expiry_queue.takeWhile (fun p => decide (p.1 ≤ now)) :=
    sorted_filter_eq_takeWhile now hsort
  have hksnd : ((st.expiry_queue.takeWhile (fun p => decide (p.1 ≤ now))).map
      (fun p : Int × K => p.2)).Nodup := by
    refine List.Sublist.nodup ?_ hqknd
    exact (List.takeWhile_sublist _).map _
  have hpres : ∀ k ∈ (st.expiry_queue.takeWhile (fun p => decide (p.1 ≤ now))).map
      (fun p : Int × K => p.2),
      ∃ e, find_entry st.entries k = some e ∧ e.expiry ≤ now := by
    intro k hk
    obtain ⟨q, hq, hqk⟩ := List.mem_map.1 hk
    have hqQ : q ∈ st.expiry_queue := (List.takeWhile_sublist _).subset hq
    have hqf : q ∈ st.expiry_queue.filter (fun p => decide (p.1 ≤ now)) := by
      rw [htf]
      exact hq
    have hqle : q.1 ≤ now := by
      have hq2 := (List.mem_filter.1 hqf).2
      simpa using hq2
    have hmem : ((q.2, q.1) : K × Int) ∈
        st.expiry_queue.map (fun p : Int × K => (p.2, p.1)) :=
      List.mem_map_of_mem _ hqQ
    have hmem2 := hperm.mem_iff.1 hmem
    obtain ⟨p, hpmem, hpe⟩ := List.mem_map.1 hmem2
    have hp1 : p.1 = q.2 := (Prod.ext_iff.1 hpe).1
    have hp2 : p.2.expiry = q.1 := (Prod.ext_iff.1 hpe).2
    refine ⟨p.2, ?_, ?_⟩
    · rw [← hqk, ← hp1]
      obtain ⟨p1, p2⟩ := p
      exact find_entry_of_mem_nodup hnd hpmem
    · rw [hp2]
      exact hqle
  have hm := io_process_keys_spec handler now
    ((st.expiry_queue.takeWhile (fun p : Int × K => decide (p.1 ≤ now))).map
      (fun p : Int × K => p.2)) st hwf hksnd hpres
  obtain ⟨hrep, hwf', hsnap, hdec0, hfp, hesc, hpreserve⟩ := hm
  obtain ⟨rest, hdecomp, hrestnil⟩ := hdec0
  refine ⟨hrep, ?_, ?_, ?_, hesc, ?_⟩
  · -- due permutation under a clean pass
    intro hnone
    have hfp' := hfp hnone
    -- the due keys of the queue permute the due keys of the map
    have hkeysperm : ((st.expiry_queue.takeWhile (fun p => decide (p.1 ≤ now))).map
        (fun p : Int × K => p.2)).Perm
        ((st.entries.filter (fun p => decide (p.2.expiry ≤ now))).map Prod.fst) := by
      have hf := hperm.filter (fun r : K × Int => decide (r.2 ≤ now))
      rw [List.filter_map, List.filter_map] at hf
      have hff := hf.map Prod.fst
      rw [List.map_map, List.map_map] at hff
      have hff' : ((st.expiry_queue.filter (fun q : Int × K => decide (q.1 ≤ now))).map
          (fun q : Int × K => q.2)).Perm
          ((st.entries.filter (fun p : K × IoEntry V => decide (p.2.expiry ≤ now))).map
            Prod.fst) := hff
      rw [htf] at hff'
      exact hff'
    have hdue_eq : io_due st now =
        ((st.entries.filter (fun p => decide (p.2.expiry ≤ now))).map Prod.fst).filterMap
          (fun k => (find_entry st.entries k).map (fun e => (k, e.info))) := by
      rw [List.filterMap_map]
      unfold io_due
      refine (filterMap_eq_map_of_some _ _ _ ?_).symm
      intro p hp
      have hpm : p ∈ st.entries := (List.mem_filter.1 hp).1
      have hfind : find_entry st.entries p.1 = some p.2 := by
        obtain ⟨p1, p2⟩ := p
        exact find_entry_of_mem_nodup hnd hpm
      show ((find_entry st.entries p.1).map fun e => (p.1, e.info)) = some (p.1, p.2.info)
      rw [hfind]
      rfl
    show List.Perm (fired_pairs (io_process_keys handler
      ((st.expiry_queue.takeWhile (fun p : Int × K => decide (p.1 ≤ now))).map
        (fun p : Int × K => p.2)) st)) (io_due st now)
    rw [hfp', hdue_eq]
    exact hkeysperm.filterMap _
  · refine List.Sublist.nodup ?_ hksnd
    rw [hdecomp]
    exact List.sublist_append_left _ _
  · intro x hx
    exact ⟨(hsnap x hx).1, (hsnap x hx).2.1⟩
  · intro p hp hnot
    obtain ⟨q, hqmem, hqe⟩ := List.mem_map.1 hp
    have hqm : q ∈ st.entries := (List.mem_filter.1 hqmem).1
    show (find_entry (io_process_keys handler
      ((st.expiry_queue.takeWhile (fun p : Int × K => decide (p.1 ≤ now))).map
        (fun p : Int × K => p.2)) st).state.entries p.1).isSome = true
    rw [hpreserve p.1 hnot]
    rw [show p.1 = q.1 from by rw [← hqe]]
    obtain ⟨q1, q2⟩ := q
    exact find_entry_isSome_of_mem hqm

/-- Master lemma for the timing-wheel variant's slot pass
(`timing_wheel_expirator::process_slot` on wheel 0). -/
theorem wheel_process_slot_full_spec (handler : K → V → Except String Unit)
    (s : Nat) (now : Int) (st : WheelState K V) (hwf : wheel_slot_wf st s = true) :
    (wheel_process_slot handler st s now).error_reports = [] ∧
    ((wheel_process_slot handler st s now).escaped = none →
      List.Perm (fired_pairs (wheel_process_slot handler st s now))
        (wheel_slot_due st s now)) ∧
    ((wheel_process_slot handler st s now).escaped = none →
      (fired_keys (wheel_process_slot handler st s now)).Nodup) ∧
    (∀ x ∈ (wheel_process_slot handler st s now).fired,
      wheel_contains x.2.2 x.1 = false ∧ wheel_get_info x.2.2 x.1 = none) ∧
    (∀ msg, (wheel_process_slot handler st s now).escaped = some msg →
      (∃ pre lastx, (wheel_process_slot handler st s now).fired = pre ++ [lastx] ∧
        handler lastx.1 lastx.2.1 = Except.error msg) ∧
      (∀ p ∈ wheel_slot_due st s now,
        p.1 ∉ fired_keys (wheel_process_slot handler st s now) →
        wheel_contains (wheel_process_slot handler st s now).state p.1 = true)) := by
  simp only [wheel_slot_wf, Bool.and_eq_true, decide_eq_true_eq, List.all_eq_true] at hwf
  obtain ⟨⟨⟨hs, hknd⟩, hslotnd⟩, hcov⟩ := hwf
  have hm := wheel_process_slot_go_spec handler s now (st.wheel_0.getD s []) [] st hknd
    (by simpa using hslotnd) (fun en hen => hcov en (by simpa using hen)) (by simp) hs
  obtain ⟨hrep, hfp, hsnap, hesc⟩ := hm
  have hkeys : ((st.wheel_0.getD s []).map (fun en : WheelEntry K V => en.key)).Nodup := by
    have h3 := (keys_nodup_iff _).1 hslotnd
    rw [List.map_map] at h3
    simpa [Function.comp] using h3
  refine ⟨hrep, ?_, ?_, hsnap, ?_⟩
  · intro hnone
    show List.Perm (fired_pairs
      (wheel_process_slot_go handler s now (st.wheel_0.getD s []) [] st))
      (wheel_slot_due st s now)
    rw [hfp hnone]
    exact List.Perm.refl _
  · intro hnone
    show (fired_keys
      (wheel_process_slot_go handler s now (st.wheel_0.getD s []) [] st)).Nodup
    rw [fired_keys_eq_pairs, hfp hnone, List.map_map]
    have h2 : (((st.wheel_0.getD s []).filter
        (fun en => decide (en.expiry ≤ now))).map
        (fun en : WheelEntry K V => en.key)).Nodup :=
      List.Sublist.nodup ((List.filter_sublist _).map _) hkeys
    simpa [Function.comp] using h2
  · intro msg hmsg
    refine ⟨(hesc msg hmsg).1, ?_⟩
    intro p hp hnot
    obtain ⟨en, henf, hene⟩ := List.mem_map.1 hp
    have henm : en ∈ st.wheel_0.getD s [] := (List.mem_filter.1 henf).1
    have hend : decide (en.expiry ≤ now) = true := (List.mem_filter.1 henf).2
    have hp1 : p.1 = en.key := by rw [← hene]
    rw [hp1]
    rw [hp1] at hnot
    exact (hesc msg hmsg).2 en henm hend hnot

/-- C2: in every expirator variant, a firing pass with a non-throwing
handler makes no error report, lets no exception escape, invokes the
callback exactly once for each due (key, payload) pair, and at the moment
of each invocation the fired entry is already removed: `contains` is false
and `get_info` empty on the state snapshot the callback runs against. -/
theorem c2_fire_removes_then_invokes (handler : K → V → Except String Unit)
    (hok : ∀ k v, handler k v = Except.ok ()) (now : Int) :
    (∀ (fuel : Nat) (st : HeapState K V), heap_wf st = true → st.heap.length ≤ fuel →
      FiringPost heap_contains heap_get_info (heap_due st now)
        (heap_process_expired handler fuel st now)) ∧
    (∀ st : IoState K V, io_wf st = true →
      FiringPost io_contains io_get_info (io_due st now)
        (io_process_expired handler st now)) ∧
    (∀ (st : WheelState K V) (s : Nat), wheel_slot_wf st s = true →
      FiringPost wheel_contains wheel_get_info (wheel_slot_due st s now)
        (wheel_process_slot handler st s now)) ∧
    (∀ (fuel : Nat) (st : LFState K V), lf_wf st = true →
      st.expiry_queue.length ≤ fuel →
      FiringPost lf_contains lf_get_info (lf_due st now)
        (lf_process_expired handler fuel st now)) := by
  refine ⟨?_, ?_, ?_, ?_⟩
  · intro fuel st hwf hlen
    obtain ⟨hrep, _, hperm, hnd, hsnap, _, hesc, _⟩ :=
      heap_process_expired_spec handler now fuel st hwf hlen
    have hnone : (heap_process_expired handler fuel st now).escaped = none := by
      cases hcase : (heap_process_expired handler fuel st now).escaped with
      | none => rfl
      | some msg =>
        obtain ⟨pre, lastx, _, hthrow⟩ := hesc msg hcase
        rw [hok] at hthrow
        cases hthrow
    exact ⟨hnone, hrep, hperm hnone, hnd, hsnap⟩
  · intro st hwf
    obtain ⟨hrep, hperm, hnd, hsnap, hesc, _⟩ :=
      io_process_expired_full_spec handler now st hwf
    have hnone : (io_process_expired handler st now).escaped = none := by
      cases hcase : (io_process_expired handler st now).escaped with
      | none => rfl
      | some msg =>
        obtain ⟨pre, lastx, _, hthrow⟩ := hesc msg hcase
        rw [hok] at hthrow
        cases hthrow
    exact ⟨hnone, hrep, hperm hnone, hnd, hsnap⟩
  · intro st s hwf
    obtain ⟨hrep, hperm, hnd, hsnap, hesc⟩ :=
      wheel_process_slot_full_spec handler s now st hwf
    have hnone : (wheel_process_slot handler st s now).escaped = none := by
      cases hcase : (wheel_process_slot handler st s now).escaped with
      | none => rfl
      | some msg =>
        obtain ⟨⟨pre, lastx, _, hthrow⟩, _⟩ := hesc msg hcase
        rw [hok] at hthrow
        cases hthrow
    exact ⟨hnone, hrep, hperm hnone, hnd hnone, hsnap⟩
  · intro fuel st hwf hlen
    obtain ⟨hrep, _, hperm, hnd, hsnap, _, hesc, _⟩ :=
      lf_process_expired_spec handler now fuel st hwf hlen
    have hnone : (lf_process_expired handler fuel st now).escaped = none := by
      cases hcase : (lf_process_expired handler fuel st now).escaped with
      | none => rfl
      | some msg =>
        obtain ⟨pre, lastx, _, hthrow⟩ := hesc msg hcase
        rw [hok] at hthrow
        cases hthrow
    refine ⟨hnone, hrep, hperm hnone, hnd, ?_⟩
    intro x hx
    exact ⟨(hsnap x hx).1, (hsnap x hx).2.1⟩

/-- C4 (amended): exceptions thrown by the expiry callback are not caught
in any variant.  The firing pass makes no error-handler report; when an
exception escapes, its invocation is the last of the pass, every invoked
entry had already been removed when its callback ran, and every due entry
whose callback was never invoked is still present afterwards (its callback
is not invoked in that pass). -/
theorem c4_callback_exception_escapes (handler : K → V → Except String Unit)
    (now : Int) :
    (∀ (fuel : Nat) (st : HeapState K V), heap_wf st = true → st.heap.length ≤ fuel →
      EscapePost heap_contains heap_get_info handler (heap_due st now)
        (heap_process_expired handler fuel st now)) ∧
    (∀ st : IoState K V, io_wf st = true →
      EscapePost io_contains io_get_info handler (io_due st now)
        (io_process_expired handler st now)) ∧
    (∀ (st : WheelState K V) (s : Nat), wheel_slot_wf st s = true →
      EscapePost wheel_contains wheel_get_info handler (wheel_slot_due st s now)
        (wheel_process_slot handler st s now)) ∧
    (∀ (fuel : Nat) (st : LFState K V), lf_wf st = true →
      st.expiry_queue.length ≤ fuel →
      EscapePost lf_contains lf_get_info handler (lf_due st now)
        (lf_process_expired handler fuel st now)) := by
  refine ⟨?_, ?_, ?_, ?_⟩
  · intro fuel st hwf hlen
    obtain ⟨hrep, _, _, _, hsnap, _, hesc, hrem⟩ :=
      heap_process_expired_spec handler now fuel st hwf hlen
    exact ⟨hrep, fun msg hmsg => ⟨hesc msg hmsg, hsnap, fun p hp hnot => hrem p hp hnot⟩⟩
  · intro st hwf
    obtain ⟨hrep, _, _, hsnap, hesc, hrem⟩ :=
      io_process_expired_full_spec handler now st hwf
    exact ⟨hrep, fun msg hmsg => ⟨hesc msg hmsg, hsnap, fun p hp hnot => hrem p hp hnot⟩⟩
  · intro st s hwf
    obtain ⟨hrep, _, _, hsnap, hesc⟩ := wheel_process_slot_full_spec handler s now st hwf
    exact ⟨hrep, fun msg hmsg => ⟨(hesc msg hmsg).1, hsnap, (hesc msg hmsg).2⟩⟩
  · intro fuel st hwf hlen
    obtain ⟨hrep, _, _, _, hsnap, _, hesc, hrem⟩ :=
      lf_process_expired_spec handler now fuel st hwf hlen
    refine ⟨hrep, fun msg hmsg => ⟨hesc msg hmsg, ?_, fun p hp hnot => hrem p hp hnot⟩⟩
    intro x hx
    exact ⟨(hsnap x hx).1, (hsnap x hx).2.1⟩

end ExpiratorTheorems

section ClaimWitnesses

/-- C4 counterexample: with two due entries in the heap variant and a
callback that throws for the first fired key, the exception escapes with
no error-handler report, only the first entry's callback runs, and the
second due entry is still present afterwards — refuting "the exception is
caught and reported, and firing proceeds past the throwing entry". -/
theorem c4_exception_ends_pass_counterexample :
    (heap_process_expired
        (fun (k : Nat) (_ : Nat) => if k = 1 then Except.error "boom" else Except.ok ())
        2 (⟨[(1, ⟨1, 10, 0⟩), (2, ⟨2, 20, 1⟩)], [⟨1, 1⟩, ⟨2, 2⟩], true⟩ : HeapState Nat Nat)
        5).escaped = some "boom" ∧
    (heap_process_expired
        (fun (k : Nat) (_ : Nat) => if k = 1 then Except.error "boom" else Except.ok ())
        2 (⟨[(1, ⟨1, 10, 0⟩), (2, ⟨2, 20, 1⟩)], [⟨1, 1⟩, ⟨2, 2⟩], true⟩ : HeapState Nat Nat)
        5).error_reports = [] ∧
    fired_keys (heap_process_expired
        (fun (k : Nat) (_ : Nat) => if k = 1 then Except.error "boom" else Except.ok ())
        2 (⟨[(1, ⟨1, 10, 0⟩), (2, ⟨2, 20, 1⟩)], [⟨1, 1⟩, ⟨2, 2⟩], true⟩ : HeapState Nat Nat)
        5) = [1] ∧
    heap_contains (heap_process_expired
        (fun (k : Nat) (_ : Nat) => if k = 1 then Except.error "boom" else Except.ok ())
        2 (⟨[(1, ⟨1, 10, 0⟩), (2, ⟨2, 20, 1⟩)], [⟨1, 1⟩, ⟨2, 2⟩], true⟩ : HeapState Nat Nat)
        5).state 2 = true ∧
    heap_due (⟨[(1, ⟨1, 10, 0⟩), (2, ⟨2, 20, 1⟩)], [⟨1, 1⟩, ⟨2, 2⟩], true⟩ : HeapState Nat Nat)
      5 = [(1, 10), (2, 20)] := by
  decide

/-- The C2 theorem applied at a concrete due entry in each variant. -/
theorem c2_fire_removes_then_invokes_witness :
    FiringPost heap_contains heap_get_info
      (heap_due (⟨[(1, ⟨3, 10, 0⟩)], [⟨3, 1⟩], true⟩ : HeapState Nat Nat) 5)
      (heap_process_expired (fun _ _ => Except.ok ()) 1
        (⟨[(1, ⟨3, 10, 0⟩)], [⟨3, 1⟩], true⟩ : HeapState Nat Nat) 5) ∧
    FiringPost io_contains io_get_info
      (io_due (⟨[(2, ⟨3, 20⟩)], [(3, 2)], true⟩ : IoState Nat Nat) 5)
      (io_process_expired (fun _ _ => Except.ok ())
        (⟨[(2, ⟨3, 20⟩)], [(3, 2)], true⟩ : IoState Nat Nat) 5) ∧
    FiringPost wheel_contains wheel_get_info
      (wheel_slot_due (⟨0, (List.replicate 256 []).set 0 [⟨1, 30, 2, 0, 0⟩],
        List.replicate 64 [], List.replicate 64 [], List.replicate 64 [],
        [(1, (0, 0))], true⟩ : WheelState Nat Nat) 0 5)
      (wheel_process_slot (fun _ _ => Except.ok ())
        (⟨0, (List.replicate 256 []).set 0 [⟨1, 30, 2, 0, 0⟩],
          List.replicate 64 [], List.replicate 64 [], List.replicate 64 [],
          [(1, (0, 0))], true⟩ : WheelState Nat Nat) 0 5) ∧
    FiringPost lf_contains lf_get_info
      (lf_due (⟨[], 0, 0, [(4, ⟨3, 40⟩)], [(3, 4)], true⟩ : LFState Nat Nat) 5)
      (lf_process_expired (fun _ _ => Except.ok ()) 1
        (⟨[], 0, 0, [(4, ⟨3, 40⟩)], [(3, 4)], true⟩ : LFState Nat Nat) 5) := by
  have h := c2_fire_removes_then_invokes (fun (_ : Nat) (_ : Nat) => Except.ok ()) (fun _ _ => rfl) 5
  exact ⟨h.1 1 _ (by decide) (by decide), h.2.1 _ (by decide),
    h.2.2.1 _ 0 (by decide), h.2.2.2 1 _ (by decide) (by decide)⟩

/-- The amended C4 theorem applied at a concrete due entry in each
variant, with an always-throwing callback. -/
theorem c4_callback_exception_escapes_witness :
    EscapePost heap_contains heap_get_info (fun _ _ => Except.error "x")
      (heap_due (⟨[(1, ⟨3, 10, 0⟩)], [⟨3, 1⟩], true⟩ : HeapState Nat Nat) 5)
      (heap_process_expired (fun _ _ => Except.error "x") 1
        (⟨[(1, ⟨3, 10, 0⟩)], [⟨3, 1⟩], true⟩ : HeapState Nat Nat) 5) ∧
    EscapePost io_contains io_get_info (fun _ _ => Except.error "x")
      (io_due (⟨[(2, ⟨3, 20⟩)], [(3, 2)], true⟩ : IoState Nat Nat) 5)
      (io_process_expired (fun _ _ => Except.error "x")
        (⟨[(2, ⟨3, 20⟩)], [(3, 2)], true⟩ : IoState Nat Nat) 5) ∧
    EscapePost wheel_contains wheel_get_info (fun _ _ => Except.error "x")
      (wheel_slot_due (⟨0, (List.replicate 256 []).set 0 [⟨1, 30, 2, 0, 0⟩],
        List.replicate 64 [], List.replicate 64 [], List.replicate 64 [],
        [(1, (0, 0))], true⟩ : WheelState Nat Nat) 0 5)
      (wheel_process_slot (fun _ _ => Except.error "x")
        (⟨0, (List.replicate 256 []).set 0 [⟨1, 30, 2, 0, 0⟩],
          List.replicate 64 [], List.replicate 64 [], List.replicate 64 [],
          [(1, (0, 0))], true⟩ : WheelState Nat Nat) 0 5) ∧
    EscapePost lf_contains lf_get_info (fun _ _ => Except.error "x")
      (lf_due (⟨[], 0, 0, [(4, ⟨3, 40⟩)], [(3, 4)], true⟩ : LFState Nat Nat) 5)
      (lf_process_expired (fun _ _ => Except.error "x") 1
        (⟨[], 0, 0, [(4, ⟨3, 40⟩)], [(3, 4)], true⟩ : LFState Nat Nat) 5) := by
  have h := c4_callback_exception_escapes (fun (_ : Nat) (_ : Nat) => Except.error "x") 5
  exact ⟨h.1 1 _ (by decide) (by decide), h.2.1 _ (by decide),
    h.2.2.1 _ 0 (by decide), h.2.2.2 1 _ (by decide) (by decide)⟩

end ClaimWitnesses

end Vex
